import Mathlib

/-!
# Export-directory editor (`mpe.go`): shallow embedding and verified properties

The Go program edits the export directory of a PE image in memory.  The
embedding keeps the byte-level view of the source:

* a byte buffer is a `List Nat` (every element is meant to be below 256);
* `uint32`/`uint16` arithmetic is arithmetic on `Nat` followed by `% 2 ^ 32`
  (resp. `% 2 ^ 16`) wherever the source can wrap; Go's `int` is taken to be
  64 bits wide, so the `int` expressions of the source (`i*4`, `len(name)+1`,
  `len(a)-len(b)`) never wrap and are modelled in `Int`/`Nat` directly;
* a Go slice of the directory block is a view `(off, len)` into the one backing
  buffer `dataExport`; writes through a table slice are therefore writes into
  `dataExport`, exactly as in the source, where `funcAddrTable`,
  `nameAddrTable`, `nameOrdiTable` and `nameTable` all alias `dataExport`;
* a run-time panic (slice bounds out of range) is the result `none`;
* the values delivered by the external PE parser (`pe.Export.Struct`,
  `pe.Export.Functions`, the export data directory and its bytes) are inputs.
-/

namespace Mpe

/-- A byte buffer; the elements stand for bytes. -/
abbrev Bytes := List Nat

/-! ## `bytes.Split(·, "\x00")` -/

/-- The call `bytes.Split(s, []byte("\x00"))`: all sub-slices of `s` between NUL
bytes, empty ones included; an input without NUL gives the one-element result. -/
def bytesSplitNul : Bytes → List Bytes
  | [] => [[]]
  | b :: rest =>
    if b = 0 then [] :: bytesSplitNul rest
    else
      match bytesSplitNul rest with
      | [] => [[b]]
      | t :: ts => (b :: t) :: ts

/-! ## The Go map `nameOffsetMap : map[string]uint32` -/

/-- A Go `map[string]uint32` as an association list, newest binding first. -/
abbrev OffsetMap := List (Bytes × Nat)

/-- The assignment `m[key] = value`. -/
def OffsetMap.set (m : OffsetMap) (key : Bytes) (value : Nat) : OffsetMap :=
  (key, value) :: m.filter (fun e => decide (e.1 ≠ key))

/-- The lookup `m[key]`; a missing key yields the zero value of `uint32`. -/
def OffsetMap.get (m : OffsetMap) (key : Bytes) : Nat :=
  match m.find? (fun e => decide (e.1 = key)) with
  | some e => e.2
  | none => 0

/-- The three variables the rebuild loops update: `nameTableNew`,
`nameOffsetMap` and `nameOffset`. -/
structure Rebuild where
  nameTableNew : Bytes
  nameOffsetMap : OffsetMap
  nameOffset : Nat
deriving Repr, DecidableEq

/-- The state before the loop: `make([]byte, 0)`, an empty map, `uint32(0)`. -/
def Rebuild.init : Rebuild := ⟨[], [], 0⟩

/-- The four statements that append one token `text` under the map key `key`:
append the text, append NUL, record the offset, advance the offset (in
`uint32`). -/
def Rebuild.push (st : Rebuild) (key text : Bytes) : Rebuild :=
  { nameTableNew := st.nameTableNew ++ text ++ [0]
    nameOffsetMap := st.nameOffsetMap.set key st.nameOffset
    nameOffset := (st.nameOffset + (text.length + 1) % 2 ^ 32) % 2 ^ 32 }

/-- The padding loop `for i := 0; i < paddingLen; i++` with
`paddingLen := len(nameTable) - len(nameTableNew)` (an `int`, possibly
negative, in which case the loop body never runs). -/
def padNul (nameTable nameTableNew : Bytes) : Bytes :=
  nameTableNew ++ List.replicate ((nameTable.length : Int) - (nameTableNew.length : Int)).toNat 0

/-! ## `delExportFunc`: rebuild of the string region (source lines 163-183) -/

namespace delExportFunc

/-- One iteration of `for _, name := range nameArray` in `delExportFunc`. -/
def rebuildStep (delFuncName : Bytes) (st : Rebuild) (name : Bytes) : Rebuild :=
  if name = delFuncName then st
  else if name = [] then st
  else st.push name name

/-- The whole rebuild loop of `delExportFunc` over `bytes.Split(nameTable, NUL)`. -/
def rebuild (delFuncName nameTable : Bytes) : Rebuild :=
  (bytesSplitNul nameTable).foldl (rebuildStep delFuncName) Rebuild.init

/-- The final value of `nameTableNew` in `delExportFunc`, padding included. -/
def nameTableNew (delFuncName nameTable : Bytes) : Bytes :=
  padNul nameTable (rebuild delFuncName nameTable).nameTableNew

/-- The final value of `nameOffsetMap` in `delExportFunc`. -/
def nameOffsetMap (delFuncName nameTable : Bytes) : OffsetMap :=
  (rebuild delFuncName nameTable).nameOffsetMap

end delExportFunc

/-! ## Fixed-width integers and slices of the directory block -/

/-- The little-endian bytes of `value` in `w` bytes (`binary.LittleEndian.PutUintN`);
bits above `8 * w` are dropped, as the conversion to the `w`-byte type does. -/
def leBytes : Nat → Nat → Bytes
  | 0, _ => []
  | w + 1, value => (value % 256) :: leBytes w (value / 256)

/-- The number whose little-endian bytes are given (`binary.LittleEndian.UintN`). -/
def leValue : Bytes → Nat
  | [] => 0
  | b :: bs => b + 256 * leValue bs

/-- Subtraction of two `uint32` values. -/
def sub32 (a b : Nat) : Nat := (a + 2 ^ 32 - b) % 2 ^ 32

/-- Addition of two `uint32` values. -/
def add32 (a b : Nat) : Nat := (a + b) % 2 ^ 32

/-- A Go slice whose backing array is the directory block: it starts at byte
`off` of the block and has `len` elements.  Its capacity reaches to the end of
the block. -/
structure Slice where
  off : Nat
  len : Nat
deriving Repr, DecidableEq

/-- The slice expression `dataExport[lo:hi]`; out-of-range bounds panic. -/
def sliceOf (buf : Bytes) (lo hi : Nat) : Option Slice :=
  if lo ≤ hi ∧ hi ≤ buf.length then some ⟨lo, hi - lo⟩ else none

/-- The bytes a slice currently shows. -/
def Slice.view (s : Slice) (buf : Bytes) : Bytes := (buf.drop s.off).take s.len

/-- Overwrite `buf` from position `pos` on with the bytes `src`. -/
def writeAt (buf : Bytes) (pos : Nat) (src : Bytes) : Bytes :=
  buf.take pos ++ src ++ buf.drop (pos + src.length)

/-- The source's `ReadInteger[V](data, offset)` for a `w`-byte type `V`.  The
expression `data[offset:offset+w]` is checked against the capacity of `data`,
which ends with the backing block `buf`. -/
def ReadInteger (w : Nat) (buf : Bytes) (data : Slice) (offset : Int) : Option Nat :=
  if 0 ≤ offset ∧ offset.toNat + w ≤ buf.length - data.off then
    some (leValue ((buf.drop (data.off + offset.toNat)).take w))
  else none

/-- The source's `WriteInteger[V](data, offset, value)` for a `w`-byte type `V`:
the block after the write, or `none` for the slice-bounds panic. -/
def WriteInteger (w : Nat) (buf : Bytes) (data : Slice) (offset : Int) (value : Nat) :
    Option Bytes :=
  if 0 ≤ offset ∧ offset.toNat + w ≤ buf.length - data.off then
    some (writeAt buf (data.off + offset.toNat) (leBytes w value))
  else none

/-- Go's built-in `copy(dst, src)` for a destination slice of the block: it
copies `min(len(dst), len(src))` bytes. -/
def goCopy (buf : Bytes) (dst : Slice) (src : Bytes) : Bytes :=
  writeAt buf dst.off (src.take dst.len)

/-! ## What the code reads off the parsed image -/

/-- The fields of `peparser.ExportFunction` the program uses. -/
structure ExportFunction where
  Ordinal : Nat
  FunctionRVA : Nat
  NameOrdinal : Nat
  NameRVA : Nat
  Name : Bytes
deriving Repr, DecidableEq

/-- The zero value `peparser.ExportFunction{}`. -/
def ExportFunction.zero : ExportFunction := ⟨0, 0, 0, 0, []⟩

/-- The fields of `pe.Export.Struct` (the export directory header) the program uses. -/
structure ExportStruct where
  Name : Nat
  Base : Nat
  NumberOfFunctions : Nat
  NumberOfNames : Nat
  AddressOfFunctions : Nat
  AddressOfNames : Nat
  AddressOfNameOrdinals : Nat
deriving Repr, DecidableEq

/-- The export entry of the data directory, `peparser.DataDirectory`. -/
structure DataDirectory where
  VirtualAddress : Nat
  Size : Nat
deriving Repr, DecidableEq

/-- The parser results one command consumes: `pe.Export.Struct`,
`pe.Export.Functions`, `getExportDirectory(pe)` and the bytes returned by
`pe.GetData(dirExport.VirtualAddress, dirExport.Size)`. -/
structure Parsed where
  Struct : ExportStruct
  Functions : List ExportFunction
  dirExport : DataDirectory
  dataExportOri : Bytes
deriving Repr, DecidableEq

/-- The block `dataExport := make([]byte, dirExport.Size)` after
`copy(dataExport, dataExportOri)`. -/
def Parsed.dataExport (pe : Parsed) : Bytes :=
  pe.dataExportOri.take pe.dirExport.Size ++
    List.replicate (pe.dirExport.Size - pe.dataExportOri.length) 0

/-- The four slices taken from the block (source lines 148-161, and the same
lines in the other two commands). -/
structure Tables where
  funcAddrTable : Slice
  nameAddrTable : Slice
  nameOrdiTable : Slice
  nameTable : Slice
deriving Repr, DecidableEq

/-- The variable `funcAddrTableOff`. -/
def Parsed.funcAddrTableOff (pe : Parsed) : Nat :=
  sub32 pe.Struct.AddressOfFunctions pe.dirExport.VirtualAddress

/-- The variable `funcAddrTableSize`. -/
def Parsed.funcAddrTableSize (pe : Parsed) : Nat := (4 * pe.Struct.NumberOfFunctions) % 2 ^ 32

/-- The variable `nameAddrTableOff`. -/
def Parsed.nameAddrTableOff (pe : Parsed) : Nat :=
  sub32 pe.Struct.AddressOfNames pe.dirExport.VirtualAddress

/-- The variable `nameAddrTableSize`. -/
def Parsed.nameAddrTableSize (pe : Parsed) : Nat := (4 * pe.Struct.NumberOfNames) % 2 ^ 32

/-- The variable `nameOrdiTableOff`. -/
def Parsed.nameOrdiTableOff (pe : Parsed) : Nat :=
  sub32 pe.Struct.AddressOfNameOrdinals pe.dirExport.VirtualAddress

/-- The variable `nameOrdiTableSize`. -/
def Parsed.nameOrdiTableSize (pe : Parsed) : Nat := (2 * pe.Struct.NumberOfNames) % 2 ^ 32

/-- The start of the string region, `pe.Export.Struct.Name - dirExport.VirtualAddress`. -/
def Parsed.nameTableOff (pe : Parsed) : Nat :=
  sub32 pe.Struct.Name pe.dirExport.VirtualAddress

/-- Source lines 148-161: the four slice expressions over `dataExport`; the upper
bounds `off+size` are `uint32` sums.  Any of them may panic. -/
def Parsed.tables (pe : Parsed) : Option Tables :=
  match sliceOf pe.dataExport pe.funcAddrTableOff (add32 pe.funcAddrTableOff pe.funcAddrTableSize),
        sliceOf pe.dataExport pe.nameAddrTableOff (add32 pe.nameAddrTableOff pe.nameAddrTableSize),
        sliceOf pe.dataExport pe.nameOrdiTableOff (add32 pe.nameOrdiTableOff pe.nameOrdiTableSize),
        sliceOf pe.dataExport pe.nameTableOff pe.dataExport.length with
  | some f, some a, some o, some n => some ⟨f, a, o, n⟩
  | _, _, _, _ => none

/-! ## Position resolver (source lines 187-201, 326-339, 450-459) -/

/-- The inner loop `for ; i < int(NumberOfNames); i++` started at index `i` with
`remaining` iterations left: the first index whose entry of the name-address
array equals `nameRVA`, or the index reached when the loop runs out. -/
def positionFrom (buf : Bytes) (nameAddrTable : Slice) (nameRVA : Nat) : Nat → Nat → Option Nat
  | 0, i => some i
  | remaining + 1, i =>
    match ReadInteger 4 buf nameAddrTable ((i : Int) * 4) with
    | none => none
    | some v => if v = nameRVA then some i else positionFrom buf nameAddrTable nameRVA remaining (i + 1)

/-- The value of `i` after the inner loop for one function. -/
def position (buf : Bytes) (nameAddrTable : Slice) (numberOfNames nameRVA : Nat) : Option Nat :=
  positionFrom buf nameAddrTable nameRVA numberOfNames 0

/-- The Go map `sortedFunctions : map[int]peparser.ExportFunction`, one entry
per key. -/
abbrev FuncMap := List (Nat × ExportFunction)

/-- The assignment `sortedFunctions[i] = efunc`. -/
def FuncMap.set (m : FuncMap) (i : Nat) (efunc : ExportFunction) : FuncMap :=
  (i, efunc) :: m.filter (fun e => decide (e.1 ≠ i))

/-- What the resolver loop of `delExportFunc` leaves behind; `index` is
`delFuncIndex` (resp. `srcFuncIndex`), an `int` that starts at `-1`, and `func`
is `delFunc`. -/
structure Resolved where
  sortedFunctions : FuncMap
  index : Int
  func : ExportFunction
deriving Repr, DecidableEq

/-- The state before the resolver loop. -/
def Resolved.init : Resolved := ⟨[], -1, ExportFunction.zero⟩

/-- One iteration of `for _, efunc := range pe.Export.Functions` in
`delExportFunc` (and, without `delFunc`, in `modExportFunc`). -/
def resolveStep (buf : Bytes) (nameAddrTable : Slice) (numberOfNames : Nat) (target : Bytes)
    (st : Resolved) (efunc : ExportFunction) : Option Resolved :=
  match position buf nameAddrTable numberOfNames efunc.NameRVA with
  | none => none
  | some i =>
    let sorted := st.sortedFunctions.set i efunc
    if efunc.Name = target then some ⟨sorted, (i : Int), efunc⟩
    else some ⟨sorted, st.index, st.func⟩

/-- The resolver loop over `pe.Export.Functions`. -/
def resolveFrom (buf : Bytes) (nameAddrTable : Slice) (numberOfNames : Nat) (target : Bytes) :
    Resolved → List ExportFunction → Option Resolved
  | st, [] => some st
  | st, efunc :: rest =>
    match resolveStep buf nameAddrTable numberOfNames target st efunc with
    | none => none
    | some st1 => resolveFrom buf nameAddrTable numberOfNames target st1 rest

/-- The resolver loop from its initial state. -/
def resolve (buf : Bytes) (nameAddrTable : Slice) (numberOfNames : Nat) (target : Bytes)
    (functions : List ExportFunction) : Option Resolved :=
  resolveFrom buf nameAddrTable numberOfNames target Resolved.init functions

/-- How one command run ends at the level of the directory block: `done` with
the patched block that goes on to be written out, `noop` for the plain `return`
that writes nothing, `fatal` for a panic. -/
inductive Outcome where
  | done (dataExport : Bytes)
  | noop
  | fatal
deriving Repr, DecidableEq

/-- The order in which one `for i, efunc := range sortedFunctions` visits the
entries of the map.  Go leaves it unspecified; a run is described by a function
that returns the entries of the map in the order of the visit. -/
abbrev RangeOrder := FuncMap → FuncMap

/-- A visiting order is admissible when it lists every entry of the map once. -/
def RangeOrder.Admissible (rangeOrder : RangeOrder) : Prop :=
  ∀ m : FuncMap, (rangeOrder m).Perm m

/-! ## `delExportFunc` (source lines 145-230) -/

namespace delExportFunc

/-- One iteration of `for i, efunc := range sortedFunctions` (source lines
209-222); `buf` is the block `dataExport` the two table slices alias. -/
def rewriteStep (pe : Parsed) (t : Tables) (nameOffsetMap : OffsetMap) (delFuncName : Bytes)
    (delFuncIndex : Int) (buf : Bytes) (entry : Nat × ExportFunction) : Option Bytes :=
  if entry.2.Name = delFuncName then some buf
  else
    let nameRVA := add32 pe.Struct.Name (nameOffsetMap.get entry.2.Name)
    if (entry.1 : Int) > delFuncIndex then
      match WriteInteger 4 buf t.nameAddrTable ((entry.1 : Int) * 4 - 4) nameRVA with
      | none => none
      | some buf1 =>
        WriteInteger 2 buf1 t.nameOrdiTable ((entry.1 : Int) * 2 - 2) (entry.2.NameOrdinal % 2 ^ 16)
    else
      match WriteInteger 4 buf t.nameAddrTable ((entry.1 : Int) * 4) nameRVA with
      | none => none
      | some buf1 =>
        WriteInteger 2 buf1 t.nameOrdiTable ((entry.1 : Int) * 2) (entry.2.NameOrdinal % 2 ^ 16)

/-- The rewrite loop over the entries in the order of the visit. -/
def rewrite (pe : Parsed) (t : Tables) (nameOffsetMap : OffsetMap) (delFuncName : Bytes)
    (delFuncIndex : Int) : Bytes → List (Nat × ExportFunction) → Option Bytes
  | buf, [] => some buf
  | buf, entry :: rest =>
    match rewriteStep pe t nameOffsetMap delFuncName delFuncIndex buf entry with
    | none => none
    | some buf1 => rewrite pe t nameOffsetMap delFuncName delFuncIndex buf1 rest

/-- Source lines 224-230: zero the function-address slot of the deleted
function, store `NumberOfNames-1` at byte 24 of the block, copy the three
table slices onto themselves and copy the rebuilt string region back. -/
def patch (pe : Parsed) (t : Tables) (delFunc : ExportFunction) (nameTableNew : Bytes)
    (buf : Bytes) : Option Bytes :=
  match WriteInteger 4 buf t.funcAddrTable
      (((sub32 delFunc.Ordinal pe.Struct.Base : Nat) : Int) * 4) 0 with
  | none => none
  | some b1 =>
    match WriteInteger 4 b1 ⟨0, b1.length⟩ (6 * 4) (sub32 pe.Struct.NumberOfNames 1) with
    | none => none
    | some b2 =>
      let b3 := goCopy b2 t.funcAddrTable (t.funcAddrTable.view b2)
      let b4 := goCopy b3 t.nameAddrTable (t.nameAddrTable.view b3)
      let b5 := goCopy b4 t.nameOrdiTable (t.nameOrdiTable.view b4)
      some (goCopy b5 t.nameTable nameTableNew)

/-- The block handling of `delExportFunc`, source lines 145-230, for the target
name `delFuncName`; the result is the final `dataExport`. -/
def dataExport (delFuncName : Bytes) (pe : Parsed) (rangeOrder : RangeOrder) : Outcome :=
  match pe.tables with
  | none => Outcome.fatal
  | some t =>
    let buf := pe.dataExport
    let nameTable := t.nameTable.view buf
    match resolve buf t.nameAddrTable pe.Struct.NumberOfNames delFuncName pe.Functions with
    | none => Outcome.fatal
    | some r =>
      if r.index = -1 then Outcome.noop
      else
        match rewrite pe t (nameOffsetMap delFuncName nameTable) delFuncName r.index buf
            (rangeOrder r.sortedFunctions) with
        | none => Outcome.fatal
        | some buf1 =>
          match patch pe t r.func (nameTableNew delFuncName nameTable) buf1 with
          | none => Outcome.fatal
          | some out => Outcome.done out

end delExportFunc

/-! ## `modExportFunc` (source lines 282-357) -/

/-- One iteration of the rewrite loop of `modExportFunc` and of `modExportName`
(source lines 347-352 and 462-467, the same text): both writes go to slot `i`. -/
def rewriteInPlaceStep (pe : Parsed) (t : Tables) (nameOffsetMap : OffsetMap)
    (buf : Bytes) (entry : Nat × ExportFunction) : Option Bytes :=
  let nameRVA := add32 pe.Struct.Name (nameOffsetMap.get entry.2.Name)
  match WriteInteger 4 buf t.nameAddrTable ((entry.1 : Int) * 4) nameRVA with
  | none => none
  | some buf1 =>
    WriteInteger 2 buf1 t.nameOrdiTable ((entry.1 : Int) * 2) (entry.2.NameOrdinal % 2 ^ 16)

/-- The rewrite loop of `modExportFunc` and `modExportName` in the order of the visit. -/
def rewriteInPlace (pe : Parsed) (t : Tables) (nameOffsetMap : OffsetMap) :
    Bytes → List (Nat × ExportFunction) → Option Bytes
  | buf, [] => some buf
  | buf, entry :: rest =>
    match rewriteInPlaceStep pe t nameOffsetMap buf entry with
    | none => none
    | some buf1 => rewriteInPlace pe t nameOffsetMap buf1 rest

/-- Source lines 354-357 and 469-472: the three table slices are copied onto
themselves and the rebuilt string region is copied back. -/
def patchInPlace (t : Tables) (nameTableNew : Bytes) (b2 : Bytes) : Bytes :=
  let b3 := goCopy b2 t.funcAddrTable (t.funcAddrTable.view b2)
  let b4 := goCopy b3 t.nameAddrTable (t.nameAddrTable.view b3)
  let b5 := goCopy b4 t.nameOrdiTable (t.nameOrdiTable.view b4)
  goCopy b5 t.nameTable nameTableNew

namespace modExportFunc

/-- One iteration of `for _, name := range nameArray` in `modExportFunc`
(source lines 305-320). -/
def rebuildStep (srcFuncName dstFuncName : Bytes) (st : Rebuild) (name : Bytes) : Rebuild :=
  if name = [] then st
  else if name = srcFuncName then st.push name dstFuncName
  else st.push name name

/-- The rebuild loop of `modExportFunc`. -/
def rebuild (srcFuncName dstFuncName nameTable : Bytes) : Rebuild :=
  (bytesSplitNul nameTable).foldl (rebuildStep srcFuncName dstFuncName) Rebuild.init

/-- The final value of `nameTableNew` in `modExportFunc`, padding included. -/
def nameTableNew (srcFuncName dstFuncName nameTable : Bytes) : Bytes :=
  padNul nameTable (rebuild srcFuncName dstFuncName nameTable).nameTableNew

/-- The final value of `nameOffsetMap` in `modExportFunc`. -/
def nameOffsetMap (srcFuncName dstFuncName nameTable : Bytes) : OffsetMap :=
  (rebuild srcFuncName dstFuncName nameTable).nameOffsetMap

/-- The block handling of `modExportFunc`, source lines 282-357. -/
def dataExport (srcFuncName dstFuncName : Bytes) (pe : Parsed) (rangeOrder : RangeOrder) :
    Outcome :=
  match pe.tables with
  | none => Outcome.fatal
  | some t =>
    let buf := pe.dataExport
    let nameTable := t.nameTable.view buf
    match resolve buf t.nameAddrTable pe.Struct.NumberOfNames srcFuncName pe.Functions with
    | none => Outcome.fatal
    | some r =>
      if r.index = -1 then Outcome.noop
      else
        match rewriteInPlace pe t (nameOffsetMap srcFuncName dstFuncName nameTable) buf
            (rangeOrder r.sortedFunctions) with
        | none => Outcome.fatal
        | some buf1 =>
          Outcome.done (patchInPlace t (nameTableNew srcFuncName dstFuncName nameTable) buf1)

end modExportFunc

/-! ## `modExportName` (source lines 406-472) -/

namespace modExportName

/-- One iteration of `for i, name := range nameArray` in `modExportName`
(source lines 429-444). -/
def rebuildStep (dstExportName : Bytes) (st : Rebuild) (i : Nat) (name : Bytes) : Rebuild :=
  if name = [] then st
  else if i = 0 then st.push name dstExportName
  else st.push name name

/-- The rebuild loop of `modExportName` from index `i` on. -/
def rebuildFrom (dstExportName : Bytes) : Nat → Rebuild → List Bytes → Rebuild
  | _, st, [] => st
  | i, st, name :: rest => rebuildFrom dstExportName (i + 1) (rebuildStep dstExportName st i name) rest

/-- The rebuild loop of `modExportName`. -/
def rebuild (dstExportName nameTable : Bytes) : Rebuild :=
  rebuildFrom dstExportName 0 Rebuild.init (bytesSplitNul nameTable)

/-- The final value of `nameTableNew` in `modExportName`, padding included. -/
def nameTableNew (dstExportName nameTable : Bytes) : Bytes :=
  padNul nameTable (rebuild dstExportName nameTable).nameTableNew

/-- The final value of `nameOffsetMap` in `modExportName`. -/
def nameOffsetMap (dstExportName nameTable : Bytes) : OffsetMap :=
  (rebuild dstExportName nameTable).nameOffsetMap

/-- The block handling of `modExportName`, source lines 406-472.  Its resolver
loop is the one of `modExportFunc` without the name test; only the map
`sortedFunctions` is used, which does not depend on the target. -/
def dataExport (dstExportName : Bytes) (pe : Parsed) (rangeOrder : RangeOrder) : Outcome :=
  match pe.tables with
  | none => Outcome.fatal
  | some t =>
    let buf := pe.dataExport
    let nameTable := t.nameTable.view buf
    match resolve buf t.nameAddrTable pe.Struct.NumberOfNames [] pe.Functions with
    | none => Outcome.fatal
    | some r =>
      match rewriteInPlace pe t (nameOffsetMap dstExportName nameTable) buf
          (rangeOrder r.sortedFunctions) with
      | none => Outcome.fatal
      | some buf1 => Outcome.done (patchInPlace t (nameTableNew dstExportName nameTable) buf1)

end modExportName

/-! ## A sample directory block

The scenario of the specification: a module `m.dll` exporting `Alpha`, `Beta`
and `Gamma` at ordinals 1, 2 and 3.  The block starts at RVA `0x1000`; the
40-byte header is followed by the function-address array (bytes 40-51), the
name-address array (52-63), the name-ordinal array (64-69) and the string
region (70-92). -/

/-- The text of an ASCII string as bytes. -/
def ascii (s : String) : Bytes := s.toList.map Char.toNat

/-- The bytes of the sample directory block. -/
def sampleBlock : Bytes :=
  leBytes 4 0 ++ leBytes 4 0 ++ leBytes 2 0 ++ leBytes 2 0 ++
  leBytes 4 4166 ++ leBytes 4 1 ++ leBytes 4 3 ++ leBytes 4 3 ++
  leBytes 4 4136 ++ leBytes 4 4148 ++ leBytes 4 4160 ++
  (leBytes 4 8192 ++ leBytes 4 8208 ++ leBytes 4 8224) ++
  (leBytes 4 4172 ++ leBytes 4 4178 ++ leBytes 4 4183) ++
  (leBytes 2 0 ++ leBytes 2 1 ++ leBytes 2 2) ++
  (ascii "m.dll" ++ [0] ++ ascii "Alpha" ++ [0] ++ ascii "Beta" ++ [0] ++ ascii "Gamma" ++ [0])

/-- The parser results for the sample block. -/
def samplePE : Parsed :=
  { Struct :=
      { Name := 4166, Base := 1, NumberOfFunctions := 3, NumberOfNames := 3,
        AddressOfFunctions := 4136, AddressOfNames := 4148, AddressOfNameOrdinals := 4160 }
    Functions :=
      [ ⟨1, 8192, 0, 4172, ascii "Alpha"⟩,
        ⟨2, 8208, 1, 4178, ascii "Beta"⟩,
        ⟨3, 8224, 2, 4183, ascii "Gamma"⟩ ]
    dirExport := { VirtualAddress := 4096, Size := 93 }
    dataExportOri := sampleBlock }

/-! ## Definitions used to state and prove the properties -/

/-- The concatenation of tokens, each followed by NUL. -/
def joinNul (ts : List Bytes) : Bytes := ts.flatMap (fun t => t ++ [0])

/-- The `w` bytes of `buf` from position `pos` on. -/
def field (buf : Bytes) (pos w : Nat) : Bytes := (buf.drop pos).take w

/-- A write of the bytes `w.2` at position `w.1` of the block. -/
abbrev Write := Nat × Bytes

/-- A write covers position `j`. -/
def Write.Covers (w : Write) (j : Nat) : Prop := w.1 ≤ j ∧ j < w.1 + w.2.length

/-- The block after a sequence of writes, first write first. -/
def applyWrites (buf : Bytes) (ws : List Write) : Bytes :=
  ws.foldl (fun b w => writeAt b w.1 w.2) buf

/-- The two writes of one loop iteration that targets slot `k`: the name
address into slot `k` of the name-address array and the name ordinal into slot
`k` of the name-ordinal array. -/
def slotWrites (pe : Parsed) (t : Tables) (nameOffsetMap : OffsetMap) (k : Nat)
    (efunc : ExportFunction) : List Write :=
  [(t.nameAddrTable.off + 4 * k, leBytes 4 (add32 pe.Struct.Name (nameOffsetMap.get efunc.Name))),
   (t.nameOrdiTable.off + 2 * k, leBytes 2 (efunc.NameOrdinal % 2 ^ 16))]

/-- The slot an entry at position `i` is written to by `delExportFunc`. -/
def delExportFunc.slot (delFuncIndex : Int) (i : Nat) : Nat :=
  if (i : Int) > delFuncIndex then i - 1 else i

/-- The writes of one iteration of the rewrite loop of `delExportFunc`. -/
def delExportFunc.writes (pe : Parsed) (t : Tables) (nameOffsetMap : OffsetMap)
    (delFuncName : Bytes) (delFuncIndex : Int) (entry : Nat × ExportFunction) : List Write :=
  if entry.2.Name = delFuncName then []
  else slotWrites pe t nameOffsetMap (delExportFunc.slot delFuncIndex entry.1) entry.2

/-- The name-address array and the name-ordinal array lie inside the block and
do not overlap. -/
def Parsed.NameTablesApart (pe : Parsed) : Prop :=
  pe.nameAddrTableOff + 4 * pe.Struct.NumberOfNames ≤ pe.dirExport.Size ∧
  pe.nameOrdiTableOff + 2 * pe.Struct.NumberOfNames ≤ pe.dirExport.Size ∧
  (pe.nameAddrTableOff + 4 * pe.Struct.NumberOfNames ≤ pe.nameOrdiTableOff ∨
    pe.nameOrdiTableOff + 2 * pe.Struct.NumberOfNames ≤ pe.nameAddrTableOff)

/-- The three tables and the string region start after the 40-byte header of
the directory block. -/
def Parsed.AfterHeader (pe : Parsed) : Prop :=
  40 ≤ pe.funcAddrTableOff ∧ 40 ≤ pe.nameAddrTableOff ∧ 40 ≤ pe.nameOrdiTableOff ∧
    40 ≤ pe.nameTableOff

/-- The function-address array, the name-address array, the name-ordinal array
and the string region (which reaches to the end of the block) lie inside the
block and are pairwise disjoint. -/
def Parsed.RegionsDisjoint (pe : Parsed) : Prop :=
  pe.NameTablesApart ∧
  pe.nameTableOff ≤ pe.dirExport.Size ∧
  pe.funcAddrTableOff + 4 * pe.Struct.NumberOfFunctions ≤ pe.nameTableOff ∧
  pe.nameAddrTableOff + 4 * pe.Struct.NumberOfNames ≤ pe.nameTableOff ∧
  pe.nameOrdiTableOff + 2 * pe.Struct.NumberOfNames ≤ pe.nameTableOff ∧
  (pe.funcAddrTableOff + 4 * pe.Struct.NumberOfFunctions ≤ pe.nameAddrTableOff ∨
    pe.nameAddrTableOff + 4 * pe.Struct.NumberOfNames ≤ pe.funcAddrTableOff) ∧
  (pe.funcAddrTableOff + 4 * pe.Struct.NumberOfFunctions ≤ pe.nameOrdiTableOff ∨
    pe.nameOrdiTableOff + 2 * pe.Struct.NumberOfNames ≤ pe.funcAddrTableOff)

/-- The result of the resolver loop of a command with target name `target`. -/
def Parsed.resolved (pe : Parsed) (target : Bytes) : Option Resolved :=
  match pe.tables with
  | none => none
  | some t => resolve pe.dataExport t.nameAddrTable pe.Struct.NumberOfNames target pe.Functions

/-- The string region `nameTable` of the original block. -/
def Parsed.nameTable (pe : Parsed) : Bytes := pe.dataExport.drop pe.nameTableOff

/-- The facts about the resolver state that hold after every iteration. -/
structure Resolved.Inv (numberOfNames : Nat) (target : Bytes) (st : Resolved) : Prop where
  key_le : ∀ e ∈ st.sortedFunctions, e.1 ≤ numberOfNames
  functional : ∀ i f g, (i, f) ∈ st.sortedFunctions → (i, g) ∈ st.sortedFunctions → f = g
  found : st.index = -1 ∨ (0 ≤ st.index ∧ st.func.Name = target)

/-- All writes of a run of `delExportFunc` that reaches the end, in order: the
rewrite loop, the zeroed function-address slot, the `NumberOfNames` field and
the rebuilt string region. -/
def delExportFunc.allWrites (delFuncName : Bytes) (pe : Parsed) (t : Tables) (r : Resolved)
    (rangeOrder : RangeOrder) : List Write :=
  (rangeOrder r.sortedFunctions).flatMap
      (delExportFunc.writes pe t (delExportFunc.nameOffsetMap delFuncName pe.nameTable)
        delFuncName r.index) ++
    [(t.funcAddrTable.off + 4 * sub32 r.func.Ordinal pe.Struct.Base, leBytes 4 0),
     (24, leBytes 4 (sub32 pe.Struct.NumberOfNames 1)),
     (t.nameTable.off, (delExportFunc.nameTableNew delFuncName pe.nameTable).take t.nameTable.len)]

/-- All writes of a run of `modExportFunc` or `modExportName` that reaches the
end, in order: the rewrite loop and the rebuilt string region. -/
def inPlaceWrites (pe : Parsed) (t : Tables) (r : Resolved) (rangeOrder : RangeOrder)
    (nameOffsetMap : OffsetMap) (nameTableNew : Bytes) : List Write :=
  (rangeOrder r.sortedFunctions).flatMap (fun e => slotWrites pe t nameOffsetMap e.1 e.2) ++
    [(t.nameTable.off, nameTableNew.take t.nameTable.len)]

/-- A sequence of pushes `(key, text)` applied to a rebuild state, first push
first. -/
def Rebuild.pushAll (st : Rebuild) (plan : List (Bytes × Bytes)) : Rebuild :=
  plan.foldl (fun s kt => s.push kt.1 kt.2) st

/-- The pushes of the rebuild loop of `delExportFunc`: every non-empty token
other than the target, under its own name. -/
def delExportFunc.plan (delFuncName : Bytes) (tokens : List Bytes) : List (Bytes × Bytes) :=
  (tokens.filter (fun t => decide (t ≠ [] ∧ t ≠ delFuncName))).map (fun t => (t, t))

/-- The text `modExportFunc` writes for a token. -/
def modExportFunc.text (srcFuncName dstFuncName name : Bytes) : Bytes :=
  if name = srcFuncName then dstFuncName else name

/-- The pushes of the rebuild loop of `modExportFunc`: every non-empty token,
with the new name as text where the token equals the old name. -/
def modExportFunc.plan (srcFuncName dstFuncName : Bytes) (tokens : List Bytes) :
    List (Bytes × Bytes) :=
  (tokens.filter (fun t => decide (t ≠ []))).map
    (fun t => (t, modExportFunc.text srcFuncName dstFuncName t))

/-- The block `dataExport` of `delExportFunc` when control reaches source line
224, right after the rewrite loop; `none` when the run does not get there. -/
def delExportFunc.afterRewrite (delFuncName : Bytes) (pe : Parsed) (rangeOrder : RangeOrder) :
    Option Bytes :=
  match pe.tables with
  | none => none
  | some t =>
    match resolve pe.dataExport t.nameAddrTable pe.Struct.NumberOfNames delFuncName
        pe.Functions with
    | none => none
    | some r =>
      if r.index = -1 then none
      else
        delExportFunc.rewrite pe t
          (delExportFunc.nameOffsetMap delFuncName (t.nameTable.view pe.dataExport))
          delFuncName r.index pe.dataExport (rangeOrder r.sortedFunctions)

/-- The block `dataExport` of `modExportFunc` when control reaches source line
354, right after the rewrite loop; `none` when the run does not get there. -/
def modExportFunc.afterRewrite (srcFuncName dstFuncName : Bytes) (pe : Parsed)
    (rangeOrder : RangeOrder) : Option Bytes :=
  match pe.tables with
  | none => none
  | some t =>
    match resolve pe.dataExport t.nameAddrTable pe.Struct.NumberOfNames srcFuncName
        pe.Functions with
    | none => none
    | some r =>
      if r.index = -1 then none
      else
        rewriteInPlace pe t
          (modExportFunc.nameOffsetMap srcFuncName dstFuncName (t.nameTable.view pe.dataExport))
          pe.dataExport (rangeOrder r.sortedFunctions)

/-- The resolver state of the sample block for the target `Beta`. -/
def sampleResolved : Resolved :=
  { sortedFunctions :=
      [(2, ⟨3, 8224, 2, 4183, ascii "Gamma"⟩), (1, ⟨2, 8208, 1, 4178, ascii "Beta"⟩),
       (0, ⟨1, 8192, 0, 4172, ascii "Alpha"⟩)]
    index := 1
    func := ⟨2, 8208, 1, 4178, ascii "Beta"⟩ }

/-- The position the resolver loop finds for a function lies inside the
name-address array (the function is not an ordinal-only export). -/
def Parsed.isResolved (pe : Parsed) (efunc : ExportFunction) : Bool :=
  match pe.tables with
  | none => false
  | some t =>
    match position pe.dataExport t.nameAddrTable pe.Struct.NumberOfNames efunc.NameRVA with
    | none => false
    | some i => decide (i < pe.Struct.NumberOfNames)

/-- Every parsed exported function is resolved in the name-address array. -/
def Parsed.AllResolved (pe : Parsed) : Prop :=
  ∀ efunc ∈ pe.Functions, pe.isResolved efunc = true

/-- The sample block after `Beta` has been deleted. -/
def sampleDeleted : Bytes :=
  [0, 0, 0, 0, 0, 0, 0, 0, 0, 0, 0, 0, 70, 16, 0, 0, 1, 0, 0, 0, 3, 0, 0, 0, 2, 0, 0, 0,
   40, 16, 0, 0, 52, 16, 0, 0, 64, 16, 0, 0,
   0, 32, 0, 0, 0, 0, 0, 0, 32, 32, 0, 0,
   76, 16, 0, 0, 82, 16, 0, 0, 87, 16, 0, 0,
   0, 0, 2, 0, 2, 0,
   109, 46, 100, 108, 108, 0, 65, 108, 112, 104, 97, 0, 71, 97, 109, 109, 97, 0, 0, 0, 0, 0, 0]

/-- The NUL-terminated string that starts at offset `o` of a region: the bytes
from `o` up to the next NUL byte. -/
def cstringAt (region : Bytes) (o : Nat) : Bytes :=
  (region.drop o).takeWhile (fun b => decide (b ≠ 0))

/-- The sample block after `Alpha` has been renamed to `Al`. -/
def sampleRenamed : Bytes :=
  [0, 0, 0, 0, 0, 0, 0, 0, 0, 0, 0, 0, 70, 16, 0, 0, 1, 0, 0, 0, 3, 0, 0, 0, 3, 0, 0, 0,
   40, 16, 0, 0, 52, 16, 0, 0, 64, 16, 0, 0,
   0, 32, 0, 0, 16, 32, 0, 0, 32, 32, 0, 0,
   76, 16, 0, 0, 79, 16, 0, 0, 84, 16, 0, 0,
   0, 0, 1, 0, 2, 0,
   109, 46, 100, 108, 108, 0, 65, 108, 0, 66, 101, 116, 97, 0, 71, 97, 109, 109, 97, 0, 0, 0, 0]

/-- The sample block after the module has been renamed to `x.dll`. -/
def sampleModuleRenamed : Bytes :=
  [0, 0, 0, 0, 0, 0, 0, 0, 0, 0, 0, 0, 70, 16, 0, 0, 1, 0, 0, 0, 3, 0, 0, 0, 3, 0, 0, 0,
   40, 16, 0, 0, 52, 16, 0, 0, 64, 16, 0, 0,
   0, 32, 0, 0, 16, 32, 0, 0, 32, 32, 0, 0,
   76, 16, 0, 0, 82, 16, 0, 0, 87, 16, 0, 0,
   0, 0, 1, 0, 2, 0,
   120, 46, 100, 108, 108, 0, 65, 108, 112, 104, 97, 0, 66, 101, 116, 97, 0, 71, 97, 109, 109, 97, 0]

/-- The sample block after `Alpha` has been renamed to the longer `AlphaRenamed`. -/
def sampleGrown : Bytes :=
  [0, 0, 0, 0, 0, 0, 0, 0, 0, 0, 0, 0, 70, 16, 0, 0, 1, 0, 0, 0, 3, 0, 0, 0, 3, 0, 0, 0,
   40, 16, 0, 0, 52, 16, 0, 0, 64, 16, 0, 0,
   0, 32, 0, 0, 16, 32, 0, 0, 32, 32, 0, 0,
   76, 16, 0, 0, 89, 16, 0, 0, 94, 16, 0, 0,
   0, 0, 1, 0, 2, 0,
   109, 46, 100, 108, 108, 0, 65, 108, 112, 104, 97, 82, 101, 110, 97, 109, 101, 100, 0,
   66, 101, 116, 97]

/-- The resolver state of the sample block for the target `Alpha`. -/
def sampleResolvedAlpha : Resolved :=
  { sortedFunctions :=
      [(2, ⟨3, 8224, 2, 4183, ascii "Gamma"⟩), (1, ⟨2, 8208, 1, 4178, ascii "Beta"⟩),
       (0, ⟨1, 8192, 0, 4172, ascii "Alpha"⟩)]
    index := 0
    func := ⟨1, 8192, 0, 4172, ascii "Alpha"⟩ }

/-! ## The commands at the level of files (source lines 42-75, 77-101, 111-143, 232-242)

The file system, the PE parser and the checksum routine are outside the
program.  One run sees them through `Env`; what the run does to the outside is
recorded in `Effects`. -/

/-- The results of the parser calls one command makes on a parsed file
(`peparser.File`): the export data of `Parsed`, whether `pe.GetData` reported
an error, `pe.Is32`, `pe.DOSHeader.AddressOfNewEXEHeader`, the bytes returned
by `pe.ReadBytesAtOffset(optHeaderOffset, size)` (empty on error), the value
of `pe.GetOffsetFromRva(dirExport.VirtualAddress)` and of `pe.Checksum()`. -/
structure Image where
  pe : Parsed
  getDataError : Bool
  Is32 : Bool
  AddressOfNewEXEHeader : Nat
  optHeaderOri : Bytes
  dirExportOffset : Nat
  Checksum : Nat
deriving Repr, DecidableEq

/-- The outside of the program: `os.ReadFile` (`none` for an error), the parser
(`peparser.NewBytes` followed by `pe.Parse`, `none` when either fails) and the
three sizes `binary.Size` gives for the library's header structs
(`ImageFileHeader`, `ImageOptionalHeader32`, `ImageOptionalHeader64`), whose
declarations are not part of the program. -/
structure Env where
  ReadFile : String → Option Bytes
  Parse : Bytes → Option Image
  sizeFileHeader : Nat
  sizeOptionalHeader32 : Nat
  sizeOptionalHeader64 : Nat

/-- How the process ends: a normal return, or `log.Fatalf` or a panic. -/
inductive Exit where
  | normal
  | fatal
deriving Repr, DecidableEq

/-- What one run does to the outside: the files it opens for reading, the rows
of the table it prints, the files it writes with their contents, and how it
ends. -/
structure Effects where
  reads : List String
  printed : Option (List ExportFunction)
  writes : List (String × Bytes)
  exit : Exit
deriving Repr, DecidableEq

/-- A plain `return` at the parameter checks, before any file is touched. -/
def Effects.skipped : Effects := ⟨[], none, [], Exit.normal⟩

/-- The run read `srcfilename` and then died (`log.Fatalf` or a panic). -/
def Effects.fatal (srcfilename : String) : Effects := ⟨[srcfilename], none, [], Exit.fatal⟩

/-- The run read `srcfilename` and returned at `delFuncIndex == -1`. -/
def Effects.notFound (srcfilename : String) : Effects :=
  ⟨[srcfilename], none, [], Exit.normal⟩

/-- The run read `srcfilename` and reached `os.WriteFile(dstfilename, filebuf, 0644)`. -/
def Effects.written (srcfilename dstfilename : String) (filebuf : Bytes) : Effects :=
  ⟨[srcfilename], none, [(dstfilename, filebuf)], Exit.normal⟩

/-- The source's `getChecksum(data)`: zero when the buffer does not parse. -/
def getChecksum (env : Env) (data : Bytes) : Nat :=
  match env.Parse data with
  | none => 0
  | some img => img.Checksum

/-- The variable `optHeaderOffset` of `getOptionalHeader`, a `uint32` sum. -/
def optHeaderOffset (env : Env) (img : Image) : Nat :=
  add32 img.AddressOfNewEXEHeader (add32 (env.sizeFileHeader % 2 ^ 32) 4)

/-- The variable `size` of `getOptionalHeader`. -/
def optHeaderSize (env : Env) (img : Image) : Nat :=
  if img.Is32 then env.sizeOptionalHeader32 % 2 ^ 32 else env.sizeOptionalHeader64 % 2 ^ 32

/-- The first result of the source's `getOptionalHeader(pe)`:
`data := make([]byte, size)` after `copy(data, dataOri)`. -/
def getOptionalHeader (env : Env) (img : Image) : Bytes :=
  img.optHeaderOri.take (optHeaderSize env img) ++
    List.replicate (optHeaderSize env img - img.optHeaderOri.length) 0

/-- The image buffer after source line 234 (resp. 361, 476): the patched
directory block copied into `filebuf[dirExportOffset:dirExportOffset+Size]`;
`none` when the slice expression panics. -/
def patchedImage (img : Image) (filebufOri dataExport : Bytes) : Option Bytes :=
  match sliceOf filebufOri img.dirExportOffset
      (add32 img.dirExportOffset img.pe.dirExport.Size) with
  | none => none
  | some s => some (goCopy filebufOri s dataExport)

/-- Source lines 232-239 (and the same lines of the other two commands): copy
the block into the image, compute the checksum of the image, store it at
offset 64 of the optional-header copy and copy that back into the image.  The
result is the buffer handed to `os.WriteFile`, `none` for a panic. -/
def writeBack (env : Env) (img : Image) (filebufOri dataExport : Bytes) : Option Bytes :=
  match patchedImage img filebufOri dataExport with
  | none => none
  | some filebuf1 =>
    let dataOptHeader := getOptionalHeader env img
    let checksum := getChecksum env filebuf1
    match WriteInteger 4 dataOptHeader ⟨0, dataOptHeader.length⟩ 64 (checksum % 2 ^ 32) with
    | none => none
    | some dataOptHeader1 =>
      match sliceOf filebuf1 (optHeaderOffset env img)
          (optHeaderOffset env img + dataOptHeader1.length) with
      | none => none
      | some s => some (goCopy filebuf1 s dataOptHeader1)

/-- What follows the block handling of a command: a panic, the silent return,
or the write of the destination file. -/
def finish (env : Env) (img : Image) (filebufOri : Bytes) (srcfilename dstfilename : String) :
    Outcome → Effects
  | Outcome.fatal => Effects.fatal srcfilename
  | Outcome.noop => Effects.notFound srcfilename
  | Outcome.done dataExport =>
    match writeBack env img filebufOri dataExport with
    | none => Effects.fatal srcfilename
    | some filebuf => Effects.written srcfilename dstfilename filebuf

/-- Source lines 121-143 (and the same lines of the other two commands): read
and parse the source file and fetch the directory block, then run the block
handling `block` and finish. -/
def withImage (env : Env) (srcfilename dstfilename : String) (block : Parsed → Outcome) :
    Effects :=
  match env.ReadFile srcfilename with
  | none => Effects.fatal srcfilename
  | some filebufOri =>
    match env.Parse filebufOri with
    | none => Effects.fatal srcfilename
    | some img =>
      if img.getDataError then Effects.fatal srcfilename
      else finish env img filebufOri srcfilename dstfilename (block img.pe)

/-- The source's `listExportFuncs(srcfilename)`. -/
def listExportFuncs (env : Env) (srcfilename : String) : Effects :=
  if srcfilename = "" then Effects.skipped
  else
    match env.ReadFile srcfilename with
    | none => Effects.fatal srcfilename
    | some filebuf =>
      match env.Parse filebuf with
      | none => Effects.fatal srcfilename
      | some img => ⟨[srcfilename], some img.pe.Functions, [], Exit.normal⟩

/-- The source's `delExportFunc(delFuncName, srcfilename, dstfilename)`. -/
def delExportFunc (env : Env) (rangeOrder : RangeOrder) (delFuncName : Bytes)
    (srcfilename dstfilename : String) : Effects :=
  if delFuncName = [] then Effects.skipped
  else if srcfilename = "" then Effects.skipped
  else if dstfilename = "" then Effects.skipped
  else
    withImage env srcfilename dstfilename
      (fun pe => delExportFunc.dataExport delFuncName pe rangeOrder)

/-- The source's `modExportFunc(srcFuncName, dstFuncName, srcfilename, dstfilename)`. -/
def modExportFunc (env : Env) (rangeOrder : RangeOrder) (srcFuncName dstFuncName : Bytes)
    (srcfilename dstfilename : String) : Effects :=
  if srcFuncName = [] then Effects.skipped
  else if dstFuncName = [] then Effects.skipped
  else if srcfilename = "" then Effects.skipped
  else if dstfilename = "" then Effects.skipped
  else
    withImage env srcfilename dstfilename
      (fun pe => modExportFunc.dataExport srcFuncName dstFuncName pe rangeOrder)

/-- The source's `modExportName(dstExportName, srcfilename, dstfilename)`. -/
def modExportName (env : Env) (rangeOrder : RangeOrder) (dstExportName : Bytes)
    (srcfilename dstfilename : String) : Effects :=
  if dstExportName = [] then Effects.skipped
  else if srcfilename = "" then Effects.skipped
  else if dstfilename = "" then Effects.skipped
  else
    withImage env srcfilename dstfilename
      (fun pe => modExportName.dataExport dstExportName pe rangeOrder)

/-! ## A sample image file

A 32-bit image of 341 bytes: the NT header at offset 0, hence the 224-byte
optional header at file offsets 24-247, and the sample directory block at file
offsets 248-340. -/

/-- The bytes of the sample file. -/
def sampleFile : Bytes := List.replicate 248 0 ++ sampleBlock

/-- The parser results for a buffer laid out like the sample file; the stand-in
for `pe.Checksum()` is the sum of the bytes. -/
def sampleImage (data : Bytes) : Image :=
  { pe := { samplePE with dataExportOri := field data 248 93 }
    getDataError := false
    Is32 := true
    AddressOfNewEXEHeader := 0
    optHeaderOri := field data 24 224
    dirExportOffset := 248
    Checksum := data.sum % 2 ^ 32 }

/-- The outside for the sample: one readable file, `in.dll`. -/
def sampleEnv : Env :=
  { ReadFile := fun name => if name = "in.dll" then some sampleFile else none
    Parse := fun data => some (sampleImage data)
    sizeFileHeader := 20
    sizeOptionalHeader32 := 224
    sizeOptionalHeader64 := 240 }

/-- Entry `j` of the name-address array: the little-endian `uint32` stored in
its bytes `4 * j` to `4 * j + 3`. -/
def nameAddrEntry (buf : Bytes) (nameAddrTable : Slice) (j : Nat) : Nat :=
  leValue (field buf (nameAddrTable.off + 4 * j) 4)

/-! ## A sample directory block with an ordinal-only export

The sample module with a fourth function that is exported by ordinal 4 only.
The function-address array has four entries (bytes 40-55), the name-address
array three (56-67), the name-ordinal array three (68-73); the string region is
bytes 74-96. -/

/-- The bytes of the block with the ordinal-only export. -/
def sampleOrdBlock : Bytes :=
  leBytes 4 0 ++ leBytes 4 0 ++ leBytes 2 0 ++ leBytes 2 0 ++
  leBytes 4 4170 ++ leBytes 4 1 ++ leBytes 4 4 ++ leBytes 4 3 ++
  leBytes 4 4136 ++ leBytes 4 4152 ++ leBytes 4 4164 ++
  (leBytes 4 8192 ++ leBytes 4 8208 ++ leBytes 4 8224 ++ leBytes 4 8240) ++
  (leBytes 4 4176 ++ leBytes 4 4182 ++ leBytes 4 4187) ++
  (leBytes 2 0 ++ leBytes 2 1 ++ leBytes 2 2) ++
  (ascii "m.dll" ++ [0] ++ ascii "Alpha" ++ [0] ++ ascii "Beta" ++ [0] ++ ascii "Gamma" ++ [0])

/-- The parser results for the block with the ordinal-only export: the fourth
function has no name, and its `NameRVA` and `NameOrdinal` are zero. -/
def sampleOrdPE : Parsed :=
  { Struct :=
      { Name := 4170, Base := 1, NumberOfFunctions := 4, NumberOfNames := 3,
        AddressOfFunctions := 4136, AddressOfNames := 4152, AddressOfNameOrdinals := 4164 }
    Functions :=
      [ ⟨1, 8192, 0, 4176, ascii "Alpha"⟩,
        ⟨2, 8208, 1, 4182, ascii "Beta"⟩,
        ⟨3, 8224, 2, 4187, ascii "Gamma"⟩,
        ⟨4, 8240, 0, 0, []⟩ ]
    dirExport := { VirtualAddress := 4096, Size := 97 }
    dataExportOri := sampleOrdBlock }

/-- The four slices of the block with the ordinal-only export. -/
def sampleOrdTables : Tables :=
  { funcAddrTable := ⟨40, 16⟩, nameAddrTable := ⟨56, 12⟩, nameOrdiTable := ⟨68, 6⟩,
    nameTable := ⟨74, 23⟩ }

/-- The resolver state of the block with the ordinal-only export for the
target `Beta`: the ordinal-only function sits under key 3, `NumberOfNames`. -/
def sampleOrdResolved : Resolved :=
  { sortedFunctions :=
      [(3, ⟨4, 8240, 0, 0, []⟩), (2, ⟨3, 8224, 2, 4187, ascii "Gamma"⟩),
       (1, ⟨2, 8208, 1, 4182, ascii "Beta"⟩), (0, ⟨1, 8192, 0, 4176, ascii "Alpha"⟩)]
    index := 1
    func := ⟨2, 8208, 1, 4182, ascii "Beta"⟩ }

/-- The block with the ordinal-only export after `Beta` has been deleted: slot
2 of the name-address array holds `Export.Name`, slot 2 of the name-ordinal
array holds 0. -/
def sampleOrdDeleted : Bytes :=
  [0, 0, 0, 0, 0, 0, 0, 0, 0, 0, 0, 0, 74, 16, 0, 0, 1, 0, 0, 0, 4, 0, 0, 0, 2, 0, 0, 0,
   40, 16, 0, 0, 56, 16, 0, 0, 68, 16, 0, 0,
   0, 32, 0, 0, 0, 0, 0, 0, 32, 32, 0, 0, 48, 32, 0, 0,
   80, 16, 0, 0, 86, 16, 0, 0, 74, 16, 0, 0,
   0, 0, 2, 0, 0, 0,
   109, 46, 100, 108, 108, 0, 65, 108, 112, 104, 97, 0, 71, 97, 109, 109, 97, 0, 0, 0, 0, 0, 0]

/-- The block with the ordinal-only export after `Alpha` has been renamed to
`Al`, the map visited in the order of the positions: the first two entries of
the name-ordinal array hold the bytes of `Export.Name`. -/
def sampleOrdRenamed : Bytes :=
  [0, 0, 0, 0, 0, 0, 0, 0, 0, 0, 0, 0, 74, 16, 0, 0, 1, 0, 0, 0, 4, 0, 0, 0, 3, 0, 0, 0,
   40, 16, 0, 0, 56, 16, 0, 0, 68, 16, 0, 0,
   0, 32, 0, 0, 16, 32, 0, 0, 32, 32, 0, 0, 48, 32, 0, 0,
   80, 16, 0, 0, 83, 16, 0, 0, 88, 16, 0, 0,
   74, 16, 0, 0, 2, 0,
   109, 46, 100, 108, 108, 0, 65, 108, 0, 66, 101, 116, 97, 0, 71, 97, 109, 109, 97, 0, 0, 0, 0]

/-- The resolver state of the block with the ordinal-only export for the
target `Alpha`: `Alpha` is recorded at position 0, `Beta` at position 1, the
ordinal-only function under key 3, `NumberOfNames`. -/
def sampleOrdResolvedAlpha : Resolved :=
  { sortedFunctions :=
      [(3, ⟨4, 8240, 0, 0, []⟩), (2, ⟨3, 8224, 2, 4187, ascii "Gamma"⟩),
       (1, ⟨2, 8208, 1, 4182, ascii "Beta"⟩), (0, ⟨1, 8192, 0, 4176, ascii "Alpha"⟩)]
    index := 0
    func := ⟨1, 8192, 0, 4176, ascii "Alpha"⟩ }

/-- The block with the ordinal-only export right after the rewrite loop of the
rename of `Alpha` to `Al` (source line 352), the map visited in the order of the
positions: the write of key 3 into the name-address slice lands on the first two
entries of the name-ordinal array, and its write into the name-ordinal slice on
the first two bytes of the string region, which still holds the old strings. -/
def sampleOrdRewritten : Bytes :=
  [0, 0, 0, 0, 0, 0, 0, 0, 0, 0, 0, 0, 74, 16, 0, 0, 1, 0, 0, 0, 4, 0, 0, 0, 3, 0, 0, 0,
   40, 16, 0, 0, 56, 16, 0, 0, 68, 16, 0, 0,
   0, 32, 0, 0, 16, 32, 0, 0, 32, 32, 0, 0, 48, 32, 0, 0,
   80, 16, 0, 0, 83, 16, 0, 0, 88, 16, 0, 0,
   74, 16, 0, 0, 2, 0,
   0, 0, 100, 108, 108, 0, 65, 108, 112, 104, 97, 0, 66, 101, 116, 97, 0, 71, 97, 109, 109, 97, 0]

/-- The file written when `Beta` is deleted from the sample file: the checksum
stand-in 2129 at file offset 24 + 64, the patched block at file offset 248. -/
def sampleWritten : Bytes :=
  List.replicate 88 0 ++ leBytes 4 2129 ++ List.replicate 156 0 ++ sampleDeleted

/-! ## Facts about `bytes.Split(·, "\x00")` -/

theorem bytesSplitNul_ne_nil (l : Bytes) : bytesSplitNul l ≠ [] := by
  cases l with
  | nil => simp [bytesSplitNul]
  | cons b rest =>
    unfold bytesSplitNul
    split
    · simp
    · split <;> simp

theorem bytesSplitNul_cons_nul (rest : Bytes) :
    bytesSplitNul (0 :: rest) = [] :: bytesSplitNul rest := by
  simp [bytesSplitNul]

theorem bytesSplitNul_cons_ne (b : Nat) (rest : Bytes) (hb : b ≠ 0) :
    ∃ t ts, bytesSplitNul rest = t :: ts ∧ bytesSplitNul (b :: rest) = (b :: t) :: ts := by
  cases h : bytesSplitNul rest with
  | nil => exact absurd h (bytesSplitNul_ne_nil rest)
  | cons t ts =>
    refine ⟨t, ts, rfl, ?_⟩
    simp [bytesSplitNul, hb, h]

/-- A token never contains a NUL byte. -/
theorem not_nul_mem_of_mem_bytesSplitNul (l : Bytes) :
    ∀ t ∈ bytesSplitNul l, (0 : Nat) ∉ t := by
  induction l with
  | nil => intro t ht; simp [bytesSplitNul] at ht; simp [ht]
  | cons b rest ih =>
    intro t ht
    by_cases hb : b = 0
    · subst hb
      rw [bytesSplitNul_cons_nul] at ht
      rcases List.mem_cons.mp ht with h | h
      · simp [h]
      · exact ih t h
    · obtain ⟨t0, ts, h1, h2⟩ := bytesSplitNul_cons_ne b rest hb
      rw [h2] at ht
      rcases List.mem_cons.mp ht with h | h
      · subst h
        have := ih t0 (by rw [h1]; exact List.mem_cons_self _ _)
        simp only [List.mem_cons, not_or]
        exact ⟨fun h0 => hb h0.symm, this⟩
      · exact ih t (by rw [h1]; exact List.mem_cons_of_mem _ h)

/-- Splitting a NUL-free text followed by NUL and a rest. -/
theorem bytesSplitNul_append_nul (t rest : Bytes) (ht : (0 : Nat) ∉ t) :
    bytesSplitNul (t ++ 0 :: rest) = t :: bytesSplitNul rest := by
  induction t with
  | nil => simp [bytesSplitNul]
  | cons b t ih =>
    have hb : b ≠ 0 := fun h => ht (by simp [h])
    have ht' : (0 : Nat) ∉ t := fun h => ht (List.mem_cons_of_mem _ h)
    obtain ⟨t0, ts, h1, h2⟩ := bytesSplitNul_cons_ne b (t ++ 0 :: rest) hb
    rw [List.cons_append, h2]
    rw [ih ht'] at h1
    injection h1 with h3 h4
    rw [← h3, ← h4]

theorem bytesSplitNul_replicate (n : Nat) :
    bytesSplitNul (List.replicate n 0) = List.replicate (n + 1) [] := by
  induction n with
  | zero => simp [bytesSplitNul]
  | succ n ih => rw [List.replicate_succ, bytesSplitNul_cons_nul, ih]; rfl

theorem joinNul_nil : joinNul [] = [] := rfl

theorem joinNul_cons (t : Bytes) (ts : List Bytes) : joinNul (t :: ts) = t ++ 0 :: joinNul ts := by
  simp [joinNul, List.flatMap_cons]

theorem joinNul_append (xs ys : List Bytes) : joinNul (xs ++ ys) = joinNul xs ++ joinNul ys := by
  simp [joinNul, List.flatMap_append]

theorem bytesSplitNul_joinNul_append (ts : List Bytes) (rest : Bytes)
    (hts : ∀ t ∈ ts, (0 : Nat) ∉ t) :
    bytesSplitNul (joinNul ts ++ rest) = ts ++ bytesSplitNul rest := by
  induction ts with
  | nil => simp [joinNul]
  | cons t ts ih =>
    rw [joinNul_cons, List.cons_append, List.append_assoc, List.cons_append,
      bytesSplitNul_append_nul t _ (hts t (List.mem_cons_self _ _)),
      ih (fun u hu => hts u (List.mem_cons_of_mem _ hu))]

/-- Joining the tokens of a region with NUL after each gives the region and one
more NUL. -/
theorem joinNul_bytesSplitNul (l : Bytes) : joinNul (bytesSplitNul l) = l ++ [0] := by
  induction l with
  | nil => simp [bytesSplitNul, joinNul]
  | cons b rest ih =>
    by_cases hb : b = 0
    · subst hb
      rw [bytesSplitNul_cons_nul, joinNul_cons, ih]; rfl
    · obtain ⟨t0, ts, h1, h2⟩ := bytesSplitNul_cons_ne b rest hb
      rw [h2, joinNul_cons]
      rw [h1, joinNul_cons] at ih
      rw [List.cons_append, ih]; rfl

/-! ## The rebuild loops -/

theorem padNul_length (nameTable nameTableNew : Bytes) :
    (padNul nameTable nameTableNew).length = max nameTable.length nameTableNew.length := by
  simp only [padNul, List.length_append, List.length_replicate]
  omega

theorem bytesSplitNul_append_singleton_nul (r : Bytes) :
    bytesSplitNul (r ++ [0]) = bytesSplitNul r ++ [[]] := by
  have h := bytesSplitNul_joinNul_append (bytesSplitNul r) []
    (not_nul_mem_of_mem_bytesSplitNul r)
  rw [List.append_nil, joinNul_bytesSplitNul] at h
  rw [h]; rfl

theorem joinNul_filter_length_le (p : Bytes → Bool) (ts : List Bytes) :
    (joinNul (ts.filter p)).length ≤ (joinNul ts).length := by
  induction ts with
  | nil => simp
  | cons t ts ih =>
    by_cases hp : p t = true
    · rw [List.filter_cons_of_pos hp, joinNul_cons, joinNul_cons]
      simp only [List.length_append, List.length_cons]
      omega
    · rw [List.filter_cons_of_neg hp, joinNul_cons]
      simp only [List.length_append, List.length_cons]
      omega

theorem exists_append_nul_of_getLast? (l : Bytes) (h : l.getLast? = some 0) :
    ∃ r, l = r ++ [0] := by
  rcases List.eq_nil_or_concat l with h0 | ⟨r, b, hl⟩
  · subst h0; simp at h
  · subst hl
    rw [List.concat_eq_append, List.getLast?_concat] at h
    refine ⟨r, ?_⟩
    simp only [Option.some.injEq] at h
    rw [h, List.concat_eq_append]

namespace delExportFunc

/-- The tokens the rebuild loop of `delExportFunc` keeps. -/
theorem del_foldl_rebuildStep_nameTableNew (F : Bytes) (ts : List Bytes) (st : Rebuild) :
    (ts.foldl (rebuildStep F) st).nameTableNew =
      st.nameTableNew ++ joinNul (ts.filter (fun t => decide (t ≠ [] ∧ t ≠ F))) := by
  induction ts generalizing st with
  | nil => simp [joinNul]
  | cons t ts ih =>
    rw [List.foldl_cons, ih]
    unfold rebuildStep
    by_cases h1 : t = F
    · simp [h1]
    · by_cases h2 : t = []
      · simp [h2]
      · simp [h1, h2, Rebuild.push, joinNul_cons]

theorem del_rebuild_nameTableNew (F nameTable : Bytes) :
    (rebuild F nameTable).nameTableNew =
      joinNul ((bytesSplitNul nameTable).filter (fun t => decide (t ≠ [] ∧ t ≠ F))) := by
  unfold rebuild
  rw [del_foldl_rebuildStep_nameTableNew]
  rfl

end delExportFunc

/-- Claim C1.  For every string region and every target name `F`, the region
rebuilt by `delExportFunc` consists of the non-empty tokens of the original
region that differ from `F`, in the original order and each followed by a NUL
byte, followed by NUL padding only; its non-empty tokens are exactly those
tokens; a non-empty `F` is no token of it, and every other non-empty token of
the original region still is. -/
theorem delExportFunc_nameTableNew_tokens (nameTable F : Bytes) :
    (∃ pad, delExportFunc.nameTableNew F nameTable =
        joinNul ((bytesSplitNul nameTable).filter (fun t => decide (t ≠ [] ∧ t ≠ F))) ++
          List.replicate pad 0) ∧
    (bytesSplitNul (delExportFunc.nameTableNew F nameTable)).filter (fun t => decide (t ≠ [])) =
      (bytesSplitNul nameTable).filter (fun t => decide (t ≠ [] ∧ t ≠ F)) ∧
    (F ≠ [] → F ∉ bytesSplitNul (delExportFunc.nameTableNew F nameTable)) ∧
    (∀ t ∈ bytesSplitNul nameTable, t ≠ [] → t ≠ F →
      t ∈ bytesSplitNul (delExportFunc.nameTableNew F nameTable)) := by
  have hnew : delExportFunc.nameTableNew F nameTable =
      joinNul ((bytesSplitNul nameTable).filter (fun t => decide (t ≠ [] ∧ t ≠ F))) ++
        List.replicate ((nameTable.length : Int) -
          ((delExportFunc.rebuild F nameTable).nameTableNew.length : Int)).toNat 0 := by
    unfold delExportFunc.nameTableNew padNul
    rw [delExportFunc.del_rebuild_nameTableNew]
  have hfree : ∀ t ∈ (bytesSplitNul nameTable).filter (fun t => decide (t ≠ [] ∧ t ≠ F)),
      (0 : Nat) ∉ t :=
    fun t ht => not_nul_mem_of_mem_bytesSplitNul nameTable t (List.mem_filter.mp ht).1
  have hsplit := bytesSplitNul_joinNul_append _
    (List.replicate ((nameTable.length : Int) -
      ((delExportFunc.rebuild F nameTable).nameTableNew.length : Int)).toNat 0) hfree
  rw [← hnew, bytesSplitNul_replicate] at hsplit
  have hfilter : (bytesSplitNul (delExportFunc.nameTableNew F nameTable)).filter
      (fun t => decide (t ≠ [])) =
      (bytesSplitNul nameTable).filter (fun t => decide (t ≠ [] ∧ t ≠ F)) := by
    rw [hsplit, List.filter_append, List.filter_filter]
    have h1 : List.filter (fun t : Bytes => decide (t ≠ [])) (List.replicate
        ((nameTable.length : Int) -
          ((delExportFunc.rebuild F nameTable).nameTableNew.length : Int)).toNat.succ []) = [] := by
      rw [List.filter_eq_nil_iff]
      intro t ht
      simp [(List.mem_replicate.mp ht).2]
    rw [h1, List.append_nil]
    apply List.filter_congr
    intro t _
    by_cases h : t = [] <;> simp [h]
  refine ⟨⟨_, hnew⟩, hfilter, ?_, ?_⟩
  · intro hF hmem
    have : F ∈ (bytesSplitNul (delExportFunc.nameTableNew F nameTable)).filter
        (fun t => decide (t ≠ [])) := List.mem_filter.mpr ⟨hmem, by simpa using hF⟩
    rw [hfilter] at this
    have := (List.mem_filter.mp this).2
    simp at this
  · intro t ht h1 h2
    have : t ∈ (bytesSplitNul nameTable).filter (fun t => decide (t ≠ [] ∧ t ≠ F)) :=
      List.mem_filter.mpr ⟨ht, by simp [h1, h2]⟩
    rw [← hfilter] at this
    exact (List.mem_filter.mp this).1

/-- Claim C5.  For every NUL-terminated string region of length `L` and every
target name, the region rebuilt by `delExportFunc` (surviving tokens
re-concatenated, then padded with NUL bytes) has length exactly `L`. -/
theorem delExportFunc_nameTableNew_length (nameTable F : Bytes)
    (hterm : nameTable.getLast? = some 0) :
    (delExportFunc.nameTableNew F nameTable).length = nameTable.length := by
  obtain ⟨r, hr⟩ := exists_append_nul_of_getLast? nameTable hterm
  unfold delExportFunc.nameTableNew
  rw [padNul_length, delExportFunc.del_rebuild_nameTableNew]
  apply max_eq_left
  subst hr
  rw [bytesSplitNul_append_singleton_nul, List.filter_append]
  have h1 : List.filter (fun t : Bytes => decide (t ≠ [] ∧ t ≠ F)) [[]] = [] := by simp
  rw [h1, List.append_nil]
  exact le_of_le_of_eq (joinNul_filter_length_le _ _) (by rw [joinNul_bytesSplitNul])

/-- The string region of the sample block. -/
theorem delExportFunc_nameTableNew_length_witness :
    (sampleBlock.drop 70).getLast? = some 0 ∧
    (delExportFunc.nameTableNew (ascii "Beta") (sampleBlock.drop 70)).length =
      (sampleBlock.drop 70).length :=
  ⟨by decide, delExportFunc_nameTableNew_length (sampleBlock.drop 70) (ascii "Beta") (by decide)⟩

/-! ## Writes into the block -/

theorem length_writeAt (buf : Bytes) (pos : Nat) (src : Bytes)
    (h : pos + src.length ≤ buf.length) : (writeAt buf pos src).length = buf.length := by
  simp only [writeAt, List.length_append, List.length_take, List.length_drop]
  omega

theorem getElem?_writeAt (buf : Bytes) (pos : Nat) (src : Bytes)
    (h : pos + src.length ≤ buf.length) (j : Nat) :
    (writeAt buf pos src)[j]? =
      if pos ≤ j ∧ j < pos + src.length then src[j - pos]? else buf[j]? := by
  have hlen : (buf.take pos).length = pos := by rw [List.length_take]; omega
  unfold writeAt
  by_cases h1 : j < pos
  · rw [List.append_assoc, List.getElem?_append_left (by omega), List.getElem?_take_of_lt h1]
    rw [if_neg (by omega)]
  · by_cases h2 : j < pos + src.length
    · rw [List.getElem?_append_left (by simp only [List.length_append]; omega),
        List.getElem?_append_right (by omega), hlen, if_pos (by omega)]
    · rw [List.getElem?_append_right (by simp only [List.length_append]; omega),
        List.getElem?_drop, if_neg (by omega)]
      simp only [List.length_append, hlen]
      congr 1
      omega

theorem getElem?_field (buf : Bytes) (pos w j : Nat) :
    (field buf pos w)[j]? = if j < w then buf[pos + j]? else none := by
  unfold field
  by_cases h : j < w
  · rw [List.getElem?_take_of_lt h, List.getElem?_drop, if_pos h]
  · rw [if_neg h, List.getElem?_eq_none]
    simp only [List.length_take, List.length_drop]
    omega

/-- Two blocks that agree on a range have the same field there. -/
theorem field_congr (b1 b2 : Bytes) (pos w : Nat)
    (h : ∀ j, pos ≤ j → j < pos + w → b1[j]? = b2[j]?) : field b1 pos w = field b2 pos w := by
  apply List.ext_getElem?
  intro j
  rw [getElem?_field, getElem?_field]
  by_cases hj : j < w
  · rw [if_pos hj, if_pos hj]; exact h _ (by omega) (by omega)
  · rw [if_neg hj, if_neg hj]

/-- A field is determined by its bytes. -/
theorem field_eq_of_getElem? (buf : Bytes) (pos : Nat) (src : Bytes)
    (h : ∀ j, pos ≤ j → j < pos + src.length → buf[j]? = src[j - pos]?) :
    field buf pos src.length = src := by
  apply List.ext_getElem?
  intro j
  rw [getElem?_field]
  by_cases hj : j < src.length
  · rw [if_pos hj, h _ (by omega) (by omega)]
    congr 1
    omega
  · rw [if_neg hj, eq_comm, List.getElem?_eq_none]
    omega

theorem length_leBytes (w value : Nat) : (leBytes w value).length = w := by
  induction w generalizing value with
  | zero => rfl
  | succ w ih => simp [leBytes, ih]

theorem leBytes_mod (w value : Nat) : leBytes w (value % 256 ^ w) = leBytes w value := by
  induction w generalizing value with
  | zero => rfl
  | succ w ih =>
    simp only [leBytes]
    have h1 : value % 256 ^ (w + 1) % 256 = value % 256 := by
      rw [pow_succ']
      exact Nat.mod_mul_right_mod value 256 (256 ^ w)
    have h2 : value % 256 ^ (w + 1) / 256 = (value / 256) % 256 ^ w := by
      rw [pow_succ', Nat.mod_mul_right_div_self]
    rw [h1, h2, ih]

theorem leBytes_two_mod (value : Nat) : leBytes 2 (value % 2 ^ 16) = leBytes 2 value :=
  leBytes_mod 2 value

theorem leBytes_four_mod (value : Nat) : leBytes 4 (value % 2 ^ 32) = leBytes 4 value :=
  leBytes_mod 4 value

/-- When `WriteInteger` returns, it has written the little-endian bytes inside
the block. -/
theorem WriteInteger_eq_some (w : Nat) (buf : Bytes) (data : Slice) (offset : Int) (value : Nat)
    (out : Bytes) (h : WriteInteger w buf data offset value = some out) :
    0 ≤ offset ∧ offset.toNat + w ≤ buf.length - data.off ∧
      out = writeAt buf (data.off + offset.toNat) (leBytes w value) := by
  unfold WriteInteger at h
  split at h
  · rename_i hc
    simp only [Option.some.injEq] at h
    exact ⟨hc.1, hc.2, h.symm⟩
  · simp at h

theorem WriteInteger_of_bounds (w : Nat) (buf : Bytes) (data : Slice) (offset : Int) (value : Nat)
    (h0 : 0 ≤ offset) (h1 : offset.toNat + w ≤ buf.length - data.off) :
    WriteInteger w buf data offset value =
      some (writeAt buf (data.off + offset.toNat) (leBytes w value)) := by
  unfold WriteInteger
  rw [if_pos ⟨h0, h1⟩]

/-- Copying a slice onto itself changes nothing. -/
theorem goCopy_self (buf : Bytes) (s : Slice) (h : s.off + s.len ≤ buf.length) :
    goCopy buf s (s.view buf) = buf := by
  unfold goCopy Slice.view
  have hl : (List.take s.len (List.take s.len (List.drop s.off buf))).length = s.len := by
    simp only [List.length_take, List.length_drop]; omega
  apply List.ext_getElem?
  intro j
  rw [getElem?_writeAt _ _ _ (by rw [hl]; exact h), hl]
  split
  · rename_i hc
    rw [List.getElem?_take_of_lt (by omega), List.getElem?_take_of_lt (by omega),
      List.getElem?_drop]
    congr 1
    omega
  · rfl

/-! ### Sequences of writes -/

theorem applyWrites_nil (buf : Bytes) : applyWrites buf [] = buf := rfl

theorem applyWrites_cons (buf : Bytes) (w : Write) (ws : List Write) :
    applyWrites buf (w :: ws) = applyWrites (writeAt buf w.1 w.2) ws := rfl

theorem applyWrites_append (buf : Bytes) (ws vs : List Write) :
    applyWrites buf (ws ++ vs) = applyWrites (applyWrites buf ws) vs := by
  simp [applyWrites, List.foldl_append]

theorem length_applyWrites (buf : Bytes) (ws : List Write)
    (hb : ∀ w ∈ ws, w.1 + w.2.length ≤ buf.length) : (applyWrites buf ws).length = buf.length := by
  induction ws generalizing buf with
  | nil => rfl
  | cons w ws ih =>
    have hw := hb w (List.mem_cons_self _ _)
    rw [applyWrites_cons, ih, length_writeAt _ _ _ hw]
    intro v hv
    rw [length_writeAt _ _ _ hw]
    exact hb v (List.mem_cons_of_mem _ hv)

/-- A position no write covers keeps its byte. -/
theorem getElem?_applyWrites_of_not_covered (buf : Bytes) (ws : List Write)
    (hb : ∀ w ∈ ws, w.1 + w.2.length ≤ buf.length) (j : Nat)
    (hj : ∀ w ∈ ws, ¬ w.Covers j) : (applyWrites buf ws)[j]? = buf[j]? := by
  induction ws generalizing buf with
  | nil => rfl
  | cons w ws ih =>
    have hw := hb w (List.mem_cons_self _ _)
    have hnc : ¬ (w.1 ≤ j ∧ j < w.1 + w.2.length) := hj w (List.mem_cons_self _ _)
    rw [applyWrites_cons, ih, getElem?_writeAt _ _ _ hw, if_neg hnc]
    · intro v hv
      rw [length_writeAt _ _ _ hw]
      exact hb v (List.mem_cons_of_mem _ hv)
    · intro v hv
      exact hj v (List.mem_cons_of_mem _ hv)

/-- A position that some write covers, and at which all covering writes put the
same byte, holds that byte afterwards, whatever the order of the writes. -/
theorem getElem?_applyWrites_of_covered (buf : Bytes) (ws : List Write)
    (hb : ∀ w ∈ ws, w.1 + w.2.length ≤ buf.length) (j : Nat) (v : Option Nat)
    (hex : ∃ w ∈ ws, w.Covers j)
    (hall : ∀ w ∈ ws, w.Covers j → w.2[j - w.1]? = v) : (applyWrites buf ws)[j]? = v := by
  induction ws using List.reverseRecOn with
  | nil => obtain ⟨w, hw, _⟩ := hex; simp at hw
  | append_singleton ws w ih =>
    have hbw : ∀ u ∈ ws, u.1 + u.2.length ≤ buf.length :=
      fun u hu => hb u (List.mem_append_left _ hu)
    have hw := hb w (List.mem_append_right _ (List.mem_singleton_self _))
    rw [applyWrites_append, applyWrites_cons, applyWrites_nil,
      getElem?_writeAt _ _ _ (by rw [length_applyWrites _ _ hbw]; exact hw)]
    by_cases hc : w.1 ≤ j ∧ j < w.1 + w.2.length
    · rw [if_pos hc]
      exact hall w (List.mem_append_right _ (List.mem_singleton_self _)) hc
    · rw [if_neg hc]
      by_cases hex' : ∃ u ∈ ws, u.Covers j
      · exact ih hbw hex' (fun u hu => hall u (List.mem_append_left _ hu))
      · obtain ⟨u, hu, huc⟩ := hex
        rcases List.mem_append.mp hu with h | h
        · exact absurd ⟨u, h, huc⟩ hex'
        · rw [List.mem_singleton.mp h] at huc
          exact absurd huc hc

/-! ## The parsed tables -/

theorem Parsed.length_dataExport (pe : Parsed) : pe.dataExport.length = pe.dirExport.Size := by
  simp only [Parsed.dataExport, List.length_append, List.length_take, List.length_replicate]
  omega

theorem sliceOf_eq_some (buf : Bytes) (lo hi : Nat) (s : Slice) (h : sliceOf buf lo hi = some s) :
    s.off = lo ∧ s.len = hi - lo ∧ lo ≤ hi ∧ hi ≤ buf.length := by
  unfold sliceOf at h
  split at h
  · rename_i hc
    simp only [Option.some.injEq] at h
    subst h
    exact ⟨rfl, rfl, hc.1, hc.2⟩
  · simp at h

/-- What the four slice expressions give when none of them panics. -/
theorem Parsed.tables_eq_some (pe : Parsed) (t : Tables) (h : pe.tables = some t) :
    t.funcAddrTable.off = pe.funcAddrTableOff ∧
    t.nameAddrTable.off = pe.nameAddrTableOff ∧
    t.nameOrdiTable.off = pe.nameOrdiTableOff ∧
    t.nameTable.off = pe.nameTableOff ∧
    t.nameTable.len = pe.dirExport.Size - pe.nameTableOff ∧
    pe.nameTableOff ≤ pe.dirExport.Size ∧
    t.funcAddrTable.off + t.funcAddrTable.len ≤ pe.dirExport.Size ∧
    t.nameAddrTable.off + t.nameAddrTable.len ≤ pe.dirExport.Size ∧
    t.nameOrdiTable.off + t.nameOrdiTable.len ≤ pe.dirExport.Size := by
  unfold Parsed.tables at h
  split at h
  · rename_i f a o n hf ha ho hn
    simp only [Option.some.injEq] at h
    subst h
    have h1 := sliceOf_eq_some _ _ _ _ hf
    have h2 := sliceOf_eq_some _ _ _ _ ha
    have h3 := sliceOf_eq_some _ _ _ _ ho
    have h4 := sliceOf_eq_some _ _ _ _ hn
    rw [Parsed.length_dataExport] at h1 h2 h3 h4
    simp only
    refine ⟨h1.1, h2.1, h3.1, h4.1, h4.2.1, h4.2.2.1, ?_, ?_, ?_⟩ <;> omega
  · simp at h

theorem Parsed.view_nameTable (pe : Parsed) (t : Tables) (h : pe.tables = some t) :
    t.nameTable.view pe.dataExport = pe.nameTable := by
  obtain ⟨-, -, -, h4, h5, h6, -⟩ := pe.tables_eq_some t h
  unfold Slice.view Parsed.nameTable
  rw [h4, h5]
  apply List.take_of_length_le
  rw [List.length_drop, Parsed.length_dataExport]

/-! ## The position resolver -/

theorem positionFrom_bounds (buf : Bytes) (s : Slice) (rva : Nat) (remaining i k : Nat)
    (h : positionFrom buf s rva remaining i = some k) : i ≤ k ∧ k ≤ i + remaining := by
  induction remaining generalizing i with
  | zero =>
    simp only [positionFrom, Option.some.injEq] at h
    omega
  | succ n ih =>
    unfold positionFrom at h
    split at h
    · simp at h
    · split at h
      · simp only [Option.some.injEq] at h; omega
      · have := ih (i + 1) h
        omega

theorem position_le (buf : Bytes) (s : Slice) (n rva k : Nat)
    (h : position buf s n rva = some k) : k ≤ n := by
  have := positionFrom_bounds buf s rva n 0 k h
  omega

theorem FuncMap.mem_set (m : FuncMap) (i : Nat) (efunc : ExportFunction) (e : Nat × ExportFunction) :
    e ∈ m.set i efunc ↔ e = (i, efunc) ∨ (e ∈ m ∧ e.1 ≠ i) := by
  simp [FuncMap.set, List.mem_filter]

theorem Resolved.Inv.init (n : Nat) (target : Bytes) : Resolved.Inv n target Resolved.init :=
  ⟨by simp [Resolved.init], by simp [Resolved.init], Or.inl rfl⟩

theorem Resolved.Inv.step (buf : Bytes) (s : Slice) (n : Nat) (target : Bytes)
    (st st1 : Resolved) (efunc : ExportFunction) (hinv : Resolved.Inv n target st)
    (h : resolveStep buf s n target st efunc = some st1) : Resolved.Inv n target st1 := by
  unfold resolveStep at h
  split at h
  · simp at h
  · rename_i i hi
    have hle := position_le _ _ _ _ _ hi
    have hkey : ∀ e ∈ st.sortedFunctions.set i efunc, e.1 ≤ n := by
      intro e he
      rcases (FuncMap.mem_set _ _ _ _).mp he with h1 | h1
      · rw [h1]; exact hle
      · exact hinv.key_le e h1.1
    have hfun : ∀ j f g, (j, f) ∈ st.sortedFunctions.set i efunc →
        (j, g) ∈ st.sortedFunctions.set i efunc → f = g := by
      intro j f g hf hg
      rcases (FuncMap.mem_set _ _ _ _).mp hf with h1 | h1 <;>
        rcases (FuncMap.mem_set _ _ _ _).mp hg with h2 | h2
      · simp only [Prod.mk.injEq] at h1 h2; rw [h1.2, h2.2]
      · simp only [Prod.mk.injEq] at h1; exact absurd h1.1 h2.2
      · simp only [Prod.mk.injEq] at h2; exact absurd h2.1 h1.2
      · exact hinv.functional j f g h1.1 h2.1
    simp only at h
    split at h
    · rename_i hname
      simp only [Option.some.injEq] at h
      subst h
      exact ⟨hkey, hfun, Or.inr ⟨Int.ofNat_nonneg i, hname⟩⟩
    · simp only [Option.some.injEq] at h
      subst h
      exact ⟨hkey, hfun, hinv.found⟩

theorem Resolved.Inv.resolveFrom (buf : Bytes) (s : Slice) (n : Nat) (target : Bytes)
    (functions : List ExportFunction) (st r : Resolved) (hinv : Resolved.Inv n target st)
    (h : Mpe.resolveFrom buf s n target st functions = some r) : Resolved.Inv n target r := by
  induction functions generalizing st with
  | nil =>
    simp only [Mpe.resolveFrom, Option.some.injEq] at h
    rw [← h]; exact hinv
  | cons efunc rest ih =>
    unfold Mpe.resolveFrom at h
    split at h
    · simp at h
    · rename_i st1 hst1
      exact ih st1 (Resolved.Inv.step buf s n target st st1 efunc hinv hst1) h

theorem resolve_inv (buf : Bytes) (s : Slice) (n : Nat) (target : Bytes)
    (functions : List ExportFunction) (r : Resolved)
    (h : resolve buf s n target functions = some r) : Resolved.Inv n target r :=
  Resolved.Inv.resolveFrom buf s n target functions _ r (Resolved.Inv.init n target) h

/-! ## The rewrite loops as sequences of writes -/

/-- The two `WriteInteger` calls of one iteration, for slot `k`. -/
theorem writePair_eq_some (pe : Parsed) (t : Tables) (m : OffsetMap) (k : Nat)
    (efunc : ExportFunction) (offA offO : Int) (hA : offA = ((4 * k : Nat) : Int))
    (hO : offO = ((2 * k : Nat) : Int)) (buf out : Bytes) :
    (match WriteInteger 4 buf t.nameAddrTable offA
        (add32 pe.Struct.Name (m.get efunc.Name)) with
      | none => none
      | some buf1 => WriteInteger 2 buf1 t.nameOrdiTable offO (efunc.NameOrdinal % 2 ^ 16)) =
        some out ↔
      ((∀ w ∈ slotWrites pe t m k efunc, w.1 + w.2.length ≤ buf.length) ∧
        out = applyWrites buf (slotWrites pe t m k efunc)) := by
  subst hA hO
  simp only [slotWrites, List.mem_cons, List.mem_singleton, forall_eq_or_imp, forall_eq,
    length_leBytes, applyWrites_cons, applyWrites_nil, List.not_mem_nil, false_implies,
    implies_true, and_true, or_false]
  constructor
  · intro h
    split at h
    · simp at h
    · rename_i buf1 h1
      obtain ⟨-, hb1, rfl⟩ := WriteInteger_eq_some _ _ _ _ _ _ h1
      obtain ⟨-, hb2, rfl⟩ := WriteInteger_eq_some _ _ _ _ _ _ h
      simp only [Int.toNat_ofNat] at hb1 hb2 ⊢
      rw [length_writeAt _ _ _ (by rw [length_leBytes]; omega)] at hb2
      refine ⟨⟨by omega, by omega⟩, ?_⟩
      trivial
  · rintro ⟨⟨hb1, hb2⟩, rfl⟩
    rw [WriteInteger_of_bounds _ _ _ _ _ (Int.ofNat_nonneg _)
      (by simp only [Int.toNat_ofNat]; omega)]
    simp only [Int.toNat_ofNat]
    rw [WriteInteger_of_bounds _ _ _ _ _ (Int.ofNat_nonneg _)
      (by simp only [Int.toNat_ofNat]
          rw [length_writeAt _ _ _ (by rw [length_leBytes]; omega)]; omega)]
    simp only [Int.toNat_ofNat]

namespace delExportFunc

theorem del_rewriteStep_eq_some (pe : Parsed) (t : Tables) (m : OffsetMap) (F : Bytes) (d : Int)
    (hd : 0 ≤ d) (buf out : Bytes) (entry : Nat × ExportFunction) :
    rewriteStep pe t m F d buf entry = some out ↔
      ((∀ w ∈ writes pe t m F d entry, w.1 + w.2.length ≤ buf.length) ∧
        out = applyWrites buf (writes pe t m F d entry)) := by
  unfold rewriteStep writes
  by_cases hname : entry.2.Name = F
  · simp only [hname, if_true, List.not_mem_nil, false_implies, implies_true, true_and,
      applyWrites_nil, Option.some.injEq]
    exact eq_comm
  · simp only [hname, if_false]
    by_cases hgt : (entry.1 : Int) > d
    · simp only [hgt, if_true]
      have hs : slot d entry.1 = entry.1 - 1 := by simp [slot, hgt]
      rw [hs]
      exact writePair_eq_some pe t m (entry.1 - 1) entry.2 _ _ (by omega) (by omega) buf out
    · simp only [hgt, if_false]
      have hs : slot d entry.1 = entry.1 := by simp [slot, hgt]
      rw [hs]
      exact writePair_eq_some pe t m entry.1 entry.2 _ _ (by omega) (by omega) buf out

/-- The rewrite loop of `delExportFunc` returns exactly when all its writes lie
inside the block, and then the block is the result of those writes. -/
theorem del_rewrite_eq_some (pe : Parsed) (t : Tables) (m : OffsetMap) (F : Bytes) (d : Int)
    (hd : 0 ≤ d) (es : List (Nat × ExportFunction)) (buf out : Bytes) :
    rewrite pe t m F d buf es = some out ↔
      ((∀ w ∈ es.flatMap (writes pe t m F d), w.1 + w.2.length ≤ buf.length) ∧
        out = applyWrites buf (es.flatMap (writes pe t m F d))) := by
  induction es generalizing buf with
  | nil =>
    simp only [rewrite, List.flatMap_nil, List.not_mem_nil, false_implies, implies_true, true_and,
      applyWrites_nil, Option.some.injEq]
    exact eq_comm
  | cons e es ih =>
    rw [List.flatMap_cons, applyWrites_append]
    unfold rewrite
    constructor
    · intro h
      split at h
      · simp at h
      · rename_i buf1 h1
        obtain ⟨hb1, rfl⟩ := (del_rewriteStep_eq_some pe t m F d hd buf buf1 e).mp h1
        obtain ⟨hb2, rfl⟩ := (ih _).mp h
        rw [length_applyWrites _ _ hb1] at hb2
        refine ⟨?_, rfl⟩
        intro w hw
        rcases List.mem_append.mp hw with h3 | h3
        · exact hb1 w h3
        · exact hb2 w h3
    · rintro ⟨hb, rfl⟩
      have hb1 : ∀ w ∈ writes pe t m F d e, w.1 + w.2.length ≤ buf.length :=
        fun w hw => hb w (List.mem_append_left _ hw)
      rw [(del_rewriteStep_eq_some pe t m F d hd buf _ e).mpr ⟨hb1, rfl⟩]
      simp only
      apply (ih _).mpr
      refine ⟨?_, rfl⟩
      intro w hw
      rw [length_applyWrites _ _ hb1]
      exact hb w (List.mem_append_right _ hw)

end delExportFunc

theorem rewriteInPlaceStep_eq_some (pe : Parsed) (t : Tables) (m : OffsetMap)
    (buf out : Bytes) (entry : Nat × ExportFunction) :
    rewriteInPlaceStep pe t m buf entry = some out ↔
      ((∀ w ∈ slotWrites pe t m entry.1 entry.2, w.1 + w.2.length ≤ buf.length) ∧
        out = applyWrites buf (slotWrites pe t m entry.1 entry.2)) := by
  unfold rewriteInPlaceStep
  exact writePair_eq_some pe t m entry.1 entry.2 _ _ (by omega) (by omega) buf out

/-- The rewrite loop of `modExportFunc` and `modExportName` returns exactly
when all its writes lie inside the block, and then the block is the result of
those writes. -/
theorem rewriteInPlace_eq_some (pe : Parsed) (t : Tables) (m : OffsetMap)
    (es : List (Nat × ExportFunction)) (buf out : Bytes) :
    rewriteInPlace pe t m buf es = some out ↔
      ((∀ w ∈ es.flatMap (fun e => slotWrites pe t m e.1 e.2), w.1 + w.2.length ≤ buf.length) ∧
        out = applyWrites buf (es.flatMap (fun e => slotWrites pe t m e.1 e.2))) := by
  induction es generalizing buf with
  | nil =>
    simp only [rewriteInPlace, List.flatMap_nil, List.not_mem_nil, false_implies, implies_true,
      true_and, applyWrites_nil, Option.some.injEq]
    exact eq_comm
  | cons e es ih =>
    rw [List.flatMap_cons, applyWrites_append]
    unfold rewriteInPlace
    constructor
    · intro h
      split at h
      · simp at h
      · rename_i buf1 h1
        obtain ⟨hb1, rfl⟩ := (rewriteInPlaceStep_eq_some pe t m buf buf1 e).mp h1
        obtain ⟨hb2, rfl⟩ := (ih _).mp h
        rw [length_applyWrites _ _ hb1] at hb2
        refine ⟨?_, rfl⟩
        intro w hw
        rcases List.mem_append.mp hw with h3 | h3
        · exact hb1 w h3
        · exact hb2 w h3
    · rintro ⟨hb, rfl⟩
      have hb1 : ∀ w ∈ slotWrites pe t m e.1 e.2, w.1 + w.2.length ≤ buf.length :=
        fun w hw => hb w (List.mem_append_left _ hw)
      rw [(rewriteInPlaceStep_eq_some pe t m buf _ e).mpr ⟨hb1, rfl⟩]
      simp only
      apply (ih _).mpr
      refine ⟨?_, rfl⟩
      intro w hw
      rw [length_applyWrites _ _ hb1]
      exact hb w (List.mem_append_right _ hw)

/-! ## Runs that reach the end -/

theorem goCopy_eq_applyWrites (buf : Bytes) (s : Slice) (src : Bytes) :
    goCopy buf s src = applyWrites buf [(s.off, src.take s.len)] := rfl

theorem Parsed.resolved_eq (pe : Parsed) (t : Tables) (target : Bytes) (h : pe.tables = some t) :
    pe.resolved target =
      resolve pe.dataExport t.nameAddrTable pe.Struct.NumberOfNames target pe.Functions := by
  unfold Parsed.resolved
  rw [h]

theorem Parsed.resolved_inv (pe : Parsed) (target : Bytes) (r : Resolved)
    (h : pe.resolved target = some r) : Resolved.Inv pe.Struct.NumberOfNames target r := by
  unfold Parsed.resolved at h
  split at h
  · simp at h
  · exact resolve_inv _ _ _ _ _ _ h

namespace delExportFunc

/-- A run of `delExportFunc` that reaches the end is the sequence of writes
`allWrites` applied to the original block, all of them inside the block. -/
theorem del_dataExport_eq_done (F : Bytes) (pe : Parsed) (order : RangeOrder) (out : Bytes)
    (h : dataExport F pe order = Outcome.done out) :
    ∃ t r, pe.tables = some t ∧ pe.resolved F = some r ∧ 0 ≤ r.index ∧ r.func.Name = F ∧
      (∀ w ∈ allWrites F pe t r order, w.1 + w.2.length ≤ pe.dataExport.length) ∧
      out = applyWrites pe.dataExport (allWrites F pe t r order) := by
  unfold dataExport at h
  split at h
  · simp at h
  · rename_i t ht
    simp only at h
    split at h
    · simp at h
    · rename_i r hr
      have hinv := resolve_inv _ _ _ _ _ _ hr
      split at h
      · simp at h
      · rename_i hidx
        have hfound : 0 ≤ r.index ∧ r.func.Name = F := by
          rcases hinv.found with h0 | h0
          · exact absurd h0 hidx
          · exact h0
        split at h
        · simp at h
        · rename_i buf1 hrw
          split at h
          · simp at h
          · rename_i out1 hpatch
            simp only [Outcome.done.injEq] at h
            subst h
            rw [pe.view_nameTable t ht] at hrw hpatch
            obtain ⟨hb1, rfl⟩ := (del_rewrite_eq_some pe t _ F r.index hfound.1 _ _ _).mp hrw
            have hl1 := length_applyWrites _ _ hb1
            unfold patch at hpatch
            split at hpatch
            · simp at hpatch
            · rename_i b1 hw1
              split at hpatch
              · simp at hpatch
              · rename_i b2 hw2
                obtain ⟨-, hbw1, hb1eq⟩ := WriteInteger_eq_some _ _ _ _ _ _ hw1
                have hnn : (((sub32 r.func.Ordinal pe.Struct.Base : Nat) : Int) * 4).toNat =
                    4 * sub32 r.func.Ordinal pe.Struct.Base := by
                  omega
                rw [hnn] at hbw1 hb1eq
                have hin1 : t.funcAddrTable.off + 4 * sub32 r.func.Ordinal pe.Struct.Base +
                    (leBytes 4 0).length ≤ pe.dataExport.length := by
                  rw [length_leBytes]; omega
                have hl2 : b1.length = pe.dataExport.length := by
                  rw [hb1eq, length_writeAt _ _ _ (by rw [hl1]; exact hin1), hl1]
                obtain ⟨-, hbw2, hb2eq⟩ := WriteInteger_eq_some _ _ _ _ _ _ hw2
                have h64 : ((6 : Int) * 4).toNat = 24 := by decide
                rw [h64] at hbw2 hb2eq
                simp only [Nat.zero_add, Nat.sub_zero] at hbw2 hb2eq
                have hin2 : 24 + (leBytes 4 (sub32 pe.Struct.NumberOfNames 1)).length ≤
                    pe.dataExport.length := by
                  rw [length_leBytes]; omega
                have hl3 : b2.length = pe.dataExport.length := by
                  rw [hb2eq, length_writeAt _ _ _ (by rw [hl2]; exact hin2), hl2]
                obtain ⟨h1, h2, h3, h4, h5, h6, h7, h8, h9⟩ := pe.tables_eq_some t ht
                rw [← pe.length_dataExport] at h5 h6 h7 h8 h9
                simp only [Option.some.injEq] at hpatch
                rw [goCopy_self b2 t.funcAddrTable (by rw [hl3]; exact h7),
                  goCopy_self b2 t.nameAddrTable (by rw [hl3]; exact h8),
                  goCopy_self b2 t.nameOrdiTable (by rw [hl3]; exact h9)] at hpatch
                refine ⟨t, r, ht, by rw [pe.resolved_eq t F ht]; exact hr, hfound.1, hfound.2,
                  ?_, ?_⟩
                · intro w hw
                  unfold allWrites at hw
                  rcases List.mem_append.mp hw with h0 | h0
                  · exact hb1 w h0
                  · simp only [List.mem_cons, List.mem_singleton, List.not_mem_nil,
                      or_false] at h0
                    rcases h0 with rfl | rfl | rfl
                    · exact hin1
                    · exact hin2
                    · simp only [List.length_take]
                      omega
                · rw [← hpatch, goCopy_eq_applyWrites, hb2eq, hb1eq]
                  unfold allWrites
                  rw [applyWrites_append]
                  rfl

end delExportFunc

/-! ## The name-to-offset map -/

theorem OffsetMap.get_set_self (m : OffsetMap) (key : Bytes) (value : Nat) :
    (m.set key value).get key = value := by
  simp [OffsetMap.get, OffsetMap.set]

theorem OffsetMap.get_set_of_ne (m : OffsetMap) (key other : Bytes) (value : Nat)
    (h : other ≠ key) : (m.set key value).get other = m.get other := by
  have h1 : List.find? (fun e : Bytes × Nat => decide (e.1 = other))
      (List.filter (fun e => decide (e.1 ≠ key)) m) =
      List.find? (fun e : Bytes × Nat => decide (e.1 = other)) m := by
    induction m with
    | nil => rfl
    | cons e m ih =>
      by_cases hk : e.1 = key
      · have hne : ¬ e.1 = other := fun h2 => h (h2.symm.trans hk)
        rw [List.filter_cons_of_neg (by simpa using hk), ih,
          List.find?_cons_of_neg _ (by simpa using hne)]
      · rw [List.filter_cons_of_pos (by simpa using hk)]
        by_cases ho : e.1 = other
        · rw [List.find?_cons_of_pos _ (by simpa using ho),
            List.find?_cons_of_pos _ (by simpa using ho)]
        · rw [List.find?_cons_of_neg _ (by simpa using ho),
            List.find?_cons_of_neg _ (by simpa using ho), ih]
  unfold OffsetMap.get OffsetMap.set
  rw [List.find?_cons_of_neg _ (by simpa using (Ne.symm h)), h1]

theorem Rebuild.pushAll_nil (st : Rebuild) : st.pushAll [] = st := rfl

theorem Rebuild.pushAll_cons (st : Rebuild) (kt : Bytes × Bytes) (plan : List (Bytes × Bytes)) :
    st.pushAll (kt :: plan) = (st.push kt.1 kt.2).pushAll plan := rfl

theorem Rebuild.pushAll_append (st : Rebuild) (p q : List (Bytes × Bytes)) :
    st.pushAll (p ++ q) = (st.pushAll p).pushAll q := by
  simp [Rebuild.pushAll, List.foldl_append]

theorem Rebuild.pushAll_nameTableNew (st : Rebuild) (plan : List (Bytes × Bytes)) :
    (st.pushAll plan).nameTableNew = st.nameTableNew ++ joinNul (plan.map Prod.snd) := by
  induction plan generalizing st with
  | nil => simp [Rebuild.pushAll_nil, joinNul]
  | cons kt plan ih =>
    rw [Rebuild.pushAll_cons, ih, List.map_cons, joinNul_cons]
    simp [Rebuild.push]

/-- The running offset is the length of the text written so far, in `uint32`. -/
theorem Rebuild.pushAll_nameOffset (plan : List (Bytes × Bytes)) :
    (Rebuild.init.pushAll plan).nameOffset = (joinNul (plan.map Prod.snd)).length % 2 ^ 32 := by
  induction plan using List.reverseRecOn with
  | nil => rfl
  | append_singleton plan kt ih =>
    rw [Rebuild.pushAll_append, Rebuild.pushAll_cons, Rebuild.pushAll_nil]
    simp only [Rebuild.push, ih, List.map_append, List.map_cons, List.map_nil, joinNul_append,
      joinNul_cons, joinNul_nil, List.length_append, List.length_cons, List.length_nil]
    omega

/-- The offset recorded for a key is the offset (in `uint32`) at which the text
of the last push under that key starts. -/
theorem Rebuild.pushAll_get (plan : List (Bytes × Bytes)) (key : Bytes)
    (hkey : key ∈ plan.map Prod.fst) :
    ∃ pre text post, plan = pre ++ (key, text) :: post ∧ key ∉ post.map Prod.fst ∧
      (Rebuild.init.pushAll plan).nameOffsetMap.get key =
        (joinNul (pre.map Prod.snd)).length % 2 ^ 32 := by
  induction plan using List.reverseRecOn with
  | nil => simp at hkey
  | append_singleton plan kt ih =>
    rw [Rebuild.pushAll_append, Rebuild.pushAll_cons, Rebuild.pushAll_nil]
    by_cases hk : key = kt.1
    · refine ⟨plan, kt.2, [], ?_, by simp, ?_⟩
      · rw [hk]
      · simp only [Rebuild.push]
        rw [hk, OffsetMap.get_set_self, Rebuild.pushAll_nameOffset]
    · have hmem : key ∈ plan.map Prod.fst := by
        simp only [List.map_append, List.map_cons, List.map_nil, List.mem_append,
          List.mem_singleton] at hkey
        rcases hkey with h | h
        · exact h
        · exact absurd h hk
      obtain ⟨pre, text, post, h1, h2, h3⟩ := ih hmem
      refine ⟨pre, text, post ++ [kt], ?_, ?_, ?_⟩
      · rw [h1]; simp
      · simp only [List.map_append, List.map_cons, List.map_nil, List.mem_append,
          List.mem_singleton, not_or]
        exact ⟨h2, hk⟩
      · simp only [Rebuild.push]
        rw [OffsetMap.get_set_of_ne _ _ _ _ hk, h3]

theorem field_append_middle (x y z : Bytes) : field (x ++ y ++ z) x.length y.length = y := by
  unfold field
  rw [List.append_assoc, List.drop_left, List.take_left]

namespace delExportFunc

theorem del_foldl_rebuildStep_eq_pushAll (F : Bytes) (ts : List Bytes) (st : Rebuild) :
    ts.foldl (rebuildStep F) st = st.pushAll (plan F ts) := by
  induction ts generalizing st with
  | nil => rfl
  | cons t ts ih =>
    rw [List.foldl_cons, ih]
    unfold rebuildStep plan
    by_cases h1 : t = F
    · simp [h1]
    · by_cases h2 : t = []
      · simp [h2]
      · simp [h1, h2, Rebuild.pushAll_cons]

theorem del_rebuild_eq_pushAll (F nameTable : Bytes) :
    rebuild F nameTable = Rebuild.init.pushAll (plan F (bytesSplitNul nameTable)) :=
  del_foldl_rebuildStep_eq_pushAll F _ _

end delExportFunc

namespace modExportFunc

theorem mod_foldl_rebuildStep_eq_pushAll (old new : Bytes) (ts : List Bytes) (st : Rebuild) :
    ts.foldl (rebuildStep old new) st = st.pushAll (plan old new ts) := by
  induction ts generalizing st with
  | nil => rfl
  | cons t ts ih =>
    rw [List.foldl_cons, ih]
    unfold rebuildStep plan text
    by_cases h2 : t = []
    · simp [h2]
    · by_cases h1 : t = old
      · subst h1
        simp [h2, Rebuild.pushAll_cons]
      · simp [h1, h2, Rebuild.pushAll_cons]

theorem mod_rebuild_eq_pushAll (old new nameTable : Bytes) :
    rebuild old new nameTable = Rebuild.init.pushAll (plan old new (bytesSplitNul nameTable)) :=
  mod_foldl_rebuildStep_eq_pushAll old new _ _

end modExportFunc

/-! ## Slots written by a rewrite loop -/

theorem mem_slotWrites (pe : Parsed) (t : Tables) (m : OffsetMap) (k : Nat) (f : ExportFunction)
    (w : Write) :
    w ∈ slotWrites pe t m k f ↔
      w = (t.nameAddrTable.off + 4 * k, leBytes 4 (add32 pe.Struct.Name (m.get f.Name))) ∨
      w = (t.nameOrdiTable.off + 2 * k, leBytes 2 (f.NameOrdinal % 2 ^ 16)) := by
  simp [slotWrites]

/-- A rewrite loop whose entries go to pairwise different slots below
`NumberOfNames`, with the two tables apart: every write lies in its table, every
entry's two slots hold its values afterwards, and nothing outside the two tables
changes. -/
theorem slots_of_flatMap (pe : Parsed) (t : Tables) (m : OffsetMap) (n : Nat)
    (skip : Nat × ExportFunction → Prop) (sl : Nat × ExportFunction → Nat)
    (g : Nat × ExportFunction → List Write) (es : List (Nat × ExportFunction)) (buf : Bytes)
    (hg : ∀ e, (skip e → g e = []) ∧ (¬ skip e → g e = slotWrites pe t m (sl e) e.2))
    (hA : t.nameAddrTable.off + 4 * n ≤ buf.length)
    (hO : t.nameOrdiTable.off + 2 * n ≤ buf.length)
    (hapart : t.nameAddrTable.off + 4 * n ≤ t.nameOrdiTable.off ∨
      t.nameOrdiTable.off + 2 * n ≤ t.nameAddrTable.off)
    (hlt : ∀ e ∈ es, ¬ skip e → sl e < n)
    (hinj : ∀ e ∈ es, ∀ e' ∈ es, ¬ skip e → ¬ skip e' → sl e = sl e' → e = e') :
    (∀ w ∈ es.flatMap g, w.1 + w.2.length ≤ buf.length) ∧
    (∀ e ∈ es, ¬ skip e →
      field (applyWrites buf (es.flatMap g)) (t.nameAddrTable.off + 4 * sl e) 4 =
        leBytes 4 (add32 pe.Struct.Name (m.get e.2.Name)) ∧
      field (applyWrites buf (es.flatMap g)) (t.nameOrdiTable.off + 2 * sl e) 2 =
        leBytes 2 e.2.NameOrdinal) ∧
    (∀ j, ¬ (t.nameAddrTable.off ≤ j ∧ j < t.nameAddrTable.off + 4 * n) →
      ¬ (t.nameOrdiTable.off ≤ j ∧ j < t.nameOrdiTable.off + 2 * n) →
      (applyWrites buf (es.flatMap g))[j]? = buf[j]?) := by
  -- every write belongs to a non-skipped entry and is one of its two slot writes
  have hmem : ∀ w ∈ es.flatMap g, ∃ e ∈ es, ¬ skip e ∧
      (w = (t.nameAddrTable.off + 4 * sl e, leBytes 4 (add32 pe.Struct.Name (m.get e.2.Name))) ∨
       w = (t.nameOrdiTable.off + 2 * sl e, leBytes 2 (e.2.NameOrdinal % 2 ^ 16))) := by
    intro w hw
    obtain ⟨e, he, hwe⟩ := List.mem_flatMap.mp hw
    by_cases hs : skip e
    · rw [(hg e).1 hs] at hwe; simp at hwe
    · rw [(hg e).2 hs] at hwe
      exact ⟨e, he, hs, (mem_slotWrites _ _ _ _ _ _).mp hwe⟩
  have hin : ∀ e ∈ es, ¬ skip e → ∀ w ∈ slotWrites pe t m (sl e) e.2, w ∈ es.flatMap g := by
    intro e he hs w hw
    exact List.mem_flatMap.mpr ⟨e, he, by rw [(hg e).2 hs]; exact hw⟩
  have hb : ∀ w ∈ es.flatMap g, w.1 + w.2.length ≤ buf.length := by
    intro w hw
    obtain ⟨e, he, hs, h | h⟩ := hmem w hw
    · have := hlt e he hs
      rw [h]; simp only [length_leBytes]; omega
    · have := hlt e he hs
      rw [h]; simp only [length_leBytes]; omega
  refine ⟨hb, ?_, ?_⟩
  · intro e he hs
    have hk := hlt e he hs
    constructor
    · have h4 := field_eq_of_getElem? (applyWrites buf (es.flatMap g))
        (t.nameAddrTable.off + 4 * sl e) (leBytes 4 (add32 pe.Struct.Name (m.get e.2.Name)))
      rw [length_leBytes] at h4
      apply h4
      intro j hj1 hj2
      apply getElem?_applyWrites_of_covered buf _ hb j
      · exact ⟨_, hin e he hs _ ((mem_slotWrites _ _ _ _ _ _).mpr (Or.inl rfl)),
          by simp only [Write.Covers, length_leBytes]; omega⟩
      · intro w hw hc
        obtain ⟨e', he', hs', h | h⟩ := hmem w hw
        · subst h
          simp only [Write.Covers, length_leBytes] at hc
          have hsl : sl e = sl e' := by omega
          have hee := hinj e he e' he' hs hs' hsl
          subst hee
          rfl
        · subst h
          simp only [Write.Covers, length_leBytes] at hc
          have := hlt e' he' hs'
          omega
    · have h2 := field_eq_of_getElem? (applyWrites buf (es.flatMap g))
        (t.nameOrdiTable.off + 2 * sl e) (leBytes 2 e.2.NameOrdinal)
      rw [length_leBytes] at h2
      apply h2
      intro j hj1 hj2
      apply getElem?_applyWrites_of_covered buf _ hb j
      · refine ⟨_, hin e he hs _ ((mem_slotWrites _ _ _ _ _ _).mpr (Or.inr rfl)), ?_⟩
        simp only [Write.Covers, length_leBytes]; omega
      · intro w hw hc
        obtain ⟨e', he', hs', h | h⟩ := hmem w hw
        · subst h
          simp only [Write.Covers, length_leBytes] at hc
          have := hlt e' he' hs'
          omega
        · subst h
          simp only [Write.Covers, length_leBytes] at hc
          have hsl : sl e = sl e' := by omega
          have hee := hinj e he e' he' hs hs' hsl
          subst hee
          simp only [leBytes_two_mod]
  · intro j hjA hjO
    apply getElem?_applyWrites_of_not_covered buf _ hb j
    intro w hw hc
    obtain ⟨e, he, hs, h | h⟩ := hmem w hw
    · subst h
      simp only [Write.Covers, length_leBytes] at hc
      have := hlt e he hs
      omega
    · subst h
      simp only [Write.Covers, length_leBytes] at hc
      have := hlt e he hs
      omega

/-! ## Where the recorded offsets point -/

/-- When the text written for a key is determined by the key and the written
text is at most `2 ^ 32` bytes long, the offset recorded for a key is the place
of that text, followed by NUL, in the rebuilt region. -/
theorem Rebuild.pushAll_get_points (plan : List (Bytes × Bytes)) (key text pad : Bytes)
    (hkey : key ∈ plan.map Prod.fst)
    (htext : ∀ kt ∈ plan, kt.1 = key → kt.2 = text)
    (hfit : (joinNul (plan.map Prod.snd)).length ≤ 2 ^ 32) :
    field ((Rebuild.init.pushAll plan).nameTableNew ++ pad)
      ((Rebuild.init.pushAll plan).nameOffsetMap.get key) (text.length + 1) = text ++ [0] := by
  obtain ⟨pre, text', post, h1, -, h3⟩ := Rebuild.pushAll_get plan key hkey
  have ht : text' = text := htext (key, text') (by rw [h1]; simp) rfl
  subst ht
  have hj : joinNul (plan.map Prod.snd) =
      joinNul (pre.map Prod.snd) ++ (text' ++ [0]) ++ joinNul (post.map Prod.snd) := by
    rw [h1]
    simp only [List.map_append, List.map_cons, joinNul_append, joinNul_cons]
    simp
  have hlt : (joinNul (pre.map Prod.snd)).length < 2 ^ 32 := by
    rw [hj] at hfit
    simp only [List.length_append, List.length_cons, List.length_nil] at hfit
    omega
  rw [h3, Nat.mod_eq_of_lt hlt, Rebuild.pushAll_nameTableNew]
  have hinit : Rebuild.init.nameTableNew = [] := rfl
  rw [hinit, List.nil_append, hj, List.append_assoc]
  have hlen : text'.length + 1 = (text' ++ [0]).length := by simp
  rw [hlen]
  exact field_append_middle _ _ _

theorem length_joinNul_filter_le (p : Bytes → Bool) (l : Bytes) :
    (joinNul ((bytesSplitNul l).filter p)).length ≤ l.length + 1 := by
  have h := joinNul_filter_length_le p (bytesSplitNul l)
  rw [joinNul_bytesSplitNul] at h
  simpa using h

namespace delExportFunc

/-- In `delExportFunc`, the offset recorded for a surviving token is the place
of that token, followed by NUL, in the rebuilt region. -/
theorem del_nameOffsetMap_points (F nameTable name : Bytes) (hmem : name ∈ bytesSplitNul nameTable)
    (hne : name ≠ []) (hF : name ≠ F) (hsize : nameTable.length < 2 ^ 32) :
    field (nameTableNew F nameTable) ((nameOffsetMap F nameTable).get name) (name.length + 1) =
      name ++ [0] := by
  unfold nameTableNew nameOffsetMap padNul
  rw [del_rebuild_eq_pushAll]
  apply Rebuild.pushAll_get_points
  · simp only [plan, List.map_map, List.mem_map, List.mem_filter]
    exact ⟨name, ⟨hmem, by simp [hne, hF]⟩, rfl⟩
  · intro kt hkt hk
    simp only [plan, List.mem_map] at hkt
    obtain ⟨u, -, rfl⟩ := hkt
    exact hk
  · have h : (plan F (bytesSplitNul nameTable)).map Prod.snd =
        (bytesSplitNul nameTable).filter (fun t => decide (t ≠ [] ∧ t ≠ F)) := by
      simp [plan, List.map_map, Function.comp_def]
    rw [h]
    exact le_trans (length_joinNul_filter_le _ nameTable) (by omega)

end delExportFunc

namespace modExportFunc

theorem mod_plan_texts (old new : Bytes) (ts : List Bytes) :
    (plan old new ts).map Prod.snd = (ts.filter (fun t => decide (t ≠ []))).map (text old new) := by
  simp [plan, List.map_map, Function.comp_def]

theorem mod_rebuild_nameTableNew (old new nameTable : Bytes) :
    (rebuild old new nameTable).nameTableNew =
      joinNul (((bytesSplitNul nameTable).filter (fun t => decide (t ≠ []))).map
        (text old new)) := by
  rw [mod_rebuild_eq_pushAll, Rebuild.pushAll_nameTableNew, mod_plan_texts]
  rfl

/-- In `modExportFunc`, the offset recorded for a token is the place of the text
written for it (the new name for the old name, else the token itself), followed
by NUL, in the rebuilt region. -/
theorem mod_nameOffsetMap_points (old new nameTable name : Bytes)
    (hmem : name ∈ bytesSplitNul nameTable) (hne : name ≠ [])
    (hfit : (rebuild old new nameTable).nameTableNew.length ≤ 2 ^ 32) :
    field (nameTableNew old new nameTable) ((nameOffsetMap old new nameTable).get name)
      ((text old new name).length + 1) = text old new name ++ [0] := by
  rw [mod_rebuild_eq_pushAll, Rebuild.pushAll_nameTableNew] at hfit
  unfold nameTableNew nameOffsetMap padNul
  rw [mod_rebuild_eq_pushAll]
  apply Rebuild.pushAll_get_points
  · simp only [plan, List.map_map, List.mem_map, List.mem_filter]
    exact ⟨name, ⟨hmem, by simp [hne]⟩, rfl⟩
  · intro kt hkt hk
    simp only [plan, List.mem_map] at hkt
    obtain ⟨u, -, rfl⟩ := hkt
    simp only at hk
    rw [hk]
  · have hinit : Rebuild.init.nameTableNew = [] := rfl
    rw [hinit, List.nil_append] at hfit
    exact hfit

end modExportFunc

theorem takeWhile_ne_nul_append (s rest : Bytes) (hs : (0 : Nat) ∉ s) :
    (s ++ 0 :: rest).takeWhile (fun b => decide (b ≠ 0)) = s := by
  induction s with
  | nil => simp
  | cons b s ih =>
    have hb : b ≠ 0 := fun h => hs (by simp [h])
    have hs' : (0 : Nat) ∉ s := fun h => hs (List.mem_cons_of_mem _ h)
    rw [List.cons_append, List.takeWhile_cons_of_pos (by simpa using hb), ih hs']

/-- A region that holds `s` followed by NUL at offset `o`, with `s` free of NUL,
has `s` as its NUL-terminated string at `o`. -/
theorem cstringAt_of_field (region : Bytes) (o : Nat) (s : Bytes)
    (h : field region o (s.length + 1) = s ++ [0]) (hs : (0 : Nat) ∉ s) :
    cstringAt region o = s := by
  unfold cstringAt
  unfold field at h
  have h1 := List.take_append_drop (s.length + 1) (region.drop o)
  rw [h] at h1
  rw [← h1, List.append_assoc, List.singleton_append]
  exact takeWhile_ne_nul_append s _ hs

theorem Parsed.resolved_eq_some (pe : Parsed) (target : Bytes) (r : Resolved)
    (h : pe.resolved target = some r) :
    ∃ t, pe.tables = some t ∧
      resolve pe.dataExport t.nameAddrTable pe.Struct.NumberOfNames target pe.Functions =
        some r := by
  unfold Parsed.resolved at h
  split at h
  · simp at h
  · rename_i t ht
    exact ⟨t, ht, h⟩

theorem RangeOrder.Admissible.mem_iff (order : RangeOrder) (h : order.Admissible) (m : FuncMap)
    (e : Nat × ExportFunction) : e ∈ order m ↔ e ∈ m :=
  (h m).mem_iff

/-- Claim C2.  Let the resolver of `delExportFunc` end with the deleted function
recorded at sorted position `d` below `NumberOfNames`, and let the name-address
and name-ordinal arrays lie apart inside the block.  Then the rewrite loop runs
to its end for every visiting order, and for every other function recorded at a
position `i < NumberOfNames`, with `k = i` if `i < d` and `k = i - 1` if `i > d`,
slot `k` of the name-address array holds `Export.Name + o` as a little-endian
u32, where `o` is the offset recorded for the function's name, and slot `k` of
the name-ordinal array holds the function's `NameOrdinal` as a little-endian
u16; when the name is a non-empty token of the string region (of a block of less
than `2 ^ 32` bytes), the NUL-terminated string at offset `o` of the rebuilt
string region is that name. -/
theorem delExportFunc_rewrite_slots (F : Bytes) (pe : Parsed) (order : RangeOrder)
    (r : Resolved) (d : Nat)
    (hadm : order.Admissible) (hlay : pe.NameTablesApart)
    (hres : pe.resolved F = some r) (hd : r.index = (d : Int))
    (hdN : d < pe.Struct.NumberOfNames) (hdel : (d, r.func) ∈ r.sortedFunctions) :
    ∃ buf1, delExportFunc.afterRewrite F pe order = some buf1 ∧
      ∀ i f, (i, f) ∈ r.sortedFunctions → i < pe.Struct.NumberOfNames → f.Name ≠ F →
        i ≠ d ∧
        field buf1 (pe.nameAddrTableOff + 4 * (if i < d then i else i - 1)) 4 =
          leBytes 4 (add32 pe.Struct.Name
            ((delExportFunc.nameOffsetMap F pe.nameTable).get f.Name)) ∧
        field buf1 (pe.nameOrdiTableOff + 2 * (if i < d then i else i - 1)) 2 =
          leBytes 2 f.NameOrdinal ∧
        (f.Name ≠ [] → f.Name ∈ bytesSplitNul pe.nameTable → pe.dirExport.Size < 2 ^ 32 →
          cstringAt (delExportFunc.nameTableNew F pe.nameTable)
            ((delExportFunc.nameOffsetMap F pe.nameTable).get f.Name) = f.Name) := by
  obtain ⟨t, ht, hr⟩ := pe.resolved_eq_some F r hres
  have hinv := resolve_inv _ _ _ _ _ _ hr
  obtain ⟨-, hta, hto, -, -, hn, -⟩ := pe.tables_eq_some t ht
  obtain ⟨hA, hO, hap⟩ := hlay
  have hFname : r.func.Name = F := by
    rcases hinv.found with h0 | h0
    · rw [hd] at h0; omega
    · exact h0.2
  have hne_d : ∀ e ∈ r.sortedFunctions, e.2.Name ≠ F → e.1 ≠ d := by
    intro e he hname h1
    have : e.2 = r.func := hinv.functional d e.2 r.func (by rw [← h1]; exact he) hdel
    exact hname (by rw [this]; exact hFname)
  have hslot : ∀ e ∈ r.sortedFunctions, e.2.Name ≠ F →
      delExportFunc.slot r.index e.1 = if e.1 < d then e.1 else e.1 - 1 := by
    intro e he hname
    have := hne_d e he hname
    unfold delExportFunc.slot
    rw [hd]
    by_cases h1 : e.1 < d
    · rw [if_pos h1, if_neg (by omega)]
    · rw [if_neg h1, if_pos (by omega)]
  have hmain := slots_of_flatMap pe t (delExportFunc.nameOffsetMap F pe.nameTable)
    pe.Struct.NumberOfNames (fun e => e.2.Name = F) (fun e => delExportFunc.slot r.index e.1)
    (delExportFunc.writes pe t (delExportFunc.nameOffsetMap F pe.nameTable) F r.index)
    (order r.sortedFunctions) pe.dataExport
    (by
      intro e
      constructor
      · intro hs; simp only [delExportFunc.writes, if_pos hs]
      · intro hs; simp only [delExportFunc.writes, if_neg hs])
    (by rw [hta, pe.length_dataExport]; exact hA)
    (by rw [hto, pe.length_dataExport]; exact hO)
    (by rw [hta, hto]; exact hap)
    (by
      intro e he hs
      have he' := (hadm.mem_iff order _ e).mp he
      have hk := hinv.key_le e he'
      show delExportFunc.slot r.index e.1 < _
      rw [hslot e he' hs]
      have := hne_d e he' hs
      split <;> omega)
    (by
      intro e he e' he' hs hs' heq
      have h1 := (hadm.mem_iff order _ e).mp he
      have h2 := (hadm.mem_iff order _ e').mp he'
      have heq : delExportFunc.slot r.index e.1 = delExportFunc.slot r.index e'.1 := heq
      rw [hslot e h1 hs, hslot e' h2 hs'] at heq
      have hd1 := hne_d e h1 hs
      have hd2 := hne_d e' h2 hs'
      have hkey : e.1 = e'.1 := by
        split at heq <;> split at heq <;> omega
      have hfe : e.2 = e'.2 :=
        hinv.functional e.1 e.2 e'.2 h1 (by rw [hkey]; exact h2)
      exact Prod.ext hkey hfe)
  obtain ⟨hb, hslots, -⟩ := hmain
  refine ⟨applyWrites pe.dataExport ((order r.sortedFunctions).flatMap
    (delExportFunc.writes pe t (delExportFunc.nameOffsetMap F pe.nameTable) F r.index)), ?_, ?_⟩
  · unfold delExportFunc.afterRewrite
    rw [ht]
    simp only [hr]
    rw [if_neg (by rw [hd]; omega), pe.view_nameTable t ht]
    exact (delExportFunc.del_rewrite_eq_some pe t _ F r.index (by rw [hd]; omega) _ _ _).mpr
      ⟨hb, rfl⟩
  · intro i f hif hi hname
    have hs := hslots (i, f) ((hadm.mem_iff order _ _).mpr hif) hname
    have hsl := hslot (i, f) hif hname
    dsimp only at hs hsl
    rw [hsl, hta, hto] at hs
    refine ⟨hne_d (i, f) hif hname, hs.1, hs.2, ?_⟩
    intro hne hmem hsize
    apply cstringAt_of_field _ _ _ _ (not_nul_mem_of_mem_bytesSplitNul pe.nameTable f.Name hmem)
    apply delExportFunc.del_nameOffsetMap_points F pe.nameTable f.Name hmem hne hname
    unfold Parsed.nameTable
    rw [List.length_drop, pe.length_dataExport]
    omega

set_option maxRecDepth 100000 in
/-- The sample block, delete `Beta`: the deleted function sits at position 1. -/
theorem delExportFunc_rewrite_slots_witness :
    ∃ buf1, delExportFunc.afterRewrite (ascii "Beta") samplePE id = some buf1 ∧
      ∀ i f, (i, f) ∈ sampleResolved.sortedFunctions → i < samplePE.Struct.NumberOfNames →
        f.Name ≠ ascii "Beta" →
        i ≠ 1 ∧
        field buf1 (samplePE.nameAddrTableOff + 4 * (if i < 1 then i else i - 1)) 4 =
          leBytes 4 (add32 samplePE.Struct.Name
            ((delExportFunc.nameOffsetMap (ascii "Beta") samplePE.nameTable).get f.Name)) ∧
        field buf1 (samplePE.nameOrdiTableOff + 2 * (if i < 1 then i else i - 1)) 2 =
          leBytes 2 f.NameOrdinal ∧
        (f.Name ≠ [] → f.Name ∈ bytesSplitNul samplePE.nameTable →
          samplePE.dirExport.Size < 2 ^ 32 →
          cstringAt (delExportFunc.nameTableNew (ascii "Beta") samplePE.nameTable)
            ((delExportFunc.nameOffsetMap (ascii "Beta") samplePE.nameTable).get f.Name) =
              f.Name) :=
  delExportFunc_rewrite_slots (ascii "Beta") samplePE id sampleResolved 1
    (fun m => List.Perm.refl m) (by unfold Parsed.NameTablesApart; decide) (by rfl) (by rfl)
    (by decide) (by decide)

/-! ## Where the writes of a run land -/

/-- Every write of a rewrite loop whose slots are below `n` lies inside the
name-address array or inside the name-ordinal array. -/
theorem writes_in_tables (pe : Parsed) (t : Tables) (m : OffsetMap) (n : Nat)
    (skip : Nat × ExportFunction → Prop) (sl : Nat × ExportFunction → Nat)
    (g : Nat × ExportFunction → List Write) (es : List (Nat × ExportFunction))
    (hg : ∀ e, (skip e → g e = []) ∧ (¬ skip e → g e = slotWrites pe t m (sl e) e.2))
    (hlt : ∀ e ∈ es, ¬ skip e → sl e < n) :
    ∀ w ∈ es.flatMap g,
      (t.nameAddrTable.off ≤ w.1 ∧ w.1 + w.2.length ≤ t.nameAddrTable.off + 4 * n) ∨
      (t.nameOrdiTable.off ≤ w.1 ∧ w.1 + w.2.length ≤ t.nameOrdiTable.off + 2 * n) := by
  intro w hw
  obtain ⟨e, he, hwe⟩ := List.mem_flatMap.mp hw
  by_cases hs : skip e
  · rw [(hg e).1 hs] at hwe; simp at hwe
  · rw [(hg e).2 hs] at hwe
    have := hlt e he hs
    rcases (mem_slotWrites _ _ _ _ _ _).mp hwe with h | h
    · left; rw [h]; simp only [length_leBytes]; omega
    · right; rw [h]; simp only [length_leBytes]; omega

/-- Every write of a rewrite loop starts at or after the start of one of the two
name tables. -/
theorem writes_start (pe : Parsed) (t : Tables) (m : OffsetMap)
    (skip : Nat × ExportFunction → Prop) (sl : Nat × ExportFunction → Nat)
    (g : Nat × ExportFunction → List Write) (es : List (Nat × ExportFunction))
    (hg : ∀ e, (skip e → g e = []) ∧ (¬ skip e → g e = slotWrites pe t m (sl e) e.2)) :
    ∀ w ∈ es.flatMap g, t.nameAddrTable.off ≤ w.1 ∨ t.nameOrdiTable.off ≤ w.1 := by
  intro w hw
  obtain ⟨e, he, hwe⟩ := List.mem_flatMap.mp hw
  by_cases hs : skip e
  · rw [(hg e).1 hs] at hwe; simp at hwe
  · rw [(hg e).2 hs] at hwe
    rcases (mem_slotWrites _ _ _ _ _ _).mp hwe with h | h
    · left; rw [h]; simp only; omega
    · right; rw [h]; simp only; omega

theorem del_writes_spec (pe : Parsed) (t : Tables) (m : OffsetMap) (F : Bytes) (d : Int) :
    ∀ e : Nat × ExportFunction,
      (e.2.Name = F → delExportFunc.writes pe t m F d e = []) ∧
      (¬ e.2.Name = F →
        delExportFunc.writes pe t m F d e = slotWrites pe t m (delExportFunc.slot d e.1) e.2) := by
  intro e
  constructor
  · intro hs; simp only [delExportFunc.writes, if_pos hs]
  · intro hs; simp only [delExportFunc.writes, if_neg hs]

theorem inPlace_writes_spec (pe : Parsed) (t : Tables) (m : OffsetMap) :
    ∀ e : Nat × ExportFunction,
      (False → (fun e : Nat × ExportFunction => slotWrites pe t m e.1 e.2) e = []) ∧
      (¬ False → (fun e : Nat × ExportFunction => slotWrites pe t m e.1 e.2) e =
        slotWrites pe t m ((fun e : Nat × ExportFunction => e.1) e) e.2) := by
  intro e
  exact ⟨fun h => h.elim, fun _ => rfl⟩

theorem del_slot_lt (d : Int) (n i : Nat) (hd0 : 0 ≤ d) (hd : d < (n : Int)) (hi : i ≤ n) :
    delExportFunc.slot d i < n := by
  unfold delExportFunc.slot
  split <;> omega

/-! ## Runs of `modExportFunc` and `modExportName` that reach the end -/

theorem patchInPlace_eq (pe : Parsed) (t : Tables) (ht : pe.tables = some t)
    (nameTableNew b2 : Bytes) (hl : b2.length = pe.dataExport.length) :
    patchInPlace t nameTableNew b2 =
      applyWrites b2 [(t.nameTable.off, nameTableNew.take t.nameTable.len)] := by
  obtain ⟨h1, h2, h3, h4, h5, h6, h7, h8, h9⟩ := pe.tables_eq_some t ht
  rw [← pe.length_dataExport] at h5 h6 h7 h8 h9
  unfold patchInPlace
  simp only
  rw [goCopy_self b2 t.funcAddrTable (by rw [hl]; exact h7),
    goCopy_self b2 t.nameAddrTable (by rw [hl]; exact h8),
    goCopy_self b2 t.nameOrdiTable (by rw [hl]; exact h9)]
  rfl

theorem inPlace_done (pe : Parsed) (t : Tables) (ht : pe.tables = some t) (r : Resolved)
    (order : RangeOrder) (m : OffsetMap) (nameTableNew buf1 : Bytes)
    (hrw : rewriteInPlace pe t m pe.dataExport (order r.sortedFunctions) = some buf1) :
    (∀ w ∈ inPlaceWrites pe t r order m nameTableNew, w.1 + w.2.length ≤ pe.dataExport.length) ∧
      patchInPlace t nameTableNew buf1 =
        applyWrites pe.dataExport (inPlaceWrites pe t r order m nameTableNew) := by
  obtain ⟨hb1, rfl⟩ := (rewriteInPlace_eq_some pe t m _ _ _).mp hrw
  have hl1 := length_applyWrites _ _ hb1
  obtain ⟨h1, h2, h3, h4, h5, h6, h7, h8, h9⟩ := pe.tables_eq_some t ht
  rw [← pe.length_dataExport] at h5 h6 h7 h8 h9
  constructor
  · intro w hw
    unfold inPlaceWrites at hw
    rcases List.mem_append.mp hw with h0 | h0
    · exact hb1 w h0
    · rw [List.mem_singleton.mp h0]
      simp only [List.length_take]
      omega
  · rw [patchInPlace_eq pe t ht _ _ hl1]
    unfold inPlaceWrites
    rw [applyWrites_append]

namespace modExportFunc

/-- A run of `modExportFunc` that reaches the end is the sequence of writes
`inPlaceWrites` applied to the original block, all of them inside the block. -/
theorem mod_dataExport_eq_done (old new : Bytes) (pe : Parsed) (order : RangeOrder)
    (out : Bytes) (h : dataExport old new pe order = Outcome.done out) :
    ∃ t r, pe.tables = some t ∧ pe.resolved old = some r ∧ 0 ≤ r.index ∧
      (∀ w ∈ inPlaceWrites pe t r order (nameOffsetMap old new pe.nameTable)
          (nameTableNew old new pe.nameTable), w.1 + w.2.length ≤ pe.dataExport.length) ∧
      out = applyWrites pe.dataExport (inPlaceWrites pe t r order
        (nameOffsetMap old new pe.nameTable) (nameTableNew old new pe.nameTable)) := by
  unfold dataExport at h
  split at h
  · simp at h
  · rename_i t ht
    simp only at h
    split at h
    · simp at h
    · rename_i r hr
      have hinv := resolve_inv _ _ _ _ _ _ hr
      split at h
      · simp at h
      · rename_i hidx
        have hfound : 0 ≤ r.index := by
          rcases hinv.found with h0 | h0
          · exact absurd h0 hidx
          · exact h0.1
        split at h
        · simp at h
        · rename_i buf1 hrw
          simp only [Outcome.done.injEq] at h
          subst h
          rw [pe.view_nameTable t ht] at hrw ⊢
          obtain ⟨hb, heq⟩ := inPlace_done pe t ht r order _ (nameTableNew old new pe.nameTable)
            buf1 hrw
          exact ⟨t, r, ht, by rw [pe.resolved_eq t old ht]; exact hr, hfound, hb, heq⟩

end modExportFunc

namespace modExportName

/-- A run of `modExportName` that reaches the end is the sequence of writes
`inPlaceWrites` applied to the original block, all of them inside the block. -/
theorem name_dataExport_eq_done (new : Bytes) (pe : Parsed) (order : RangeOrder)
    (out : Bytes) (h : dataExport new pe order = Outcome.done out) :
    ∃ t r, pe.tables = some t ∧ pe.resolved [] = some r ∧
      (∀ w ∈ inPlaceWrites pe t r order (nameOffsetMap new pe.nameTable)
          (nameTableNew new pe.nameTable), w.1 + w.2.length ≤ pe.dataExport.length) ∧
      out = applyWrites pe.dataExport (inPlaceWrites pe t r order
        (nameOffsetMap new pe.nameTable) (nameTableNew new pe.nameTable)) := by
  unfold dataExport at h
  split at h
  · simp at h
  · rename_i t ht
    simp only at h
    split at h
    · simp at h
    · rename_i r hr
      split at h
      · simp at h
      · rename_i buf1 hrw
        simp only [Outcome.done.injEq] at h
        subst h
        rw [pe.view_nameTable t ht] at hrw ⊢
        obtain ⟨hb, heq⟩ := inPlace_done pe t ht r order _ (nameTableNew new pe.nameTable)
          buf1 hrw
        exact ⟨t, r, ht, by rw [pe.resolved_eq t [] ht]; exact hr, hb, heq⟩

end modExportName

/-! ## Resolved functions -/

theorem resolveFrom_origin (buf : Bytes) (s : Slice) (n : Nat) (target : Bytes)
    (functions : List ExportFunction) (st r : Resolved)
    (h : resolveFrom buf s n target st functions = some r) :
    ∀ e ∈ r.sortedFunctions, e ∈ st.sortedFunctions ∨
      (e.2 ∈ functions ∧ position buf s n e.2.NameRVA = some e.1) := by
  induction functions generalizing st with
  | nil =>
    simp only [resolveFrom, Option.some.injEq] at h
    subst h
    intro e he; exact Or.inl he
  | cons efunc rest ih =>
    unfold resolveFrom at h
    split at h
    · simp at h
    · rename_i st1 hst1
      intro e he
      have hst1' : ∃ i, position buf s n efunc.NameRVA = some i ∧
          st1.sortedFunctions = st.sortedFunctions.set i efunc := by
        unfold resolveStep at hst1
        split at hst1
        · simp at hst1
        · rename_i i hi
          simp only at hst1
          refine ⟨i, hi, ?_⟩
          split at hst1 <;>
          · simp only [Option.some.injEq] at hst1
            rw [← hst1]
      obtain ⟨i, hi, hset⟩ := hst1'
      rcases ih st1 h e he with h1 | h1
      · rw [hset] at h1
        rcases (FuncMap.mem_set _ _ _ _).mp h1 with h2 | h2
        · right
          rw [h2]
          exact ⟨List.mem_cons_self _ _, hi⟩
        · exact Or.inl h2.1
      · exact Or.inr ⟨List.mem_cons_of_mem _ h1.1, h1.2⟩

/-- When every function is resolved, every key of `sortedFunctions` is a
position inside the name-address array. -/
theorem Parsed.key_lt_of_allResolved (pe : Parsed) (target : Bytes) (r : Resolved)
    (hres : pe.resolved target = some r) (hall : pe.AllResolved) :
    ∀ e ∈ r.sortedFunctions, e.1 < pe.Struct.NumberOfNames := by
  obtain ⟨t, ht, hr⟩ := pe.resolved_eq_some target r hres
  intro e he
  rcases resolveFrom_origin _ _ _ _ _ _ _ hr e he with h | h
  · simp [Resolved.init] at h
  · have := hall e.2 h.1
    unfold Parsed.isResolved at this
    rw [ht] at this
    simp only [h.2, decide_eq_true_eq] at this
    exact this

/-! ## Header and function-address array under delete -/

theorem leBytes_four_sub32_one (n : Nat) (hn : 0 < n) : leBytes 4 (sub32 n 1) = leBytes 4 (n - 1) := by
  have h2 : sub32 n 1 = (n - 1) % 2 ^ 32 := by
    unfold sub32
    omega
  rw [h2]
  exact leBytes_four_mod (n - 1)

/-- Claim C3.  For every delete that reaches the end, with the three tables and
the string region after the 40-byte header and at least one name in the
directory, the u32 at byte offset 24 of the patched block (`NumberOfNames`) is
the original `NumberOfNames` minus one, and the u32 at byte offset 20
(`NumberOfFunctions`) is unchanged. -/
theorem delExportFunc_header_counts (F : Bytes) (pe : Parsed) (order : RangeOrder) (out : Bytes)
    (hdone : delExportFunc.dataExport F pe order = Outcome.done out)
    (hhead : pe.AfterHeader) (hN : 0 < pe.Struct.NumberOfNames) :
    field out 24 4 = leBytes 4 (pe.Struct.NumberOfNames - 1) ∧
    field out 20 4 = field pe.dataExport 20 4 := by
  obtain ⟨t, r, ht, -, -, -, hb, rfl⟩ := delExportFunc.del_dataExport_eq_done F pe order out hdone
  obtain ⟨h1, h2, h3, h4, -⟩ := pe.tables_eq_some t ht
  obtain ⟨hf, ha, ho, hn⟩ := hhead
  -- the only write that starts before byte 40 is the one at byte 24
  have hstart : ∀ w ∈ delExportFunc.allWrites F pe t r order,
      40 ≤ w.1 ∨ w = (24, leBytes 4 (sub32 pe.Struct.NumberOfNames 1)) := by
    intro w hw
    unfold delExportFunc.allWrites at hw
    rcases List.mem_append.mp hw with h0 | h0
    · left
      rcases writes_start pe t _ _ _ _ _ (del_writes_spec pe t _ F r.index) w h0 with h5 | h5 <;>
        omega
    · simp only [List.mem_cons, List.mem_singleton, List.not_mem_nil, or_false] at h0
      rcases h0 with rfl | rfl | rfl
      · left; simp only; omega
      · right; rfl
      · left; simp only; omega
  constructor
  · rw [← leBytes_four_sub32_one _ hN]
    have h := field_eq_of_getElem? (applyWrites pe.dataExport (delExportFunc.allWrites F pe t r order))
      24 (leBytes 4 (sub32 pe.Struct.NumberOfNames 1))
    rw [length_leBytes] at h
    apply h
    intro j hj1 hj2
    apply getElem?_applyWrites_of_covered _ _ hb j
    · refine ⟨(24, leBytes 4 (sub32 pe.Struct.NumberOfNames 1)), ?_, ?_⟩
      · unfold delExportFunc.allWrites
        apply List.mem_append_right
        simp
      · simp only [Write.Covers, length_leBytes]; omega
    · intro w hw hc
      rcases hstart w hw with h5 | h5
      · simp only [Write.Covers] at hc; omega
      · rw [h5]
  · apply field_congr
    intro j hj1 hj2
    apply getElem?_applyWrites_of_not_covered _ _ hb j
    intro w hw hc
    rcases hstart w hw with h5 | h5
    · simp only [Write.Covers] at hc; omega
    · rw [h5] at hc
      simp only [Write.Covers, length_leBytes] at hc; omega

set_option maxRecDepth 100000 in
/-- The sample block, delete `Beta`: `NumberOfNames` goes from 3 to 2. -/
theorem delExportFunc_header_counts_witness :
    field sampleDeleted 24 4 = leBytes 4 (samplePE.Struct.NumberOfNames - 1) ∧
    field sampleDeleted 20 4 = field samplePE.dataExport 20 4 :=
  delExportFunc_header_counts (ascii "Beta") samplePE id sampleDeleted (by rfl)
    (by unfold Parsed.AfterHeader; decide) (by decide)

/-- Claim C4.  For every delete of `F` that reaches the end, with the four
regions pairwise disjoint inside the block, the function-address array after
the header, the deleted function resolved inside the name-address array and its
index `F.Ordinal - Base` inside the function-address array: the 4-byte slot at
that index is zero in the patched block, every other slot of the
function-address array is unchanged, and the array still has
`4 * NumberOfFunctions` bytes. -/
theorem delExportFunc_funcAddrTable (F : Bytes) (pe : Parsed) (order : RangeOrder)
    (out : Bytes) (r : Resolved)
    (hadm : order.Admissible)
    (hdone : delExportFunc.dataExport F pe order = Outcome.done out)
    (hres : pe.resolved F = some r)
    (hdis : pe.RegionsDisjoint) (hhead : 40 ≤ pe.funcAddrTableOff)
    (hdN : r.index < (pe.Struct.NumberOfNames : Int))
    (he : sub32 r.func.Ordinal pe.Struct.Base < pe.Struct.NumberOfFunctions) :
    field out (pe.funcAddrTableOff + 4 * sub32 r.func.Ordinal pe.Struct.Base) 4 = [0, 0, 0, 0] ∧
    (∀ k, k < pe.Struct.NumberOfFunctions → k ≠ sub32 r.func.Ordinal pe.Struct.Base →
      field out (pe.funcAddrTableOff + 4 * k) 4 = field pe.dataExport (pe.funcAddrTableOff + 4 * k) 4) ∧
    (field out pe.funcAddrTableOff (4 * pe.Struct.NumberOfFunctions)).length =
      4 * pe.Struct.NumberOfFunctions := by
  obtain ⟨t, r', ht, hres', hd0, -, hb, rfl⟩ :=
    delExportFunc.del_dataExport_eq_done F pe order out hdone
  rw [hres] at hres'
  simp only [Option.some.injEq] at hres'
  subst hres'
  have hinv := pe.resolved_inv F r hres
  obtain ⟨h1, h2, h3, h4, -⟩ := pe.tables_eq_some t ht
  obtain ⟨⟨hA, hO, hap⟩, hn, hfn, han, hon, hfa, hfo⟩ := hdis
  -- a write either lies outside the function-address array or is the zeroing write
  have hcls : ∀ w ∈ delExportFunc.allWrites F pe t r order,
      (w.1 + w.2.length ≤ pe.funcAddrTableOff ∨
        pe.funcAddrTableOff + 4 * pe.Struct.NumberOfFunctions ≤ w.1) ∨
      w = (pe.funcAddrTableOff + 4 * sub32 r.func.Ordinal pe.Struct.Base, leBytes 4 0) := by
    intro w hw
    unfold delExportFunc.allWrites at hw
    rcases List.mem_append.mp hw with h0 | h0
    · left
      have := writes_in_tables pe t _ pe.Struct.NumberOfNames _ _ _ _
        (del_writes_spec pe t _ F r.index)
        (fun e he _ => del_slot_lt r.index _ e.1 hd0 hdN
          (hinv.key_le e ((hadm.mem_iff order _ e).mp he))) w h0
      rw [h2, h3] at this
      omega
    · simp only [List.mem_cons, List.mem_singleton, List.not_mem_nil, or_false] at h0
      rcases h0 with rfl | rfl | rfl
      · right; rw [h1]
      · left; left; simp only [length_leBytes]; omega
      · left; right; simp only; omega
  have hlen := length_applyWrites _ _ hb
  refine ⟨?_, ?_, ?_⟩
  · have h := field_eq_of_getElem? (applyWrites pe.dataExport (delExportFunc.allWrites F pe t r order))
      (pe.funcAddrTableOff + 4 * sub32 r.func.Ordinal pe.Struct.Base) (leBytes 4 0)
    rw [length_leBytes] at h
    have hz : leBytes 4 0 = [0, 0, 0, 0] := by decide
    rw [← hz]
    apply h
    intro j hj1 hj2
    apply getElem?_applyWrites_of_covered _ _ hb j
    · refine ⟨(pe.funcAddrTableOff + 4 * sub32 r.func.Ordinal pe.Struct.Base, leBytes 4 0), ?_, ?_⟩
      · unfold delExportFunc.allWrites
        apply List.mem_append_right
        rw [h1]
        simp
      · simp only [Write.Covers, length_leBytes]; omega
    · intro w hw hc
      rcases hcls w hw with h5 | h5
      · simp only [Write.Covers] at hc; omega
      · rw [h5]
  · intro k hk hne
    apply field_congr
    intro j hj1 hj2
    apply getElem?_applyWrites_of_not_covered _ _ hb j
    intro w hw hc
    rcases hcls w hw with h5 | h5
    · simp only [Write.Covers] at hc; omega
    · rw [h5] at hc
      simp only [Write.Covers, length_leBytes] at hc; omega
  · unfold field
    rw [List.length_take, List.length_drop, hlen, pe.length_dataExport]
    omega

set_option maxRecDepth 100000 in
/-- The sample block, delete `Beta` (ordinal 2, base 1): slot 1 is zeroed. -/
theorem delExportFunc_funcAddrTable_witness :
    field sampleDeleted (samplePE.funcAddrTableOff + 4 * sub32 sampleResolved.func.Ordinal
      samplePE.Struct.Base) 4 = [0, 0, 0, 0] ∧
    (∀ k, k < samplePE.Struct.NumberOfFunctions →
      k ≠ sub32 sampleResolved.func.Ordinal samplePE.Struct.Base →
      field sampleDeleted (samplePE.funcAddrTableOff + 4 * k) 4 =
        field samplePE.dataExport (samplePE.funcAddrTableOff + 4 * k) 4) ∧
    (field sampleDeleted samplePE.funcAddrTableOff (4 * samplePE.Struct.NumberOfFunctions)).length =
      4 * samplePE.Struct.NumberOfFunctions :=
  delExportFunc_funcAddrTable (ascii "Beta") samplePE id sampleDeleted sampleResolved
    (fun m => List.Perm.refl m) (by rfl) (by rfl)
    (by unfold Parsed.RegionsDisjoint Parsed.NameTablesApart; decide) (by decide) (by decide)
    (by decide)

/-! ## Rename and module rename: what stays, what is copied back -/

/-- With every key of the map inside the name-address array and the regions
disjoint after the header, the writes of an in-place run touch neither the
header nor the function-address array. -/
theorem inPlace_frame (pe : Parsed) (t : Tables) (ht : pe.tables = some t) (r : Resolved)
    (order : RangeOrder) (hadm : order.Admissible) (m : OffsetMap) (nameTableNew : Bytes)
    (hkeys : ∀ e ∈ r.sortedFunctions, e.1 < pe.Struct.NumberOfNames)
    (hdis : pe.RegionsDisjoint) (hhead : pe.AfterHeader)
    (hb : ∀ w ∈ inPlaceWrites pe t r order m nameTableNew,
      w.1 + w.2.length ≤ pe.dataExport.length) :
    field (applyWrites pe.dataExport (inPlaceWrites pe t r order m nameTableNew)) 0 40 =
      field pe.dataExport 0 40 ∧
    field (applyWrites pe.dataExport (inPlaceWrites pe t r order m nameTableNew))
      pe.funcAddrTableOff (4 * pe.Struct.NumberOfFunctions) =
      field pe.dataExport pe.funcAddrTableOff (4 * pe.Struct.NumberOfFunctions) := by
  obtain ⟨h1, h2, h3, h4, -⟩ := pe.tables_eq_some t ht
  obtain ⟨⟨hA, hO, hap⟩, hn, hfn, han, hon, hfa, hfo⟩ := hdis
  obtain ⟨hf40, ha40, ho40, hn40⟩ := hhead
  have hcls : ∀ w ∈ inPlaceWrites pe t r order m nameTableNew,
      40 ≤ w.1 ∧ (w.1 + w.2.length ≤ pe.funcAddrTableOff ∨
        pe.funcAddrTableOff + 4 * pe.Struct.NumberOfFunctions ≤ w.1) := by
    intro w hw
    unfold inPlaceWrites at hw
    rcases List.mem_append.mp hw with h0 | h0
    · have := writes_in_tables pe t m pe.Struct.NumberOfNames (fun _ => False) (fun e => e.1)
        (fun e => slotWrites pe t m e.1 e.2) _ (inPlace_writes_spec pe t m)
        (fun e he _ => hkeys e ((hadm.mem_iff order _ e).mp he)) w h0
      rw [h2, h3] at this
      omega
    · rw [List.mem_singleton.mp h0]
      simp only
      omega
  constructor
  · apply field_congr
    intro j hj1 hj2
    apply getElem?_applyWrites_of_not_covered _ _ hb j
    intro w hw hc
    have := hcls w hw
    simp only [Write.Covers] at hc; omega
  · apply field_congr
    intro j hj1 hj2
    apply getElem?_applyWrites_of_not_covered _ _ hb j
    intro w hw hc
    have := hcls w hw
    simp only [Write.Covers] at hc; omega

/-- Claim C10.  For every `modExportFunc` and every `modExportName` that reaches
the end, with the four regions pairwise disjoint inside the block and after the
40-byte header and every function resolved, the 40-byte directory header (with
`NumberOfFunctions` at offset 20 and `NumberOfNames` at offset 24) and every
byte of the function-address array are the same in the original and in the
patched block. -/
theorem rename_header_funcAddrTable_unchanged (old new dst : Bytes) (pe : Parsed)
    (order : RangeOrder) (hadm : order.Admissible)
    (hdis : pe.RegionsDisjoint) (hhead : pe.AfterHeader) (hall : pe.AllResolved) :
    (∀ out, modExportFunc.dataExport old new pe order = Outcome.done out →
      field out 0 40 = field pe.dataExport 0 40 ∧
      field out pe.funcAddrTableOff (4 * pe.Struct.NumberOfFunctions) =
        field pe.dataExport pe.funcAddrTableOff (4 * pe.Struct.NumberOfFunctions)) ∧
    (∀ out, modExportName.dataExport dst pe order = Outcome.done out →
      field out 0 40 = field pe.dataExport 0 40 ∧
      field out pe.funcAddrTableOff (4 * pe.Struct.NumberOfFunctions) =
        field pe.dataExport pe.funcAddrTableOff (4 * pe.Struct.NumberOfFunctions)) := by
  constructor
  · intro out hdone
    obtain ⟨t, r, ht, hres, -, hb, rfl⟩ :=
      modExportFunc.mod_dataExport_eq_done old new pe order out hdone
    exact inPlace_frame pe t ht r order hadm _ _ (pe.key_lt_of_allResolved old r hres hall)
      hdis hhead hb
  · intro out hdone
    obtain ⟨t, r, ht, hres, hb, rfl⟩ :=
      modExportName.name_dataExport_eq_done dst pe order out hdone
    exact inPlace_frame pe t ht r order hadm _ _ (pe.key_lt_of_allResolved [] r hres hall)
      hdis hhead hb

set_option maxRecDepth 100000 in
/-- The sample block: rename `Alpha` to `Al`, and rename the module to `x.dll`. -/
theorem rename_header_funcAddrTable_unchanged_witness :
    (field sampleRenamed 0 40 = field samplePE.dataExport 0 40 ∧
      field sampleRenamed samplePE.funcAddrTableOff (4 * samplePE.Struct.NumberOfFunctions) =
        field samplePE.dataExport samplePE.funcAddrTableOff
          (4 * samplePE.Struct.NumberOfFunctions)) ∧
    (field sampleModuleRenamed 0 40 = field samplePE.dataExport 0 40 ∧
      field sampleModuleRenamed samplePE.funcAddrTableOff
          (4 * samplePE.Struct.NumberOfFunctions) =
        field samplePE.dataExport samplePE.funcAddrTableOff
          (4 * samplePE.Struct.NumberOfFunctions)) :=
  ⟨(rename_header_funcAddrTable_unchanged (ascii "Alpha") (ascii "Al") (ascii "x.dll") samplePE id
      (fun m => List.Perm.refl m)
      (by unfold Parsed.RegionsDisjoint Parsed.NameTablesApart; decide)
      (by unfold Parsed.AfterHeader; decide)
      (by unfold Parsed.AllResolved; decide)).1 sampleRenamed (by rfl),
   (rename_header_funcAddrTable_unchanged (ascii "Alpha") (ascii "Al") (ascii "x.dll") samplePE id
      (fun m => List.Perm.refl m)
      (by unfold Parsed.RegionsDisjoint Parsed.NameTablesApart; decide)
      (by unfold Parsed.AfterHeader; decide)
      (by unfold Parsed.AllResolved; decide)).2 sampleModuleRenamed (by rfl)⟩

/-- The string region of the block after an in-place run: the first `L` bytes of
the rebuilt region. -/
theorem inPlace_region (pe : Parsed) (t : Tables) (ht : pe.tables = some t) (r : Resolved)
    (order : RangeOrder) (m : OffsetMap) (nameTableNew : Bytes)
    (hlen : pe.nameTable.length ≤ nameTableNew.length)
    (hb : ∀ w ∈ inPlaceWrites pe t r order m nameTableNew,
      w.1 + w.2.length ≤ pe.dataExport.length) :
    (applyWrites pe.dataExport (inPlaceWrites pe t r order m nameTableNew)).drop pe.nameTableOff =
      nameTableNew.take pe.nameTable.length := by
  obtain ⟨h1, h2, h3, h4, h5, h6, -⟩ := pe.tables_eq_some t ht
  have hL : pe.nameTable.length = pe.dirExport.Size - pe.nameTableOff := by
    unfold Parsed.nameTable
    rw [List.length_drop, pe.length_dataExport]
  have hb1 : ∀ w ∈ (order r.sortedFunctions).flatMap (fun e => slotWrites pe t m e.1 e.2),
      w.1 + w.2.length ≤ pe.dataExport.length :=
    fun w hw => hb w (List.mem_append_left _ hw)
  have hl1 := length_applyWrites _ _ hb1
  unfold inPlaceWrites
  rw [applyWrites_append, applyWrites_cons, applyWrites_nil]
  simp only
  rw [h4, h5, ← hL]
  unfold writeAt
  have hlt : (List.take pe.nameTable.length nameTableNew).length = pe.nameTable.length := by
    rw [List.length_take]; omega
  rw [hlt]
  have hdrop : List.drop (pe.nameTableOff + pe.nameTable.length)
      (applyWrites pe.dataExport
        ((order r.sortedFunctions).flatMap (fun e => slotWrites pe t m e.1 e.2))) = [] := by
    apply List.drop_eq_nil_of_le
    rw [hl1, pe.length_dataExport]; omega
  rw [hdrop, List.append_nil]
  have htl : (List.take pe.nameTableOff (applyWrites pe.dataExport
      ((order r.sortedFunctions).flatMap (fun e => slotWrites pe t m e.1 e.2)))).length =
      pe.nameTableOff := by
    rw [List.length_take, hl1, pe.length_dataExport]; omega
  rw [List.drop_append_of_le_length (by rw [htl]), List.drop_of_length_le (by rw [htl]),
    List.nil_append]

/-- Claim C6, as the code has it.  Neither `modExportFunc` nor `modExportName`
checks the length of the re-concatenated string region: whenever a run reaches
the end, the string region of the patched block is the first `L` bytes of the
rebuilt region (`L` the original length), and when the re-concatenated region
is longer than `L` these are its first `L` bytes, the rest being dropped. -/
theorem rename_region_truncated (old new dst : Bytes) (pe : Parsed) (order : RangeOrder) :
    (∀ out, modExportFunc.dataExport old new pe order = Outcome.done out →
      out.drop pe.nameTableOff =
        (modExportFunc.nameTableNew old new pe.nameTable).take pe.nameTable.length ∧
      (pe.nameTable.length < (modExportFunc.rebuild old new pe.nameTable).nameTableNew.length →
        out.drop pe.nameTableOff =
          (modExportFunc.rebuild old new pe.nameTable).nameTableNew.take pe.nameTable.length)) ∧
    (∀ out, modExportName.dataExport dst pe order = Outcome.done out →
      out.drop pe.nameTableOff =
        (modExportName.nameTableNew dst pe.nameTable).take pe.nameTable.length ∧
      (pe.nameTable.length < (modExportName.rebuild dst pe.nameTable).nameTableNew.length →
        out.drop pe.nameTableOff =
          (modExportName.rebuild dst pe.nameTable).nameTableNew.take pe.nameTable.length)) := by
  have hpad : ∀ a b : Bytes, a.length < b.length → padNul a b = b := by
    intro a b h
    unfold padNul
    have : ((a.length : Int) - (b.length : Int)).toNat = 0 := by omega
    rw [this]; simp
  have hge : ∀ a b : Bytes, a.length ≤ (padNul a b).length := by
    intro a b; rw [padNul_length]; exact le_max_left _ _
  constructor
  · intro out hdone
    obtain ⟨t, r, ht, -, -, hb, rfl⟩ :=
      modExportFunc.mod_dataExport_eq_done old new pe order out hdone
    have h := inPlace_region pe t ht r order (modExportFunc.nameOffsetMap old new pe.nameTable)
      (modExportFunc.nameTableNew old new pe.nameTable) (hge _ _) hb
    refine ⟨h, fun hlt => ?_⟩
    rw [h]
    unfold modExportFunc.nameTableNew
    rw [hpad _ _ hlt]
  · intro out hdone
    obtain ⟨t, r, ht, -, hb, rfl⟩ :=
      modExportName.name_dataExport_eq_done dst pe order out hdone
    have h := inPlace_region pe t ht r order (modExportName.nameOffsetMap dst pe.nameTable)
      (modExportName.nameTableNew dst pe.nameTable) (hge _ _) hb
    refine ⟨h, fun hlt => ?_⟩
    rw [h]
    unfold modExportName.nameTableNew
    rw [hpad _ _ hlt]

set_option maxRecDepth 100000 in
/-- Claim C6 fails on the code.  Renaming `Alpha` to `AlphaRenamed` in the sample
block re-concatenates to 30 bytes for a region of 23; the run does not abort but
ends with a patched block whose string region is the first 23 of those bytes:
`Gamma` is lost and the last name has no terminator. -/
theorem rename_growth_counterexample :
    (modExportFunc.rebuild (ascii "Alpha") (ascii "AlphaRenamed")
      samplePE.nameTable).nameTableNew.length = 30 ∧
    samplePE.nameTable.length = 23 ∧
    modExportFunc.dataExport (ascii "Alpha") (ascii "AlphaRenamed") samplePE id =
      Outcome.done sampleGrown ∧
    sampleGrown.drop samplePE.nameTableOff =
      ascii "m.dll" ++ [0] ++ ascii "AlphaRenamed" ++ [0] ++ ascii "Beta" := by
  refine ⟨by rfl, by rfl, by rfl, by rfl⟩

/-! ## Rename: slots and strings -/

/-- Claim C7, as the code has it.  Let `modExportFunc` rename `old` to `new` (a name without NUL) on
a block of less than `2 ^ 32` bytes whose name-address and name-ordinal arrays
lie apart, where every function is resolved and has a non-empty name that is a
token of the string region, and the rebuilt region fits in the original length.
Then the rewrite loop runs to its end for every visiting order, and for every
function recorded at a position `i`: slot `i` of the name-address array holds
`Export.Name + o` as a little-endian u32, slot `i` of the name-ordinal array
holds the function's `NameOrdinal`, and the NUL-terminated string at offset `o`
of the rebuilt region is `new` when the function's name is `old` and the
function's unchanged name otherwise. -/
theorem modExportFunc_rename_slots (old new : Bytes) (pe : Parsed) (order : RangeOrder)
    (r : Resolved)
    (hadm : order.Admissible) (hlay : pe.NameTablesApart)
    (hres : pe.resolved old = some r) (hfound : r.index ≠ -1)
    (hall : pe.AllResolved)
    (hnames : ∀ f ∈ pe.Functions, f.Name ≠ [] ∧ f.Name ∈ bytesSplitNul pe.nameTable)
    (hfit : (modExportFunc.rebuild old new pe.nameTable).nameTableNew.length ≤
      pe.nameTable.length)
    (hsize : pe.dirExport.Size < 2 ^ 32) (hnew : (0 : Nat) ∉ new) :
    ∃ buf1, modExportFunc.afterRewrite old new pe order = some buf1 ∧
      ∀ i f, (i, f) ∈ r.sortedFunctions →
        i < pe.Struct.NumberOfNames ∧
        field buf1 (pe.nameAddrTableOff + 4 * i) 4 =
          leBytes 4 (add32 pe.Struct.Name
            ((modExportFunc.nameOffsetMap old new pe.nameTable).get f.Name)) ∧
        field buf1 (pe.nameOrdiTableOff + 2 * i) 2 = leBytes 2 f.NameOrdinal ∧
        cstringAt (modExportFunc.nameTableNew old new pe.nameTable)
          ((modExportFunc.nameOffsetMap old new pe.nameTable).get f.Name) =
            (if f.Name = old then new else f.Name) := by
  obtain ⟨t, ht, hr⟩ := pe.resolved_eq_some old r hres
  have hinv := resolve_inv _ _ _ _ _ _ hr
  obtain ⟨-, hta, hto, -, -, hn, -⟩ := pe.tables_eq_some t ht
  obtain ⟨hA, hO, hap⟩ := hlay
  have hkeys := pe.key_lt_of_allResolved old r hres hall
  have hmain := slots_of_flatMap pe t (modExportFunc.nameOffsetMap old new pe.nameTable)
    pe.Struct.NumberOfNames (fun _ => False) (fun e => e.1)
    (fun e => slotWrites pe t (modExportFunc.nameOffsetMap old new pe.nameTable) e.1 e.2)
    (order r.sortedFunctions) pe.dataExport
    (inPlace_writes_spec pe t _)
    (by rw [hta, pe.length_dataExport]; exact hA)
    (by rw [hto, pe.length_dataExport]; exact hO)
    (by rw [hta, hto]; exact hap)
    (fun e he _ => hkeys e ((hadm.mem_iff order _ e).mp he))
    (by
      intro e he e' he' _ _ heq
      have h1 := (hadm.mem_iff order _ e).mp he
      have h2 := (hadm.mem_iff order _ e').mp he'
      have hkey : e.1 = e'.1 := heq
      exact Prod.ext hkey (hinv.functional e.1 e.2 e'.2 h1 (by rw [hkey]; exact h2)))
  obtain ⟨hb, hslots, -⟩ := hmain
  refine ⟨applyWrites pe.dataExport ((order r.sortedFunctions).flatMap
    (fun e => slotWrites pe t (modExportFunc.nameOffsetMap old new pe.nameTable) e.1 e.2)),
    ?_, ?_⟩
  · unfold modExportFunc.afterRewrite
    rw [ht]
    simp only [hr]
    rw [if_neg hfound, pe.view_nameTable t ht]
    exact (rewriteInPlace_eq_some pe t _ _ _ _).mpr ⟨hb, rfl⟩
  · intro i f hif
    have hs := hslots (i, f) ((hadm.mem_iff order _ _).mpr hif) (fun h => h)
    dsimp only at hs
    rw [hta, hto] at hs
    refine ⟨hkeys (i, f) hif, hs.1, hs.2, ?_⟩
    have hfmem : f ∈ pe.Functions := by
      rcases resolveFrom_origin _ _ _ _ _ _ _ hr (i, f) hif with h | h
      · simp [Resolved.init] at h
      · exact h.1
    obtain ⟨hne, hmem⟩ := hnames f hfmem
    have hL : pe.nameTable.length ≤ pe.dirExport.Size := by
      unfold Parsed.nameTable
      rw [List.length_drop, pe.length_dataExport]
      omega
    have hpt := modExportFunc.mod_nameOffsetMap_points old new pe.nameTable f.Name hmem hne
      (by omega)
    apply cstringAt_of_field _ _ _ hpt
    unfold modExportFunc.text
    split
    · exact hnew
    · exact not_nul_mem_of_mem_bytesSplitNul pe.nameTable f.Name hmem

set_option maxRecDepth 100000 in
/-- The sample block, rename `Alpha` to `Al`. -/
theorem modExportFunc_rename_slots_witness :
    ∃ buf1, modExportFunc.afterRewrite (ascii "Alpha") (ascii "Al") samplePE id = some buf1 ∧
      ∀ i f, (i, f) ∈ sampleResolvedAlpha.sortedFunctions →
        i < samplePE.Struct.NumberOfNames ∧
        field buf1 (samplePE.nameAddrTableOff + 4 * i) 4 =
          leBytes 4 (add32 samplePE.Struct.Name
            ((modExportFunc.nameOffsetMap (ascii "Alpha") (ascii "Al")
              samplePE.nameTable).get f.Name)) ∧
        field buf1 (samplePE.nameOrdiTableOff + 2 * i) 2 = leBytes 2 f.NameOrdinal ∧
        cstringAt (modExportFunc.nameTableNew (ascii "Alpha") (ascii "Al") samplePE.nameTable)
          ((modExportFunc.nameOffsetMap (ascii "Alpha") (ascii "Al")
            samplePE.nameTable).get f.Name) =
            (if f.Name = ascii "Alpha" then ascii "Al" else f.Name) :=
  modExportFunc_rename_slots (ascii "Alpha") (ascii "Al") samplePE id sampleResolvedAlpha
    (fun m => List.Perm.refl m) (by unfold Parsed.NameTablesApart; decide) (by rfl) (by decide)
    (by unfold Parsed.AllResolved; decide) (by decide) (by decide) (by decide) (by decide)

set_option maxRecDepth 100000 in
/-- Claim C7 fails on the code.  In the block with the ordinal-only export
(ordinal 4, no name) every function name is a token of the string region, the
empty name being the token after the last NUL, and renaming `Alpha` to `Al`
rebuilds a region of 20 bytes for a region of 23; the two arrays lie apart inside
the block.  The resolver records `Alpha` at position 0, `Beta` at position 1 and
the ordinal-only function under key 3.  With the map visited in the order of the
positions the rewrite loop and the whole run reach their end, and right after
the loop as well as in the patched block the name-ordinal slot at position 0
holds 4170, the low half of `Export.Name`, where `Alpha` has the name ordinal 0,
and the slot at position 1 holds 0, where `Beta` has the name ordinal 1.  The
empty name has no entry of its own in `nameOffsetMap`: its offset reads as 0,
where the string of the rebuilt region is the module name. -/
theorem modExportFunc_rename_slots_counterexample :
    (∀ f ∈ sampleOrdPE.Functions, f.Name ∈ bytesSplitNul sampleOrdPE.nameTable) ∧
    (modExportFunc.rebuild (ascii "Alpha") (ascii "Al")
      sampleOrdPE.nameTable).nameTableNew.length = 20 ∧
    sampleOrdPE.nameTable.length = 23 ∧
    sampleOrdPE.NameTablesApart ∧
    RangeOrder.Admissible List.reverse ∧
    sampleOrdPE.resolved (ascii "Alpha") = some sampleOrdResolvedAlpha ∧
    modExportFunc.afterRewrite (ascii "Alpha") (ascii "Al") sampleOrdPE List.reverse =
      some sampleOrdRewritten ∧
    modExportFunc.dataExport (ascii "Alpha") (ascii "Al") sampleOrdPE List.reverse =
      Outcome.done sampleOrdRenamed ∧
    (field sampleOrdPE.dataExport (sampleOrdPE.nameOrdiTableOff + 2 * 0) 2 = leBytes 2 0 ∧
      field sampleOrdRewritten (sampleOrdPE.nameOrdiTableOff + 2 * 0) 2 = leBytes 2 4170 ∧
      field sampleOrdRenamed (sampleOrdPE.nameOrdiTableOff + 2 * 0) 2 = leBytes 2 4170) ∧
    (field sampleOrdPE.dataExport (sampleOrdPE.nameOrdiTableOff + 2 * 1) 2 = leBytes 2 1 ∧
      field sampleOrdRewritten (sampleOrdPE.nameOrdiTableOff + 2 * 1) 2 = leBytes 2 0 ∧
      field sampleOrdRenamed (sampleOrdPE.nameOrdiTableOff + 2 * 1) 2 = leBytes 2 0) ∧
    ((modExportFunc.nameOffsetMap (ascii "Alpha") (ascii "Al")
        sampleOrdPE.nameTable).get [] = 0 ∧
      cstringAt (modExportFunc.nameTableNew (ascii "Alpha") (ascii "Al")
        sampleOrdPE.nameTable) 0 = ascii "m.dll") ∧
    ¬ (∀ i f, (i, f) ∈ sampleOrdResolvedAlpha.sortedFunctions →
        i < sampleOrdPE.Struct.NumberOfNames ∧
        field sampleOrdRewritten (sampleOrdPE.nameAddrTableOff + 4 * i) 4 =
          leBytes 4 (add32 sampleOrdPE.Struct.Name
            ((modExportFunc.nameOffsetMap (ascii "Alpha") (ascii "Al")
              sampleOrdPE.nameTable).get f.Name)) ∧
        field sampleOrdRewritten (sampleOrdPE.nameOrdiTableOff + 2 * i) 2 =
          leBytes 2 f.NameOrdinal ∧
        cstringAt (modExportFunc.nameTableNew (ascii "Alpha") (ascii "Al")
            sampleOrdPE.nameTable)
          ((modExportFunc.nameOffsetMap (ascii "Alpha") (ascii "Al")
            sampleOrdPE.nameTable).get f.Name) =
            (if f.Name = ascii "Alpha" then ascii "Al" else f.Name)) := by
  refine ⟨by decide, by rfl, by rfl, by unfold Parsed.NameTablesApart; decide,
    fun m => List.reverse_perm m, by rfl, by rfl, by rfl, ⟨by rfl, by rfl, by rfl⟩,
    ⟨by rfl, by rfl, by rfl⟩, ⟨by rfl, by rfl⟩, ?_⟩
  intro h
  have h0 := (h 0 ⟨1, 8192, 0, 4176, ascii "Alpha"⟩ (by decide)).2.2.1
  revert h0
  decide

/-! ## The module name under rename and module rename -/

theorem head?_bytesSplitNul_append_nul (s rest : Bytes) (hs : (0 : Nat) ∉ s) :
    (bytesSplitNul (s ++ 0 :: rest)).head? = some s := by
  rw [bytesSplitNul_append_nul s rest hs]
  rfl

/-- Claim C8, as the code has it.  For every string region whose index-0 token
(the module name) is non-empty: a rename by `modExportFunc` leaves the index-0
token of the rebuilt region equal to the original one when that token differs
from the old name, and replaces it by the new name (a name without NUL) when it
equals the old name, since tokens are matched by content at every index. -/
theorem modExportFunc_moduleName (nameTable old new m : Bytes)
    (hm : (bytesSplitNul nameTable).head? = some m) (hne : m ≠ []) :
    (m ≠ old →
      (bytesSplitNul (modExportFunc.nameTableNew old new nameTable)).head? = some m) ∧
    (m = old → (0 : Nat) ∉ new →
      (bytesSplitNul (modExportFunc.nameTableNew old new nameTable)).head? = some new) := by
  obtain ⟨rest, hts⟩ : ∃ rest, bytesSplitNul nameTable = m :: rest := by
    cases h : bytesSplitNul nameTable with
    | nil => rw [h] at hm; simp at hm
    | cons a rest =>
      rw [h] at hm
      simp only [List.head?_cons, Option.some.injEq] at hm
      exact ⟨rest, by rw [hm]⟩
  have hfree : (0 : Nat) ∉ m :=
    not_nul_mem_of_mem_bytesSplitNul nameTable m (by rw [hts]; exact List.mem_cons_self _ _)
  have hform : modExportFunc.nameTableNew old new nameTable =
      modExportFunc.text old new m ++ 0 ::
        (joinNul ((rest.filter (fun t => decide (t ≠ []))).map (modExportFunc.text old new)) ++
          List.replicate ((nameTable.length : Int) -
            ((modExportFunc.rebuild old new nameTable).nameTableNew.length : Int)).toNat 0) := by
    unfold modExportFunc.nameTableNew padNul
    rw [modExportFunc.mod_rebuild_nameTableNew, hts,
      List.filter_cons_of_pos (by simpa using hne), List.map_cons, joinNul_cons]
    simp
  constructor
  · intro hold
    rw [hform]
    have ht : modExportFunc.text old new m = m := by simp [modExportFunc.text, hold]
    rw [ht]
    exact head?_bytesSplitNul_append_nul m _ hfree
  · intro hold hnew
    rw [hform]
    have ht : modExportFunc.text old new m = new := by simp [modExportFunc.text, hold]
    rw [ht]
    exact head?_bytesSplitNul_append_nul new _ hnew

/-- The string region of the sample block, rename `Alpha` to `Al`: the module
name `m.dll` stays. -/
theorem modExportFunc_moduleName_witness :
    (bytesSplitNul samplePE.nameTable).head? = some (ascii "m.dll") ∧
    ((ascii "m.dll" ≠ ascii "Alpha" →
      (bytesSplitNul (modExportFunc.nameTableNew (ascii "Alpha") (ascii "Al")
        samplePE.nameTable)).head? = some (ascii "m.dll")) ∧
    (ascii "m.dll" = ascii "Alpha" → (0 : Nat) ∉ ascii "Al" →
      (bytesSplitNul (modExportFunc.nameTableNew (ascii "Alpha") (ascii "Al")
        samplePE.nameTable)).head? = some (ascii "Al"))) :=
  ⟨by decide, modExportFunc_moduleName samplePE.nameTable (ascii "Alpha") (ascii "Al")
    (ascii "m.dll") (by decide) (by decide)⟩

/-- Claim C8 fails on the code.  In the region `lib\0lib\0` the module is named
like one of its functions; renaming `lib` to `fn` also replaces the index-0
token, the module name. -/
theorem modExportFunc_moduleName_counterexample :
    (bytesSplitNul (ascii "lib" ++ [0] ++ ascii "lib" ++ [0])).head? = some (ascii "lib") ∧
    (bytesSplitNul (modExportFunc.nameTableNew (ascii "lib") (ascii "fn")
      (ascii "lib" ++ [0] ++ ascii "lib" ++ [0]))).head? = some (ascii "fn") ∧
    modExportFunc.nameTableNew (ascii "lib") (ascii "fn") (ascii "lib" ++ [0] ++ ascii "lib" ++ [0])
      = ascii "fn" ++ [0] ++ ascii "fn" ++ [0] ++ [0, 0] := by
  decide

namespace modExportName

theorem name_rebuildFrom_succ (dst : Bytes) (i : Nat) (st : Rebuild) (ts : List Bytes) :
    rebuildFrom dst (i + 1) st ts =
      st.pushAll ((ts.filter (fun t => decide (t ≠ []))).map (fun t => (t, t))) := by
  induction ts generalizing i st with
  | nil => rfl
  | cons t ts ih =>
    unfold rebuildFrom
    rw [ih]
    unfold rebuildStep
    by_cases h : t = []
    · simp [h]
    · simp [h, Rebuild.pushAll_cons]

/-- The text `modExportName` writes when the index-0 token is non-empty: the new
module name, then the other non-empty tokens. -/
theorem name_rebuild_nameTableNew (dst nameTable m : Bytes) (rest : List Bytes)
    (hts : bytesSplitNul nameTable = m :: rest) (hne : m ≠ []) :
    (rebuild dst nameTable).nameTableNew =
      dst ++ 0 :: joinNul (rest.filter (fun t => decide (t ≠ []))) := by
  unfold rebuild
  rw [hts]
  unfold rebuildFrom
  rw [name_rebuildFrom_succ, Rebuild.pushAll_nameTableNew]
  simp [rebuildStep, hne, Rebuild.push, Rebuild.init, List.map_map, Function.comp_def]

end modExportName

/-- Claim C9, as the code has it.  For every string region whose index-0 token
is non-empty and every new module name without NUL, the region rebuilt by
`modExportName` has the new module name as its first token, in place of the
original index-0 token whatever its content, and its remaining non-empty tokens
are exactly the non-empty tokens of the original region after index 0, in the
same order. -/
theorem modExportName_nameTableNew_tokens (nameTable dst m : Bytes) (rest : List Bytes)
    (hts : bytesSplitNul nameTable = m :: rest) (hne : m ≠ []) (hdst : (0 : Nat) ∉ dst) :
    ∃ rest', bytesSplitNul (modExportName.nameTableNew dst nameTable) = dst :: rest' ∧
      rest'.filter (fun t => decide (t ≠ [])) = rest.filter (fun t => decide (t ≠ [])) := by
  have hfree : ∀ t ∈ rest.filter (fun t => decide (t ≠ [])), (0 : Nat) ∉ t := by
    intro t ht
    apply not_nul_mem_of_mem_bytesSplitNul nameTable t
    rw [hts]
    exact List.mem_cons_of_mem _ (List.mem_filter.mp ht).1
  refine ⟨rest.filter (fun t => decide (t ≠ [])) ++ List.replicate
    (((nameTable.length : Int) -
      ((modExportName.rebuild dst nameTable).nameTableNew.length : Int)).toNat + 1) [], ?_, ?_⟩
  · unfold modExportName.nameTableNew padNul
    rw [modExportName.name_rebuild_nameTableNew dst nameTable m rest hts hne,
      List.append_assoc, List.cons_append, bytesSplitNul_append_nul dst _ hdst,
      bytesSplitNul_joinNul_append _ _ hfree, bytesSplitNul_replicate]
  · rw [List.filter_append, List.filter_filter]
    have h1 : List.filter (fun t : Bytes => decide (t ≠ [])) (List.replicate
        (((nameTable.length : Int) -
          ((modExportName.rebuild dst nameTable).nameTableNew.length : Int)).toNat + 1) []) =
        [] := by
      rw [List.filter_eq_nil_iff]
      intro t ht
      simp [(List.mem_replicate.mp ht).2]
    rw [h1, List.append_nil]
    apply List.filter_congr
    intro t _
    simp

/-- The string region of the sample block, module rename to `x.dll`. -/
theorem modExportName_nameTableNew_tokens_witness :
    ∃ rest', bytesSplitNul (modExportName.nameTableNew (ascii "x.dll") samplePE.nameTable) =
        ascii "x.dll" :: rest' ∧
      rest'.filter (fun t => decide (t ≠ [])) =
        [ascii "Alpha", ascii "Beta", ascii "Gamma", []].filter (fun t => decide (t ≠ [])) :=
  modExportName_nameTableNew_tokens samplePE.nameTable (ascii "x.dll") (ascii "m.dll")
    [ascii "Alpha", ascii "Beta", ascii "Gamma", []] (by decide) (by decide) (by decide)

/-- Claim C9 fails on the code.  In the region `\0Alpha\0` the index-0 token is
empty; `modExportName` skips it before it looks at the index, so the new module
name `x.dll` is never written and the first token of the rebuilt region is
`Alpha`. -/
theorem modExportName_emptyModuleName_counterexample :
    (bytesSplitNul ([0] ++ ascii "Alpha" ++ [0])).head? = some [] ∧
    modExportName.nameTableNew (ascii "x.dll") ([0] ++ ascii "Alpha" ++ [0]) =
      ascii "Alpha" ++ [0] ++ [0] ∧
    (bytesSplitNul (modExportName.nameTableNew (ascii "x.dll")
      ([0] ++ ascii "Alpha" ++ [0]))).head? = some (ascii "Alpha") := by
  decide

/-! ## `ReadInteger` and `WriteInteger` -/

theorem leValue_leBytes (w value : Nat) : leValue (leBytes w value) = value % 256 ^ w := by
  induction w generalizing value with
  | zero => simp [leBytes, leValue, Nat.mod_one]
  | succ w ih =>
    simp only [leBytes, leValue, ih]
    rw [pow_succ', Nat.mod_mul]

theorem field_writeAt_self (buf : Bytes) (pos : Nat) (src : Bytes)
    (h : pos + src.length ≤ buf.length) : field (writeAt buf pos src) pos src.length = src := by
  apply field_eq_of_getElem?
  intro j hj1 hj2
  rw [getElem?_writeAt _ _ _ h, if_pos ⟨hj1, hj2⟩]

/-- Claim C20.  For every width `w` (in particular 2, 4 and 8 bytes), every
block, every slice of it, every offset with `offset + w` within the slice's
capacity and every value `v` of that width: `WriteInteger` returns a block of
the same length; `ReadInteger` at that offset of the new block returns `v`; the
`w` bytes written are the little-endian encoding of `v`; and no byte outside
`[offset, offset + w)` of the slice changes. -/
theorem readInteger_writeInteger (w : Nat) (buf : Bytes) (data : Slice) (offset : Nat) (v : Nat)
    (hoff : offset + w ≤ buf.length - data.off) (hv : v < 256 ^ w) :
    ∃ out, WriteInteger w buf data (offset : Int) v = some out ∧
      out.length = buf.length ∧
      ReadInteger w out data (offset : Int) = some v ∧
      field out (data.off + offset) w = leBytes w v ∧
      ∀ j, ¬ (data.off + offset ≤ j ∧ j < data.off + offset + w) → out[j]? = buf[j]? := by
  by_cases hw : w = 0
  · subst hw
    have hv0 : v = 0 := by simpa using hv
    refine ⟨writeAt buf (data.off + offset) (leBytes 0 v), ?_, ?_, ?_, ?_, ?_⟩
    · unfold WriteInteger
      rw [if_pos ⟨Int.ofNat_nonneg _, by simpa using hoff⟩]
      simp
    · simp [writeAt, leBytes]
    · unfold ReadInteger
      rw [if_pos ⟨Int.ofNat_nonneg _, by simpa [writeAt, leBytes] using hoff⟩]
      simp [leValue, hv0]
    · simp [field, leBytes]
    · intro j _
      simp [writeAt, leBytes]
  · have hin : data.off + offset + (leBytes w v).length ≤ buf.length := by
      rw [length_leBytes]; omega
    have hlen := length_writeAt buf (data.off + offset) (leBytes w v) hin
    have hfield := field_writeAt_self buf (data.off + offset) (leBytes w v) hin
    rw [length_leBytes] at hfield
    refine ⟨writeAt buf (data.off + offset) (leBytes w v), ?_, hlen, ?_, hfield, ?_⟩
    · unfold WriteInteger
      rw [if_pos ⟨Int.ofNat_nonneg _, by simpa using hoff⟩]
      simp
    · unfold ReadInteger
      rw [if_pos ⟨Int.ofNat_nonneg _, by rw [hlen]; simpa using hoff⟩]
      simp only [Int.toNat_ofNat]
      have : List.take w (List.drop (data.off + offset)
          (writeAt buf (data.off + offset) (leBytes w v))) = leBytes w v := hfield
      rw [this, leValue_leBytes, Nat.mod_eq_of_lt hv]
    · intro j hj
      rw [getElem?_writeAt _ _ _ hin, if_neg (by rw [length_leBytes]; exact hj)]

set_option maxRecDepth 100000 in
/-- A `uint32` written at offset 24 of the sample block and read back. -/
theorem readInteger_writeInteger_witness :
    ∃ out, WriteInteger 4 sampleBlock ⟨0, 93⟩ ((24 : Nat) : Int) 2 = some out ∧
      out.length = sampleBlock.length ∧
      ReadInteger 4 out ⟨0, 93⟩ ((24 : Nat) : Int) = some 2 ∧
      field out (0 + 24) 4 = leBytes 4 2 ∧
      ∀ j, ¬ (0 + 24 ≤ j ∧ j < 0 + 24 + 4) → out[j]? = sampleBlock[j]? :=
  readInteger_writeInteger 4 sampleBlock ⟨0, 93⟩ 24 2 (by decide) (by decide)

/-! ## The position resolver finds the least matching index -/

theorem ReadInteger_nameAddrEntry (buf : Bytes) (s : Slice) (j : Nat)
    (h : s.off + 4 * j + 4 ≤ buf.length) :
    ReadInteger 4 buf s ((j : Int) * 4) = some (nameAddrEntry buf s j) := by
  unfold ReadInteger nameAddrEntry field
  have h1 : ((j : Int) * 4).toNat = 4 * j := by omega
  rw [if_pos ⟨by omega, by rw [h1]; omega⟩, h1]

theorem positionFrom_spec (buf : Bytes) (s : Slice) (rva : Nat) (remaining i : Nat)
    (htab : s.off + 4 * (i + remaining) ≤ buf.length) :
    ∃ k, positionFrom buf s rva remaining i = some k ∧ i ≤ k ∧ k ≤ i + remaining ∧
      (k < i + remaining → nameAddrEntry buf s k = rva) ∧
      ∀ j, i ≤ j → j < k → nameAddrEntry buf s j ≠ rva := by
  induction remaining generalizing i with
  | zero =>
    refine ⟨i, rfl, le_refl _, le_refl _, fun h => absurd h (by omega), fun j h1 h2 => ?_⟩
    omega
  | succ n ih =>
    unfold positionFrom
    rw [ReadInteger_nameAddrEntry buf s i (by omega)]
    simp only
    by_cases hm : nameAddrEntry buf s i = rva
    · rw [if_pos hm]
      exact ⟨i, rfl, le_refl _, by omega, fun _ => hm, fun j h1 h2 => by omega⟩
    · rw [if_neg hm]
      obtain ⟨k, hk, h1, h2, h3, h4⟩ := ih (i + 1) (by
        have : i + 1 + n = i + (n + 1) := by omega
        rw [this]; exact htab)
      refine ⟨k, hk, by omega, by omega, fun h => h3 (by omega), fun j hj1 hj2 => ?_⟩
      by_cases hji : j = i
      · rw [hji]; exact hm
      · exact h4 j (by omega) hj2

/-- Claim C17.  For every name-address array of `NumberOfNames` 4-byte entries
inside the block and every `NameRVA`, the inner loop of the resolver ends, and
its index `i` is the least index below `NumberOfNames` whose stored
little-endian u32 equals the `NameRVA` when there is one, and `NumberOfNames`
when there is none; the result depends on no byte outside the array. -/
theorem position_least (buf : Bytes) (s : Slice) (n rva : Nat)
    (htab : s.off + 4 * n ≤ buf.length) :
    ∃ i, position buf s n rva = some i ∧
      ((i < n ∧ nameAddrEntry buf s i = rva ∧ ∀ j, j < i → nameAddrEntry buf s j ≠ rva) ∨
        (i = n ∧ ∀ j, j < n → nameAddrEntry buf s j ≠ rva)) ∧
      ∀ other : Bytes, s.off + 4 * n ≤ other.length →
        (∀ j, s.off ≤ j → j < s.off + 4 * n → other[j]? = buf[j]?) →
        position other s n rva = some i := by
  have hchar : ∀ b : Bytes, s.off + 4 * n ≤ b.length →
      ∃ i, position b s n rva = some i ∧
        ((i < n ∧ nameAddrEntry b s i = rva ∧ ∀ j, j < i → nameAddrEntry b s j ≠ rva) ∨
          (i = n ∧ ∀ j, j < n → nameAddrEntry b s j ≠ rva)) := by
    intro b hb
    obtain ⟨k, hk, -, h2, h3, h4⟩ := positionFrom_spec b s rva n 0 (by simpa using hb)
    refine ⟨k, hk, ?_⟩
    by_cases hkn : k < n
    · exact Or.inl ⟨hkn, h3 (by omega), fun j hj => h4 j (Nat.zero_le _) hj⟩
    · have : k = n := by omega
      exact Or.inr ⟨this, fun j hj => h4 j (Nat.zero_le _) (by omega)⟩
  obtain ⟨i, hi, hspec⟩ := hchar buf htab
  refine ⟨i, hi, hspec, ?_⟩
  intro other hother hagree
  obtain ⟨i', hi', hspec'⟩ := hchar other hother
  have hentry : ∀ j, j < n → nameAddrEntry other s j = nameAddrEntry buf s j := by
    intro j hj
    unfold nameAddrEntry
    rw [field_congr other buf (s.off + 4 * j) 4 (fun p hp1 hp2 =>
      hagree p (by omega) (by omega))]
  have hii : i' = i := by
    rcases hspec with ⟨h1, h2, h3⟩ | ⟨h1, h3⟩ <;>
      rcases hspec' with ⟨h1', h2', h3'⟩ | ⟨h1', h3'⟩
    · rw [hentry i' h1'] at h2'
      by_contra hne
      rcases Nat.lt_or_gt_of_ne hne with hlt | hgt
      · exact h3 i' hlt h2'
      · have := h3' i hgt
        rw [hentry i h1] at this
        exact this h2
    · have := h3' i h1
      rw [hentry i h1] at this
      exact absurd h2 this
    · rw [hentry i' h1'] at h2'
      exact absurd h2' (h3 i' h1')
    · rw [h1, h1']
  rw [hi', hii]

set_option maxRecDepth 100000 in
/-- The name-address array of the sample block (offset 52, 3 entries) and the
`NameRVA` of `Gamma`. -/
theorem position_least_witness :
    ∃ i, position sampleBlock ⟨52, 12⟩ 3 4183 = some i ∧
      ((i < 3 ∧ nameAddrEntry sampleBlock ⟨52, 12⟩ i = 4183 ∧
          ∀ j, j < i → nameAddrEntry sampleBlock ⟨52, 12⟩ j ≠ 4183) ∨
        (i = 3 ∧ ∀ j, j < 3 → nameAddrEntry sampleBlock ⟨52, 12⟩ j ≠ 4183)) ∧
      ∀ other : Bytes, (⟨52, 12⟩ : Slice).off + 4 * 3 ≤ other.length →
        (∀ j, (⟨52, 12⟩ : Slice).off ≤ j → j < (⟨52, 12⟩ : Slice).off + 4 * 3 →
          other[j]? = sampleBlock[j]?) →
        position other ⟨52, 12⟩ 3 4183 = some i :=
  position_least sampleBlock ⟨52, 12⟩ 3 4183 (by decide)

/-! ## The name-to-offset map of the delete rebuild -/

theorem OffsetMap.find?_set_self (m : OffsetMap) (key : Bytes) (value : Nat) :
    List.find? (fun e : Bytes × Nat => decide (e.1 = key)) (m.set key value) =
      some (key, value) := by
  simp [OffsetMap.set]

theorem OffsetMap.find?_set_of_ne (m : OffsetMap) (key other : Bytes) (value : Nat)
    (h : other ≠ key) :
    List.find? (fun e : Bytes × Nat => decide (e.1 = other)) (m.set key value) =
      List.find? (fun e : Bytes × Nat => decide (e.1 = other)) m := by
  have h1 : List.find? (fun e : Bytes × Nat => decide (e.1 = other))
      (List.filter (fun e => decide (e.1 ≠ key)) m) =
      List.find? (fun e : Bytes × Nat => decide (e.1 = other)) m := by
    induction m with
    | nil => rfl
    | cons e m ih =>
      by_cases hk : e.1 = key
      · have hne : ¬ e.1 = other := fun h2 => h (h2.symm.trans hk)
        rw [List.filter_cons_of_neg (by simpa using hk), ih,
          List.find?_cons_of_neg _ (by simpa using hne)]
      · rw [List.filter_cons_of_pos (by simpa using hk)]
        by_cases ho : e.1 = other
        · rw [List.find?_cons_of_pos _ (by simpa using ho),
            List.find?_cons_of_pos _ (by simpa using ho)]
        · rw [List.find?_cons_of_neg _ (by simpa using ho),
            List.find?_cons_of_neg _ (by simpa using ho), ih]
  unfold OffsetMap.set
  rw [List.find?_cons_of_neg _ (by simpa using (Ne.symm h)), h1]

/-- A key that was pushed has an entry in the map, and the lookup returns it. -/
theorem Rebuild.pushAll_find? (plan : List (Bytes × Bytes)) (key : Bytes)
    (hkey : key ∈ plan.map Prod.fst) :
    List.find? (fun e : Bytes × Nat => decide (e.1 = key))
        (Rebuild.init.pushAll plan).nameOffsetMap =
      some (key, (Rebuild.init.pushAll plan).nameOffsetMap.get key) := by
  induction plan using List.reverseRecOn with
  | nil => simp at hkey
  | append_singleton plan kt ih =>
    rw [Rebuild.pushAll_append, Rebuild.pushAll_cons, Rebuild.pushAll_nil]
    simp only [Rebuild.push]
    by_cases hk : key = kt.1
    · rw [hk, OffsetMap.find?_set_self, OffsetMap.get_set_self]
    · have hmem : key ∈ plan.map Prod.fst := by
        simp only [List.map_append, List.map_cons, List.map_nil, List.mem_append,
          List.mem_singleton] at hkey
        rcases hkey with h | h
        · exact h
        · exact absurd h hk
      rw [OffsetMap.find?_set_of_ne _ _ _ _ hk, OffsetMap.get_set_of_ne _ _ _ _ hk]
      exact ih hmem

/-- Claim C16.  For every string region (shorter than `2 ^ 32` bytes, as a
region of a block with a `uint32` size is), every target name and every
non-empty token `t` of the region that differs from the target, `nameOffsetMap`
has an entry `o` for `t` such that the bytes of the rebuilt region at
`[o, o + len(t))` are `t` and the byte at `o + len(t)` is NUL. -/
theorem delExportFunc_nameOffsetMap_entry (nameTable F t : Bytes)
    (hsize : nameTable.length < 2 ^ 32) (hmem : t ∈ bytesSplitNul nameTable)
    (hne : t ≠ []) (hF : t ≠ F) :
    ∃ o, List.find? (fun e : Bytes × Nat => decide (e.1 = t))
          (delExportFunc.nameOffsetMap F nameTable) = some (t, o) ∧
      (delExportFunc.nameOffsetMap F nameTable).get t = o ∧
      field (delExportFunc.nameTableNew F nameTable) o t.length = t ∧
      (delExportFunc.nameTableNew F nameTable)[o + t.length]? = some 0 := by
  have hpt := delExportFunc.del_nameOffsetMap_points F nameTable t hmem hne hF hsize
  refine ⟨(delExportFunc.nameOffsetMap F nameTable).get t, ?_, rfl, ?_, ?_⟩
  · unfold delExportFunc.nameOffsetMap
    rw [delExportFunc.del_rebuild_eq_pushAll]
    apply Rebuild.pushAll_find?
    simp only [delExportFunc.plan, List.map_map, List.mem_map, List.mem_filter]
    exact ⟨t, ⟨hmem, by simp [hne, hF]⟩, rfl⟩
  · apply List.ext_getElem?
    intro j
    have h := congrArg (fun l : Bytes => l[j]?) hpt
    simp only at h
    rw [getElem?_field] at h ⊢
    by_cases hj : j < t.length
    · rw [if_pos (by omega)] at h
      rw [if_pos hj, h, List.getElem?_append_left hj]
    · rw [if_neg hj, eq_comm, List.getElem?_eq_none (by omega)]
  · have h := congrArg (fun l : Bytes => l[t.length]?) hpt
    simp only at h
    rw [getElem?_field, if_pos (by omega)] at h
    rw [h, List.getElem?_append_right (le_refl _)]
    simp

/-- The region `m.dll\0Beta\0Alpha\0Beta\0`, delete `Alpha`: the token `Beta`
occurs twice and has an entry. -/
theorem delExportFunc_nameOffsetMap_entry_witness :
    ∃ o, List.find? (fun e : Bytes × Nat => decide (e.1 = ascii "Beta"))
          (delExportFunc.nameOffsetMap (ascii "Alpha")
            (ascii "m.dll" ++ [0] ++ ascii "Beta" ++ [0] ++ ascii "Alpha" ++ [0] ++
              ascii "Beta" ++ [0])) = some (ascii "Beta", o) ∧
      (delExportFunc.nameOffsetMap (ascii "Alpha")
        (ascii "m.dll" ++ [0] ++ ascii "Beta" ++ [0] ++ ascii "Alpha" ++ [0] ++
          ascii "Beta" ++ [0])).get (ascii "Beta") = o ∧
      field (delExportFunc.nameTableNew (ascii "Alpha")
        (ascii "m.dll" ++ [0] ++ ascii "Beta" ++ [0] ++ ascii "Alpha" ++ [0] ++
          ascii "Beta" ++ [0])) o (ascii "Beta").length = ascii "Beta" ∧
      (delExportFunc.nameTableNew (ascii "Alpha")
        (ascii "m.dll" ++ [0] ++ ascii "Beta" ++ [0] ++ ascii "Alpha" ++ [0] ++
          ascii "Beta" ++ [0]))[o + (ascii "Beta").length]? = some 0 :=
  delExportFunc_nameOffsetMap_entry
    (ascii "m.dll" ++ [0] ++ ascii "Beta" ++ [0] ++ ascii "Alpha" ++ [0] ++ ascii "Beta" ++ [0])
    (ascii "Alpha") (ascii "Beta") (by decide) (by decide) (by decide) (by decide)

/-! ## The rewrite loop of `delExportFunc`: bounds and order -/

/-- Claim C19.  When the deleted function is resolved at a position
`d < NumberOfNames`, every entry `(i, f)` of `sortedFunctions` has
`i ≤ NumberOfNames`; the iteration for an entry named like the target writes
nothing, and the iteration for any other entry is exactly two writes, into slot
`k` of the name-address array and slot `k` of the name-ordinal array, where
`k < NumberOfNames`, `k = i` for `i ≤ d` and `k = i - 1` for `i > d` (so
`k = NumberOfNames - 1` for the out-of-table position `i = NumberOfNames`), and
the offsets `i*4-4` and `i*2-2` used for `i > d` are not negative. -/
theorem delExportFunc_rewrite_in_table (F : Bytes) (pe : Parsed) (t : Tables) (r : Resolved)
    (d : Nat) (ht : pe.tables = some t) (hres : pe.resolved F = some r)
    (hd : r.index = (d : Int)) (hdN : d < pe.Struct.NumberOfNames) :
    ∀ i f, (i, f) ∈ r.sortedFunctions →
      i ≤ pe.Struct.NumberOfNames ∧
      (f.Name = F → ∀ m buf, delExportFunc.rewriteStep pe t m F r.index buf (i, f) = some buf) ∧
      (f.Name ≠ F →
        ∃ k, k < pe.Struct.NumberOfNames ∧ (i ≤ d → k = i) ∧ (d < i → k = i - 1) ∧
          (i = pe.Struct.NumberOfNames → k = pe.Struct.NumberOfNames - 1) ∧
          (d < i → 0 ≤ (i : Int) * 4 - 4 ∧ 0 ≤ (i : Int) * 2 - 2) ∧
          ∀ m buf out, delExportFunc.rewriteStep pe t m F r.index buf (i, f) = some out →
            pe.nameAddrTableOff + 4 * k + 4 ≤ buf.length ∧
            pe.nameOrdiTableOff + 2 * k + 2 ≤ buf.length ∧
            out = writeAt (writeAt buf (pe.nameAddrTableOff + 4 * k)
                (leBytes 4 (add32 pe.Struct.Name (m.get f.Name))))
              (pe.nameOrdiTableOff + 2 * k) (leBytes 2 f.NameOrdinal)) := by
  intro i f hif
  have hinv := pe.resolved_inv F r hres
  have hle := hinv.key_le (i, f) hif
  obtain ⟨-, hta, hto, -⟩ := pe.tables_eq_some t ht
  refine ⟨hle, ?_, ?_⟩
  · intro hname m buf
    unfold delExportFunc.rewriteStep
    rw [if_pos hname]
  · intro hname
    refine ⟨delExportFunc.slot r.index i, ?_, ?_, ?_, ?_, ?_, ?_⟩
    · exact del_slot_lt r.index _ i (by rw [hd]; omega) (by rw [hd]; omega) hle
    · intro h; unfold delExportFunc.slot; rw [hd, if_neg (by omega)]
    · intro h; unfold delExportFunc.slot; rw [hd, if_pos (by omega)]
    · intro h; unfold delExportFunc.slot; rw [hd, if_pos (by omega), h]
    · intro h; omega
    · intro m buf out hstep
      obtain ⟨hb, rfl⟩ :=
        (delExportFunc.del_rewriteStep_eq_some pe t m F r.index (by rw [hd]; omega) buf out
          (i, f)).mp hstep
      have hw : delExportFunc.writes pe t m F r.index (i, f) =
          slotWrites pe t m (delExportFunc.slot r.index i) f := by
        simp only [delExportFunc.writes, if_neg hname]
      rw [hw] at hb ⊢
      have h1 := hb _ ((mem_slotWrites _ _ _ _ _ _).mpr (Or.inl rfl))
      have h2 := hb _ ((mem_slotWrites _ _ _ _ _ _).mpr (Or.inr rfl))
      simp only [length_leBytes] at h1 h2
      rw [hta] at h1
      rw [hto] at h2
      refine ⟨h1, h2, ?_⟩
      simp only [slotWrites, applyWrites_cons, applyWrites_nil, leBytes_two_mod, hta, hto]

set_option maxRecDepth 100000 in
/-- The block with the ordinal-only export, delete `Beta` (position 1). -/
theorem delExportFunc_rewrite_in_table_witness :
    sampleOrdPE.resolved (ascii "Beta") = some sampleOrdResolved ∧
    ∀ i f, (i, f) ∈ sampleOrdResolved.sortedFunctions →
      i ≤ sampleOrdPE.Struct.NumberOfNames ∧
      (f.Name = ascii "Beta" → ∀ m buf, delExportFunc.rewriteStep sampleOrdPE sampleOrdTables m
        (ascii "Beta") sampleOrdResolved.index buf (i, f) = some buf) ∧
      (f.Name ≠ ascii "Beta" →
        ∃ k, k < sampleOrdPE.Struct.NumberOfNames ∧ (i ≤ 1 → k = i) ∧ (1 < i → k = i - 1) ∧
          (i = sampleOrdPE.Struct.NumberOfNames → k = sampleOrdPE.Struct.NumberOfNames - 1) ∧
          (1 < i → 0 ≤ (i : Int) * 4 - 4 ∧ 0 ≤ (i : Int) * 2 - 2) ∧
          ∀ m buf out, delExportFunc.rewriteStep sampleOrdPE sampleOrdTables m (ascii "Beta")
              sampleOrdResolved.index buf (i, f) = some out →
            sampleOrdPE.nameAddrTableOff + 4 * k + 4 ≤ buf.length ∧
            sampleOrdPE.nameOrdiTableOff + 2 * k + 2 ≤ buf.length ∧
            out = writeAt (writeAt buf (sampleOrdPE.nameAddrTableOff + 4 * k)
                (leBytes 4 (add32 sampleOrdPE.Struct.Name (m.get f.Name))))
              (sampleOrdPE.nameOrdiTableOff + 2 * k) (leBytes 2 f.NameOrdinal)) :=
  ⟨by rfl, delExportFunc_rewrite_in_table (ascii "Beta") sampleOrdPE sampleOrdTables
    sampleOrdResolved 1 (by rfl) (by rfl) (by rfl) (by decide)⟩

/-- Writes that go to pairwise different slots of two tables that lie apart put
the same byte wherever two of them meet. -/
theorem flatMap_writes_consistent (pe : Parsed) (t : Tables) (m : OffsetMap) (n : Nat)
    (skip : Nat × ExportFunction → Prop) (sl : Nat × ExportFunction → Nat)
    (g : Nat × ExportFunction → List Write) (es : List (Nat × ExportFunction))
    (hg : ∀ e, (skip e → g e = []) ∧ (¬ skip e → g e = slotWrites pe t m (sl e) e.2))
    (hapart : t.nameAddrTable.off + 4 * n ≤ t.nameOrdiTable.off ∨
      t.nameOrdiTable.off + 2 * n ≤ t.nameAddrTable.off)
    (hlt : ∀ e ∈ es, ¬ skip e → sl e < n)
    (hinj : ∀ e ∈ es, ∀ e' ∈ es, ¬ skip e → ¬ skip e' → sl e = sl e' → e = e') :
    ∀ w ∈ es.flatMap g, ∀ w' ∈ es.flatMap g, ∀ j, w.Covers j → w'.Covers j →
      w.2[j - w.1]? = w'.2[j - w'.1]? := by
  have hmem : ∀ w ∈ es.flatMap g, ∃ e ∈ es, ¬ skip e ∧
      (w = (t.nameAddrTable.off + 4 * sl e, leBytes 4 (add32 pe.Struct.Name (m.get e.2.Name))) ∨
       w = (t.nameOrdiTable.off + 2 * sl e, leBytes 2 (e.2.NameOrdinal % 2 ^ 16))) := by
    intro w hw
    obtain ⟨e, he, hwe⟩ := List.mem_flatMap.mp hw
    by_cases hs : skip e
    · rw [(hg e).1 hs] at hwe; simp at hwe
    · rw [(hg e).2 hs] at hwe
      exact ⟨e, he, hs, (mem_slotWrites _ _ _ _ _ _).mp hwe⟩
  intro w hw w' hw' j hc hc'
  obtain ⟨e, he, hs, h | h⟩ := hmem w hw <;> obtain ⟨e', he', hs', h' | h'⟩ := hmem w' hw'
  · subst h; subst h'
    simp only [Write.Covers, length_leBytes] at hc hc'
    have hee := hinj e he e' he' hs hs' (by omega)
    subst hee; rfl
  · subst h; subst h'
    simp only [Write.Covers, length_leBytes] at hc hc'
    have := hlt e he hs
    have := hlt e' he' hs'
    omega
  · subst h; subst h'
    simp only [Write.Covers, length_leBytes] at hc hc'
    have := hlt e he hs
    have := hlt e' he' hs'
    omega
  · subst h; subst h'
    simp only [Write.Covers, length_leBytes] at hc hc'
    have hee := hinj e he e' he' hs hs' (by omega)
    subst hee; rfl

/-- Two sequences of writes with the same members, which put the same byte
wherever two of them meet, give the same block. -/
theorem applyWrites_eq_of_consistent (buf : Bytes) (ws vs : List Write)
    (hb : ∀ w ∈ ws, w.1 + w.2.length ≤ buf.length)
    (hmem : ∀ w, w ∈ ws ↔ w ∈ vs)
    (hcons : ∀ w ∈ ws, ∀ w' ∈ ws, ∀ j, w.Covers j → w'.Covers j →
      w.2[j - w.1]? = w'.2[j - w'.1]?) :
    applyWrites buf ws = applyWrites buf vs := by
  have hbv : ∀ w ∈ vs, w.1 + w.2.length ≤ buf.length := fun w hw => hb w ((hmem w).mpr hw)
  apply List.ext_getElem?
  intro j
  by_cases hex : ∃ w ∈ ws, w.Covers j
  · obtain ⟨w, hw, hc⟩ := hex
    rw [getElem?_applyWrites_of_covered buf ws hb j (w.2[j - w.1]?) ⟨w, hw, hc⟩
        (fun w' hw' hc' => hcons w' hw' w hw j hc' hc),
      getElem?_applyWrites_of_covered buf vs hbv j (w.2[j - w.1]?) ⟨w, (hmem w).mp hw, hc⟩
        (fun w' hw' hc' => hcons w' ((hmem w').mpr hw') w hw j hc' hc)]
  · rw [getElem?_applyWrites_of_not_covered buf ws hb j (fun w hw hc => hex ⟨w, hw, hc⟩),
      getElem?_applyWrites_of_not_covered buf vs hbv j
        (fun w hw hc => hex ⟨w, (hmem w).mpr hw, hc⟩)]

/-- Claim C18.  Let the resolver of `delExportFunc` end with the deleted
function recorded at sorted position `d` below `NumberOfNames`, with the
name-address and name-ordinal arrays apart inside the block.  The map from a
source position `i ≠ d` to its target slot (`i` for `i < d`, `i - 1` for
`i > d`) is injective, and any two visiting orders of `sortedFunctions` give
the same block after the rewrite loop and the same final result. -/
theorem delExportFunc_order_independent (F : Bytes) (pe : Parsed) (r : Resolved) (d : Nat)
    (order1 order2 : RangeOrder) (hadm1 : order1.Admissible) (hadm2 : order2.Admissible)
    (hlay : pe.NameTablesApart)
    (hres : pe.resolved F = some r) (hd : r.index = (d : Int))
    (hdN : d < pe.Struct.NumberOfNames) (hdel : (d, r.func) ∈ r.sortedFunctions) :
    (∀ i j, i ≠ d → j ≠ d →
      (if i < d then i else i - 1) = (if j < d then j else j - 1) → i = j) ∧
    (∃ buf1, delExportFunc.afterRewrite F pe order1 = some buf1 ∧
      delExportFunc.afterRewrite F pe order2 = some buf1) ∧
    delExportFunc.dataExport F pe order1 = delExportFunc.dataExport F pe order2 := by
  obtain ⟨t, ht, hr⟩ := pe.resolved_eq_some F r hres
  have hinv := resolve_inv _ _ _ _ _ _ hr
  obtain ⟨-, hta, hto, -, -, hn, -⟩ := pe.tables_eq_some t ht
  obtain ⟨hA, hO, hap⟩ := hlay
  have hd0 : (0 : Int) ≤ r.index := by rw [hd]; omega
  have hFname : r.func.Name = F := by
    rcases hinv.found with h0 | h0
    · rw [hd] at h0; omega
    · exact h0.2
  have hne_d : ∀ e ∈ r.sortedFunctions, e.2.Name ≠ F → e.1 ≠ d := by
    intro e he hname h1
    have : e.2 = r.func := hinv.functional d e.2 r.func (by rw [← h1]; exact he) hdel
    exact hname (by rw [this]; exact hFname)
  have hinjslot : ∀ i j, i ≠ d → j ≠ d →
      (if i < d then i else i - 1) = (if j < d then j else j - 1) → i = j := by
    intro i j hi hj h
    split at h <;> split at h <;> omega
  have hslot : ∀ i, i ≠ d → delExportFunc.slot r.index i = if i < d then i else i - 1 := by
    intro i hi
    unfold delExportFunc.slot
    rw [hd]
    by_cases h1 : i < d
    · rw [if_pos h1, if_neg (by omega)]
    · rw [if_neg h1, if_pos (by omega)]
  -- the facts about the loop that hold for every admissible order
  have hfacts : ∀ order : RangeOrder, order.Admissible →
      (∀ e ∈ order r.sortedFunctions, ¬ e.2.Name = F →
        delExportFunc.slot r.index e.1 < pe.Struct.NumberOfNames) ∧
      (∀ e ∈ order r.sortedFunctions, ∀ e' ∈ order r.sortedFunctions, ¬ e.2.Name = F →
        ¬ e'.2.Name = F → delExportFunc.slot r.index e.1 = delExportFunc.slot r.index e'.1 →
        e = e') := by
    intro order hadm
    constructor
    · intro e he _
      exact del_slot_lt r.index _ e.1 hd0 (by rw [hd]; omega)
        (hinv.key_le e ((hadm.mem_iff order _ e).mp he))
    · intro e he e' he' hs hs' heq
      have h1 := (hadm.mem_iff order _ e).mp he
      have h2 := (hadm.mem_iff order _ e').mp he'
      rw [hslot e.1 (hne_d e h1 hs), hslot e'.1 (hne_d e' h2 hs')] at heq
      have hkey := hinjslot e.1 e'.1 (hne_d e h1 hs) (hne_d e' h2 hs') heq
      exact Prod.ext hkey (hinv.functional e.1 e.2 e'.2 h1 (by rw [hkey]; exact h2))
  have hb : ∀ order : RangeOrder, order.Admissible →
      ∀ w ∈ (order r.sortedFunctions).flatMap
        (delExportFunc.writes pe t (delExportFunc.nameOffsetMap F pe.nameTable) F r.index),
        w.1 + w.2.length ≤ pe.dataExport.length := by
    intro order hadm w hw
    have := writes_in_tables pe t _ pe.Struct.NumberOfNames _ _ _ _
      (del_writes_spec pe t (delExportFunc.nameOffsetMap F pe.nameTable) F r.index)
      (hfacts order hadm).1 w hw
    rw [hta, hto] at this
    rw [pe.length_dataExport]
    omega
  have hsame : applyWrites pe.dataExport ((order1 r.sortedFunctions).flatMap
        (delExportFunc.writes pe t (delExportFunc.nameOffsetMap F pe.nameTable) F r.index)) =
      applyWrites pe.dataExport ((order2 r.sortedFunctions).flatMap
        (delExportFunc.writes pe t (delExportFunc.nameOffsetMap F pe.nameTable) F r.index)) := by
    apply applyWrites_eq_of_consistent _ _ _ (hb order1 hadm1)
    · intro w
      simp only [List.mem_flatMap]
      constructor
      · rintro ⟨e, he, hw⟩
        exact ⟨e, (hadm2.mem_iff order2 _ e).mpr ((hadm1.mem_iff order1 _ e).mp he), hw⟩
      · rintro ⟨e, he, hw⟩
        exact ⟨e, (hadm1.mem_iff order1 _ e).mpr ((hadm2.mem_iff order2 _ e).mp he), hw⟩
    · exact flatMap_writes_consistent pe t _ pe.Struct.NumberOfNames _ _ _ _
        (del_writes_spec pe t (delExportFunc.nameOffsetMap F pe.nameTable) F r.index)
        (by rw [hta, hto]; exact hap) (hfacts order1 hadm1).1 (hfacts order1 hadm1).2
  have hrw : ∀ order : RangeOrder, order.Admissible →
      delExportFunc.rewrite pe t (delExportFunc.nameOffsetMap F pe.nameTable) F r.index
        pe.dataExport (order r.sortedFunctions) =
      some (applyWrites pe.dataExport ((order r.sortedFunctions).flatMap
        (delExportFunc.writes pe t (delExportFunc.nameOffsetMap F pe.nameTable) F r.index))) :=
    fun order hadm =>
      (delExportFunc.del_rewrite_eq_some pe t _ F r.index hd0 _ _ _).mpr ⟨hb order hadm, rfl⟩
  refine ⟨hinjslot, ⟨applyWrites pe.dataExport ((order1 r.sortedFunctions).flatMap
    (delExportFunc.writes pe t (delExportFunc.nameOffsetMap F pe.nameTable) F r.index)),
    ?_, ?_⟩, ?_⟩
  · unfold delExportFunc.afterRewrite
    rw [ht]
    simp only [hr]
    rw [if_neg (by rw [hd]; omega), pe.view_nameTable t ht]
    exact hrw order1 hadm1
  · unfold delExportFunc.afterRewrite
    rw [ht]
    simp only [hr]
    rw [if_neg (by rw [hd]; omega), pe.view_nameTable t ht, hrw order2 hadm2, hsame]
  · unfold delExportFunc.dataExport
    rw [ht]
    simp only [hr]
    rw [if_neg (by rw [hd]; omega), if_neg (by rw [hd]; omega), pe.view_nameTable t ht,
      hrw order1 hadm1, hrw order2 hadm2, hsame]

set_option maxRecDepth 100000 in
/-- The sample block, delete `Beta`, visited first to last and last to first. -/
theorem delExportFunc_order_independent_witness :
    (∀ i j, i ≠ 1 → j ≠ 1 →
      (if i < 1 then i else i - 1) = (if j < 1 then j else j - 1) → i = j) ∧
    (∃ buf1, delExportFunc.afterRewrite (ascii "Beta") samplePE id = some buf1 ∧
      delExportFunc.afterRewrite (ascii "Beta") samplePE List.reverse = some buf1) ∧
    delExportFunc.dataExport (ascii "Beta") samplePE id =
      delExportFunc.dataExport (ascii "Beta") samplePE List.reverse :=
  delExportFunc_order_independent (ascii "Beta") samplePE sampleResolved 1 id List.reverse
    (fun m => List.Perm.refl m) (fun m => List.reverse_perm m)
    (by unfold Parsed.NameTablesApart; decide) (by rfl) (by rfl) (by decide) (by decide)

/-! ## Unresolved functions take part in the rewrite -/

theorem resolveStep_sortedFunctions (buf : Bytes) (s : Slice) (n : Nat) (target : Bytes)
    (st st1 : Resolved) (efunc : ExportFunction)
    (h : resolveStep buf s n target st efunc = some st1) :
    ∃ i, position buf s n efunc.NameRVA = some i ∧
      st1.sortedFunctions = st.sortedFunctions.set i efunc := by
  unfold resolveStep at h
  split at h
  · simp at h
  · rename_i i hi
    simp only at h
    refine ⟨i, hi, ?_⟩
    split at h <;>
    · simp only [Option.some.injEq] at h
      rw [← h]

/-- A key that is in the map, or that is the position of a function still to be
processed, is a key of the final map. -/
theorem resolveFrom_key_mem (buf : Bytes) (s : Slice) (n : Nat) (target : Bytes)
    (functions : List ExportFunction) (st r : Resolved) (k : Nat)
    (h : resolveFrom buf s n target st functions = some r)
    (hk : (∃ g, (k, g) ∈ st.sortedFunctions) ∨
      ∃ f ∈ functions, position buf s n f.NameRVA = some k) :
    ∃ g, (k, g) ∈ r.sortedFunctions := by
  induction functions generalizing st with
  | nil =>
    simp only [resolveFrom, Option.some.injEq] at h
    subst h
    rcases hk with hk | ⟨f, hf, -⟩
    · exact hk
    · simp at hf
  | cons efunc rest ih =>
    unfold resolveFrom at h
    split at h
    · simp at h
    · rename_i st1 hst1
      obtain ⟨i, hi, hset⟩ := resolveStep_sortedFunctions _ _ _ _ _ _ _ hst1
      apply ih st1 h
      by_cases hik : i = k
      · left
        exact ⟨efunc, by rw [hset, ← hik]; exact (FuncMap.mem_set _ _ _ _).mpr (Or.inl rfl)⟩
      · rcases hk with ⟨g, hg⟩ | ⟨f, hf, hpos⟩
        · left
          exact ⟨g, by
            rw [hset]
            exact (FuncMap.mem_set _ _ _ _).mpr (Or.inr ⟨hg, fun h => hik h.symm⟩)⟩
        · rcases List.mem_cons.mp hf with h1 | h1
          · rw [h1, hi] at hpos
            simp only [Option.some.injEq] at hpos
            exact absurd hpos hik
          · right
            exact ⟨f, h1, hpos⟩

/-- Claim C11, as the code has it.  When some parsed function is unresolved (its
`NameRVA` equals no entry of the name-address array, so that the resolver loop
ends at `NumberOfNames`), the map `sortedFunctions` has an entry under the key
`NumberOfNames` that holds an unresolved parsed function, and the rewrite loops
treat it like every other entry: the iteration of `modExportFunc` and
`modExportName` for it writes its values to slot `NumberOfNames`, that is to the
4 bytes after the name-address array and the 2 bytes after the name-ordinal
array, and the iteration of `delExportFunc` (deleted position below
`NumberOfNames`, another name) writes them to slot `NumberOfNames - 1` of both
arrays. -/
theorem unresolved_function_is_written (target : Bytes) (pe : Parsed) (t : Tables)
    (r : Resolved) (f : ExportFunction)
    (ht : pe.tables = some t) (hres : pe.resolved target = some r) (hf : f ∈ pe.Functions)
    (hun : position pe.dataExport t.nameAddrTable pe.Struct.NumberOfNames f.NameRVA =
      some pe.Struct.NumberOfNames) :
    ∃ g, (pe.Struct.NumberOfNames, g) ∈ r.sortedFunctions ∧ g ∈ pe.Functions ∧
      position pe.dataExport t.nameAddrTable pe.Struct.NumberOfNames g.NameRVA =
        some pe.Struct.NumberOfNames ∧
      (∀ m buf out, rewriteInPlaceStep pe t m buf (pe.Struct.NumberOfNames, g) = some out →
        out = writeAt (writeAt buf (pe.nameAddrTableOff + 4 * pe.Struct.NumberOfNames)
            (leBytes 4 (add32 pe.Struct.Name (m.get g.Name))))
          (pe.nameOrdiTableOff + 2 * pe.Struct.NumberOfNames) (leBytes 2 g.NameOrdinal)) ∧
      (∀ m F (d : Int) buf out, 0 ≤ d → d < (pe.Struct.NumberOfNames : Int) → g.Name ≠ F →
        delExportFunc.rewriteStep pe t m F d buf (pe.Struct.NumberOfNames, g) = some out →
        out = writeAt (writeAt buf (pe.nameAddrTableOff + 4 * (pe.Struct.NumberOfNames - 1))
            (leBytes 4 (add32 pe.Struct.Name (m.get g.Name))))
          (pe.nameOrdiTableOff + 2 * (pe.Struct.NumberOfNames - 1))
          (leBytes 2 g.NameOrdinal)) := by
  obtain ⟨t', ht', hr⟩ := pe.resolved_eq_some target r hres
  rw [ht] at ht'
  simp only [Option.some.injEq] at ht'
  subst ht'
  obtain ⟨-, hta, hto, -⟩ := pe.tables_eq_some t ht
  obtain ⟨g, hg⟩ := resolveFrom_key_mem _ _ _ _ _ _ _ pe.Struct.NumberOfNames hr
    (Or.inr ⟨f, hf, hun⟩)
  have horigin := resolveFrom_origin _ _ _ _ _ _ _ hr _ hg
  have horigin' : g ∈ pe.Functions ∧
      position pe.dataExport t.nameAddrTable pe.Struct.NumberOfNames g.NameRVA =
        some pe.Struct.NumberOfNames := by
    rcases horigin with h | h
    · simp [Resolved.init] at h
    · exact h
  refine ⟨g, hg, horigin'.1, horigin'.2, ?_, ?_⟩
  · intro m buf out hstep
    obtain ⟨-, rfl⟩ := (rewriteInPlaceStep_eq_some pe t m buf out _).mp hstep
    simp only [slotWrites, applyWrites_cons, applyWrites_nil, leBytes_two_mod, hta, hto]
  · intro m F d buf out hd0 hdN hname hstep
    obtain ⟨-, rfl⟩ :=
      (delExportFunc.del_rewriteStep_eq_some pe t m F d hd0 buf out _).mp hstep
    have hs : delExportFunc.slot d pe.Struct.NumberOfNames = pe.Struct.NumberOfNames - 1 := by
      unfold delExportFunc.slot
      rw [if_pos (by omega)]
    simp only [delExportFunc.writes, if_neg hname, hs, slotWrites, applyWrites_cons,
      applyWrites_nil, leBytes_two_mod, hta, hto]

set_option maxRecDepth 100000 in
/-- The block with the ordinal-only export: the function of ordinal 4 is
unresolved and sits under key 3. -/
theorem unresolved_function_is_written_witness :
    ∃ g, (sampleOrdPE.Struct.NumberOfNames, g) ∈ sampleOrdResolved.sortedFunctions ∧
      g ∈ sampleOrdPE.Functions ∧
      position sampleOrdPE.dataExport sampleOrdTables.nameAddrTable
        sampleOrdPE.Struct.NumberOfNames g.NameRVA = some sampleOrdPE.Struct.NumberOfNames ∧
      (∀ m buf out, rewriteInPlaceStep sampleOrdPE sampleOrdTables m buf
          (sampleOrdPE.Struct.NumberOfNames, g) = some out →
        out = writeAt (writeAt buf
            (sampleOrdPE.nameAddrTableOff + 4 * sampleOrdPE.Struct.NumberOfNames)
            (leBytes 4 (add32 sampleOrdPE.Struct.Name (m.get g.Name))))
          (sampleOrdPE.nameOrdiTableOff + 2 * sampleOrdPE.Struct.NumberOfNames)
          (leBytes 2 g.NameOrdinal)) ∧
      (∀ m F (d : Int) buf out, 0 ≤ d → d < (sampleOrdPE.Struct.NumberOfNames : Int) →
        g.Name ≠ F →
        delExportFunc.rewriteStep sampleOrdPE sampleOrdTables m F d buf
          (sampleOrdPE.Struct.NumberOfNames, g) = some out →
        out = writeAt (writeAt buf
            (sampleOrdPE.nameAddrTableOff + 4 * (sampleOrdPE.Struct.NumberOfNames - 1))
            (leBytes 4 (add32 sampleOrdPE.Struct.Name (m.get g.Name))))
          (sampleOrdPE.nameOrdiTableOff + 2 * (sampleOrdPE.Struct.NumberOfNames - 1))
          (leBytes 2 g.NameOrdinal)) :=
  unresolved_function_is_written (ascii "Beta") sampleOrdPE sampleOrdTables sampleOrdResolved
    ⟨4, 8240, 0, 0, []⟩ (by rfl) (by rfl) (by decide) (by rfl)

set_option maxRecDepth 100000 in
/-- Claim C11 fails on the code.  In the block with the ordinal-only export
(ordinal 4, no name), deleting `Beta` overwrites slot 2 of the name-address
array, which held the address 4187 of `Gamma`, with `Export.Name` = 4170, and
slot 2 of the name-ordinal array with 0; renaming `Alpha` to `Al`, with the map
visited in the order of the positions, overwrites the first two entries of the
name-ordinal array (0 and 1 before) with the four bytes of `Export.Name`. -/
theorem unresolved_function_counterexample :
    sampleOrdPE.isResolved ⟨4, 8240, 0, 0, []⟩ = false ∧
    delExportFunc.dataExport (ascii "Beta") sampleOrdPE id = Outcome.done sampleOrdDeleted ∧
    field sampleOrdPE.dataExport (56 + 4 * 2) 4 = leBytes 4 4187 ∧
    field sampleOrdDeleted (56 + 4 * 2) 4 = leBytes 4 4170 ∧
    field sampleOrdPE.dataExport (68 + 2 * 2) 2 = leBytes 2 2 ∧
    field sampleOrdDeleted (68 + 2 * 2) 2 = leBytes 2 0 ∧
    modExportFunc.dataExport (ascii "Alpha") (ascii "Al") sampleOrdPE List.reverse =
      Outcome.done sampleOrdRenamed ∧
    field sampleOrdPE.dataExport 68 4 = leBytes 2 0 ++ leBytes 2 1 ∧
    field sampleOrdRenamed 68 4 = leBytes 4 4170 := by
  refine ⟨by rfl, by rfl, by rfl, by rfl, by rfl, by rfl, by rfl, by rfl, by rfl⟩

/-! ## The commands at the level of files -/

/-- Claim C15.  Every command returns at its parameter checks when one of its
required parameters is the empty string (list: source file; delete: function
name, source file, destination file; rename: old name, new name, source file,
destination file; module rename: new module name, source file, destination
file): it opens no file for reading, prints nothing, writes no file and ends
normally. -/
theorem missing_parameter_is_noop (env : Env) (order : RangeOrder) (a b : Bytes)
    (src dst : String) :
    listExportFuncs env "" = Effects.skipped ∧
    (delExportFunc env order [] src dst = Effects.skipped ∧
      delExportFunc env order a "" dst = Effects.skipped ∧
      delExportFunc env order a src "" = Effects.skipped) ∧
    (modExportFunc env order [] b src dst = Effects.skipped ∧
      modExportFunc env order a [] src dst = Effects.skipped ∧
      modExportFunc env order a b "" dst = Effects.skipped ∧
      modExportFunc env order a b src "" = Effects.skipped) ∧
    (modExportName env order [] src dst = Effects.skipped ∧
      modExportName env order a "" dst = Effects.skipped ∧
      modExportName env order a src "" = Effects.skipped) ∧
    Effects.skipped.reads = [] ∧ Effects.skipped.printed = none ∧
    Effects.skipped.writes = [] ∧ Effects.skipped.exit = Exit.normal := by
  refine ⟨?_, ⟨?_, ?_, ?_⟩, ⟨?_, ?_, ?_, ?_⟩, ⟨?_, ?_, ?_⟩, rfl, rfl, rfl, rfl⟩
  · simp [listExportFuncs]
  · simp [delExportFunc]
  · unfold delExportFunc; split <;> simp
  · unfold delExportFunc; split <;> [rfl; (split <;> simp)]
  · simp [modExportFunc]
  · unfold modExportFunc; split <;> simp
  · unfold modExportFunc; split <;> [rfl; (split <;> simp)]
  · unfold modExportFunc; split <;> [rfl; (split <;> [rfl; (split <;> simp)])]
  · simp [modExportName]
  · unfold modExportName; split <;> simp
  · unfold modExportName; split <;> [rfl; (split <;> simp)]

/-! ### Runs that write a file -/

theorem finish_writes (env : Env) (img : Image) (file : Bytes) (src dst : String)
    (o : Outcome) (dst' : String) (out : Bytes)
    (h : (finish env img file src dst o).writes = [(dst', out)]) :
    ∃ blk, o = Outcome.done blk ∧ writeBack env img file blk = some out ∧ dst' = dst := by
  cases o with
  | fatal => simp [finish, Effects.fatal] at h
  | noop => simp [finish, Effects.notFound] at h
  | done blk =>
    have h' : (match writeBack env img file blk with
        | none => Effects.fatal src
        | some filebuf => Effects.written src dst filebuf).writes = [(dst', out)] := h
    cases hfb : writeBack env img file blk with
    | none => rw [hfb] at h'; simp [Effects.fatal] at h'
    | some fb =>
      rw [hfb] at h'
      simp only [Effects.written, List.cons.injEq, Prod.mk.injEq, and_true] at h'
      exact ⟨blk, rfl, by rw [← h'.2]; exact hfb, h'.1.symm⟩

/-- A run of the common part that writes a file has read and parsed the source
file, its block handling has ended with a patched block, and the file written is
the result of `writeBack`. -/
theorem withImage_writes (env : Env) (src dst : String) (block : Parsed → Outcome)
    (dst' : String) (out : Bytes)
    (h : (withImage env src dst block).writes = [(dst', out)]) :
    ∃ file img blk, env.ReadFile src = some file ∧ env.Parse file = some img ∧
      block img.pe = Outcome.done blk ∧ writeBack env img file blk = some out ∧ dst' = dst := by
  unfold withImage at h
  split at h
  · simp [Effects.fatal] at h
  · rename_i file hfile
    split at h
    · simp [Effects.fatal] at h
    · rename_i img himg
      split at h
      · simp [Effects.fatal] at h
      · obtain ⟨blk, hb, hw, hd⟩ := finish_writes env img file src dst _ dst' out h
        exact ⟨file, img, blk, hfile, himg, hb, hw, hd⟩

theorem delExportFunc_writes (env : Env) (order : RangeOrder) (F : Bytes) (src dst : String)
    (dst' : String) (out : Bytes)
    (h : (delExportFunc env order F src dst).writes = [(dst', out)]) :
    (withImage env src dst (fun pe => delExportFunc.dataExport F pe order)).writes =
      [(dst', out)] := by
  unfold delExportFunc at h
  split at h
  · simp [Effects.skipped] at h
  · split at h
    · simp [Effects.skipped] at h
    · split at h
      · simp [Effects.skipped] at h
      · exact h

theorem modExportFunc_writes (env : Env) (order : RangeOrder) (old new : Bytes)
    (src dst : String) (dst' : String) (out : Bytes)
    (h : (modExportFunc env order old new src dst).writes = [(dst', out)]) :
    (withImage env src dst (fun pe => modExportFunc.dataExport old new pe order)).writes =
      [(dst', out)] := by
  unfold modExportFunc at h
  split at h
  · simp [Effects.skipped] at h
  · split at h
    · simp [Effects.skipped] at h
    · split at h
      · simp [Effects.skipped] at h
      · split at h
        · simp [Effects.skipped] at h
        · exact h

theorem modExportName_writes (env : Env) (order : RangeOrder) (name : Bytes)
    (src dst : String) (dst' : String) (out : Bytes)
    (h : (modExportName env order name src dst).writes = [(dst', out)]) :
    (withImage env src dst (fun pe => modExportName.dataExport name pe order)).writes =
      [(dst', out)] := by
  unfold modExportName at h
  split at h
  · simp [Effects.skipped] at h
  · split at h
    · simp [Effects.skipped] at h
    · split at h
      · simp [Effects.skipped] at h
      · exact h

/-- What `writeBack` returns: the patched image with the optional-header copy,
checksum stored at its offset 64, written over it at `optHeaderOffset`. -/
theorem writeBack_eq_some (env : Env) (img : Image) (file blk out : Bytes)
    (h : writeBack env img file blk = some out) :
    ∃ patched, patchedImage img file blk = some patched ∧
      patched.length = file.length ∧
      (∀ j, ¬ (img.dirExportOffset ≤ j ∧ j < img.dirExportOffset + blk.length) →
        patched[j]? = file[j]?) ∧
      68 ≤ (getOptionalHeader env img).length ∧
      optHeaderOffset env img + (getOptionalHeader env img).length ≤ file.length ∧
      out = writeAt patched (optHeaderOffset env img)
        (writeAt (getOptionalHeader env img) 64 (leBytes 4 (getChecksum env patched))) := by
  unfold writeBack at h
  split at h
  · simp at h
  · rename_i patched hp
    simp only at h
    split at h
    · simp at h
    · rename_i hdr1 hw
      split at h
      · simp at h
      · rename_i s hs
        simp only [Option.some.injEq] at h
        obtain ⟨-, hb, rfl⟩ := WriteInteger_eq_some _ _ _ _ _ _ hw
        have h64 : ((64 : Int)).toNat = 64 := by decide
        rw [h64] at hb hs h
        simp only [Nat.zero_add, Nat.sub_zero, leBytes_four_mod] at hb hs h
        have hl1 : (writeAt (getOptionalHeader env img) 64
            (leBytes 4 (getChecksum env patched))).length = (getOptionalHeader env img).length :=
          length_writeAt _ _ _ (by rw [length_leBytes]; omega)
        obtain ⟨hs1, hs2, hs3, hs4⟩ := sliceOf_eq_some _ _ _ _ hs
        rw [hl1] at hs2 hs4
        -- the patched image
        have hp0 := hp
        unfold patchedImage at hp
        split at hp
        · simp at hp
        · rename_i s0 hs0
          simp only [Option.some.injEq] at hp
          obtain ⟨h01, h02, h03, h04⟩ := sliceOf_eq_some _ _ _ _ hs0
          have hin : s0.off + (List.take s0.len blk).length ≤ file.length := by
            rw [List.length_take, h01, h02]; omega
          have hpl : patched.length = file.length := by
            rw [← hp]; exact length_writeAt _ _ _ hin
          refine ⟨patched, hp0, hpl, ?_, by omega, by rw [← hpl]; exact hs4, ?_⟩
          · intro j hj
            rw [← hp]
            unfold goCopy
            rw [getElem?_writeAt _ _ _ hin, if_neg]
            rw [List.length_take, h01]
            intro hc
            apply hj
            omega
          · rw [← h]
            unfold goCopy
            rw [hs1, hs2, List.take_of_length_le (by rw [hl1]; omega)]

/-- Claim C14.  Whenever one of the three commands writes a file, for the 32-bit
and for the 64-bit optional header alike, the 4 bytes at file offset
`optHeaderOffset + 64` of the file written are the little-endian encoding of
`getChecksum` applied to the image buffer into which the patched directory
block has been copied: the checksum is taken after all directory patches. -/
theorem checksum_field_of_written (env : Env) (order : RangeOrder) (src : String) :
    (∀ F dst dst' out, (delExportFunc env order F src dst).writes = [(dst', out)] →
      ∃ file img blk patched, env.ReadFile src = some file ∧ env.Parse file = some img ∧
        delExportFunc.dataExport F img.pe order = Outcome.done blk ∧
        patchedImage img file blk = some patched ∧
        field out (optHeaderOffset env img + 64) 4 = leBytes 4 (getChecksum env patched)) ∧
    (∀ old new dst dst' out,
      (modExportFunc env order old new src dst).writes = [(dst', out)] →
      ∃ file img blk patched, env.ReadFile src = some file ∧ env.Parse file = some img ∧
        modExportFunc.dataExport old new img.pe order = Outcome.done blk ∧
        patchedImage img file blk = some patched ∧
        field out (optHeaderOffset env img + 64) 4 = leBytes 4 (getChecksum env patched)) ∧
    (∀ name dst dst' out, (modExportName env order name src dst).writes = [(dst', out)] →
      ∃ file img blk patched, env.ReadFile src = some file ∧ env.Parse file = some img ∧
        modExportName.dataExport name img.pe order = Outcome.done blk ∧
        patchedImage img file blk = some patched ∧
        field out (optHeaderOffset env img + 64) 4 = leBytes 4 (getChecksum env patched)) := by
  have hfield : ∀ (img : Image) (file blk out : Bytes),
      writeBack env img file blk = some out →
      ∃ patched, patchedImage img file blk = some patched ∧
        field out (optHeaderOffset env img + 64) 4 = leBytes 4 (getChecksum env patched) := by
    intro img file blk out h
    obtain ⟨patched, hp, hpl, -, h68, hin, rfl⟩ := writeBack_eq_some env img file blk out h
    refine ⟨patched, hp, ?_⟩
    have hl1 : (writeAt (getOptionalHeader env img) 64
        (leBytes 4 (getChecksum env patched))).length = (getOptionalHeader env img).length :=
      length_writeAt _ _ _ (by rw [length_leBytes]; omega)
    have h4 := field_eq_of_getElem? (writeAt patched (optHeaderOffset env img)
      (writeAt (getOptionalHeader env img) 64 (leBytes 4 (getChecksum env patched))))
      (optHeaderOffset env img + 64) (leBytes 4 (getChecksum env patched))
    rw [length_leBytes] at h4
    apply h4
    intro j hj1 hj2
    rw [getElem?_writeAt _ _ _ (by rw [hl1, hpl]; exact hin), hl1, if_pos (by omega),
      getElem?_writeAt _ _ _ (by rw [length_leBytes]; omega), length_leBytes,
      if_pos (by omega), Nat.sub_sub]
  refine ⟨?_, ?_, ?_⟩
  · intro F dst dst' out h
    obtain ⟨file, img, blk, h1, h2, h3, h4, -⟩ :=
      withImage_writes env src dst _ dst' out (delExportFunc_writes env order F src dst dst' out h)
    obtain ⟨patched, h5, h6⟩ := hfield img file blk out h4
    exact ⟨file, img, blk, patched, h1, h2, h3, h5, h6⟩
  · intro old new dst dst' out h
    obtain ⟨file, img, blk, h1, h2, h3, h4, -⟩ :=
      withImage_writes env src dst _ dst' out
        (modExportFunc_writes env order old new src dst dst' out h)
    obtain ⟨patched, h5, h6⟩ := hfield img file blk out h4
    exact ⟨file, img, blk, patched, h1, h2, h3, h5, h6⟩
  · intro name dst dst' out h
    obtain ⟨file, img, blk, h1, h2, h3, h4, -⟩ :=
      withImage_writes env src dst _ dst' out
        (modExportName_writes env order name src dst dst' out h)
    obtain ⟨patched, h5, h6⟩ := hfield img file blk out h4
    exact ⟨file, img, blk, patched, h1, h2, h3, h5, h6⟩

set_option maxRecDepth 1000000 in
/-- The sample file, delete `Beta`: the run writes `sampleWritten`. -/
theorem checksum_field_of_written_witness :
    (delExportFunc sampleEnv id (ascii "Beta") "in.dll" "out.dll").writes =
      [("out.dll", sampleWritten)] ∧
    ∃ file img blk patched, sampleEnv.ReadFile "in.dll" = some file ∧
      sampleEnv.Parse file = some img ∧
      delExportFunc.dataExport (ascii "Beta") img.pe id = Outcome.done blk ∧
      patchedImage img file blk = some patched ∧
      field sampleWritten (optHeaderOffset sampleEnv img + 64) 4 =
        leBytes 4 (getChecksum sampleEnv patched) :=
  ⟨by rfl, (checksum_field_of_written sampleEnv id "in.dll").1 (ascii "Beta") "out.dll" "out.dll"
    sampleWritten (by rfl)⟩

/-! ### The file written differs from the file read in two places only -/

theorem length_getOptionalHeader (env : Env) (img : Image) :
    (getOptionalHeader env img).length = optHeaderSize env img := by
  simp only [getOptionalHeader, List.length_append, List.length_take, List.length_replicate]
  omega

theorem length_field (buf : Bytes) (pos w : Nat) (h : pos + w ≤ buf.length) :
    (field buf pos w).length = w := by
  simp only [field, List.length_take, List.length_drop]
  omega

/-- The frame of `writeBack`: same length, and outside the directory range and
the four checksum bytes the bytes of the file read, provided the optional-header
bytes the parser returned are those of the file. -/
theorem writeBack_frame (env : Env) (img : Image) (file blk out : Bytes)
    (h : writeBack env img file blk = some out)
    (hblk : blk.length = img.pe.dirExport.Size)
    (hopt : img.optHeaderOri = field file (optHeaderOffset env img) (optHeaderSize env img)) :
    out.length = file.length ∧
    ∀ j, ¬ (img.dirExportOffset ≤ j ∧ j < img.dirExportOffset + img.pe.dirExport.Size) →
      ¬ (optHeaderOffset env img + 64 ≤ j ∧ j < optHeaderOffset env img + 68) →
      out[j]? = file[j]? := by
  obtain ⟨patched, -, hpl, hframe, h68, hin, rfl⟩ := writeBack_eq_some env img file blk out h
  rw [hblk] at hframe
  have hsize := length_getOptionalHeader env img
  rw [hsize] at h68 hin
  have hhdr : getOptionalHeader env img =
      field file (optHeaderOffset env img) (optHeaderSize env img) := by
    unfold getOptionalHeader
    rw [hopt, length_field _ _ _ hin, Nat.sub_self, List.replicate_zero, List.append_nil]
    apply List.take_of_length_le
    rw [length_field _ _ _ hin]
  have hl1 : (writeAt (getOptionalHeader env img) 64
      (leBytes 4 (getChecksum env patched))).length = optHeaderSize env img := by
    rw [length_writeAt _ _ _ (by rw [length_leBytes, hsize]; omega), hsize]
  constructor
  · rw [length_writeAt _ _ _ (by rw [hl1, hpl]; exact hin), hpl]
  · intro j hdir hck
    rw [getElem?_writeAt _ _ _ (by rw [hl1, hpl]; exact hin), hl1]
    by_cases hj : optHeaderOffset env img ≤ j ∧ j < optHeaderOffset env img + optHeaderSize env img
    · rw [if_pos hj, getElem?_writeAt _ _ _ (by rw [length_leBytes, hsize]; omega),
        length_leBytes, if_neg (by omega), hhdr, getElem?_field, if_pos (by omega)]
      congr 1
      omega
    · rw [if_neg hj]
      exact hframe j hdir

theorem del_length_of_done (F : Bytes) (pe : Parsed) (order : RangeOrder) (blk : Bytes)
    (h : delExportFunc.dataExport F pe order = Outcome.done blk) :
    blk.length = pe.dirExport.Size := by
  obtain ⟨t, r, -, -, -, -, hb, rfl⟩ := delExportFunc.del_dataExport_eq_done F pe order blk h
  rw [length_applyWrites _ _ hb, pe.length_dataExport]

theorem mod_length_of_done (old new : Bytes) (pe : Parsed) (order : RangeOrder) (blk : Bytes)
    (h : modExportFunc.dataExport old new pe order = Outcome.done blk) :
    blk.length = pe.dirExport.Size := by
  obtain ⟨t, r, -, -, -, hb, rfl⟩ :=
    modExportFunc.mod_dataExport_eq_done old new pe order blk h
  rw [length_applyWrites _ _ hb, pe.length_dataExport]

theorem name_length_of_done (name : Bytes) (pe : Parsed) (order : RangeOrder) (blk : Bytes)
    (h : modExportName.dataExport name pe order = Outcome.done blk) :
    blk.length = pe.dirExport.Size := by
  obtain ⟨t, r, -, -, hb, rfl⟩ := modExportName.name_dataExport_eq_done name pe order blk h
  rw [length_applyWrites _ _ hb, pe.length_dataExport]

/-- Claim C13.  Let the source file be read and parsed, the optional-header
bytes returned by the parser being those of the file.  Whenever one of the three
commands writes a file, the file written has the length of the file read, the
patched directory block has the length `dirExport.Size` of the original one,
and every byte of the file written outside the range
`[dirExportOffset, dirExportOffset + Size)` and outside the 4 checksum bytes at
offset 64 of the optional header equals the byte of the file read at the same
position. -/
theorem written_file_frame (env : Env) (order : RangeOrder) (src : String) (file : Bytes)
    (img : Image)
    (hread : env.ReadFile src = some file) (hparse : env.Parse file = some img)
    (hopt : img.optHeaderOri = field file (optHeaderOffset env img) (optHeaderSize env img)) :
    (∀ F dst dst' out, (delExportFunc env order F src dst).writes = [(dst', out)] →
      out.length = file.length ∧
      (∃ blk, delExportFunc.dataExport F img.pe order = Outcome.done blk ∧
        blk.length = img.pe.dirExport.Size) ∧
      ∀ j, ¬ (img.dirExportOffset ≤ j ∧ j < img.dirExportOffset + img.pe.dirExport.Size) →
        ¬ (optHeaderOffset env img + 64 ≤ j ∧ j < optHeaderOffset env img + 68) →
        out[j]? = file[j]?) ∧
    (∀ old new dst dst' out,
      (modExportFunc env order old new src dst).writes = [(dst', out)] →
      out.length = file.length ∧
      (∃ blk, modExportFunc.dataExport old new img.pe order = Outcome.done blk ∧
        blk.length = img.pe.dirExport.Size) ∧
      ∀ j, ¬ (img.dirExportOffset ≤ j ∧ j < img.dirExportOffset + img.pe.dirExport.Size) →
        ¬ (optHeaderOffset env img + 64 ≤ j ∧ j < optHeaderOffset env img + 68) →
        out[j]? = file[j]?) ∧
    (∀ name dst dst' out, (modExportName env order name src dst).writes = [(dst', out)] →
      out.length = file.length ∧
      (∃ blk, modExportName.dataExport name img.pe order = Outcome.done blk ∧
        blk.length = img.pe.dirExport.Size) ∧
      ∀ j, ¬ (img.dirExportOffset ≤ j ∧ j < img.dirExportOffset + img.pe.dirExport.Size) →
        ¬ (optHeaderOffset env img + 64 ≤ j ∧ j < optHeaderOffset env img + 68) →
        out[j]? = file[j]?) := by
  have hsame : ∀ (file' : Bytes) (img' : Image), env.ReadFile src = some file' →
      env.Parse file' = some img' → file' = file ∧ img' = img := by
    intro file' img' h1 h2
    rw [hread] at h1
    simp only [Option.some.injEq] at h1
    subst h1
    rw [hparse] at h2
    simp only [Option.some.injEq] at h2
    exact ⟨rfl, h2.symm⟩
  refine ⟨?_, ?_, ?_⟩
  · intro F dst dst' out h
    obtain ⟨file', img', blk, h1, h2, h3, h4, -⟩ :=
      withImage_writes env src dst _ dst' out (delExportFunc_writes env order F src dst dst' out h)
    obtain ⟨rfl, rfl⟩ := hsame file' img' h1 h2
    have hlen := del_length_of_done F img'.pe order blk h3
    obtain ⟨h5, h6⟩ := writeBack_frame env img' file' blk out h4 hlen hopt
    exact ⟨h5, ⟨blk, h3, hlen⟩, h6⟩
  · intro old new dst dst' out h
    obtain ⟨file', img', blk, h1, h2, h3, h4, -⟩ :=
      withImage_writes env src dst _ dst' out
        (modExportFunc_writes env order old new src dst dst' out h)
    obtain ⟨rfl, rfl⟩ := hsame file' img' h1 h2
    have hlen := mod_length_of_done old new img'.pe order blk h3
    obtain ⟨h5, h6⟩ := writeBack_frame env img' file' blk out h4 hlen hopt
    exact ⟨h5, ⟨blk, h3, hlen⟩, h6⟩
  · intro name dst dst' out h
    obtain ⟨file', img', blk, h1, h2, h3, h4, -⟩ :=
      withImage_writes env src dst _ dst' out
        (modExportName_writes env order name src dst dst' out h)
    obtain ⟨rfl, rfl⟩ := hsame file' img' h1 h2
    have hlen := name_length_of_done name img'.pe order blk h3
    obtain ⟨h5, h6⟩ := writeBack_frame env img' file' blk out h4 hlen hopt
    exact ⟨h5, ⟨blk, h3, hlen⟩, h6⟩

set_option maxRecDepth 1000000 in
/-- The sample file, delete `Beta`: outside file offsets 248-340 and 88-91 the
file written is the file read. -/
theorem written_file_frame_witness :
    (delExportFunc sampleEnv id (ascii "Beta") "in.dll" "out.dll").writes =
      [("out.dll", sampleWritten)] ∧
    sampleWritten.length = sampleFile.length ∧
    (∃ blk, delExportFunc.dataExport (ascii "Beta") (sampleImage sampleFile).pe id =
        Outcome.done blk ∧ blk.length = (sampleImage sampleFile).pe.dirExport.Size) ∧
    ∀ j, ¬ ((sampleImage sampleFile).dirExportOffset ≤ j ∧
        j < (sampleImage sampleFile).dirExportOffset +
          (sampleImage sampleFile).pe.dirExport.Size) →
      ¬ (optHeaderOffset sampleEnv (sampleImage sampleFile) + 64 ≤ j ∧
        j < optHeaderOffset sampleEnv (sampleImage sampleFile) + 68) →
      sampleWritten[j]? = sampleFile[j]? :=
  ⟨by rfl, (written_file_frame sampleEnv id "in.dll" sampleFile (sampleImage sampleFile)
    (by rfl) (by rfl) (by rfl)).1 (ascii "Beta") "out.dll" "out.dll" sampleWritten (by rfl)⟩

/-! ### A name that is not found -/

theorem resolveFrom_index_of_no_match (buf : Bytes) (s : Slice) (n : Nat) (target : Bytes)
    (functions : List ExportFunction) (st r : Resolved)
    (hnot : ∀ f ∈ functions, f.Name ≠ target)
    (h : resolveFrom buf s n target st functions = some r) : r.index = st.index := by
  induction functions generalizing st with
  | nil =>
    simp only [resolveFrom, Option.some.injEq] at h
    rw [← h]
  | cons efunc rest ih =>
    unfold resolveFrom at h
    split at h
    · simp at h
    · rename_i st1 hst1
      have h1 : st1.index = st.index := by
        unfold resolveStep at hst1
        split at hst1
        · simp at hst1
        · simp only at hst1
          rw [if_neg (hnot efunc (List.mem_cons_self _ _))] at hst1
          simp only [Option.some.injEq] at hst1
          rw [← hst1]
      rw [ih st1 (fun f hf => hnot f (List.mem_cons_of_mem _ hf)) h, h1]

theorem resolveFrom_isSome (buf : Bytes) (s : Slice) (n : Nat) (target : Bytes)
    (functions : List ExportFunction) (st : Resolved) (htab : s.off + 4 * n ≤ buf.length) :
    ∃ r, resolveFrom buf s n target st functions = some r := by
  induction functions generalizing st with
  | nil => exact ⟨st, rfl⟩
  | cons efunc rest ih =>
    obtain ⟨i, hi, -⟩ := position_least buf s n efunc.NameRVA htab
    unfold resolveFrom resolveStep
    rw [hi]
    by_cases hn : efunc.Name = target
    · simp only [hn, if_true]
      exact ih _
    · simp only [hn, if_false]
      exact ih _

theorem del_dataExport_of_no_match (F : Bytes) (pe : Parsed) (order : RangeOrder)
    (hnot : ∀ f ∈ pe.Functions, f.Name ≠ F) :
    (delExportFunc.dataExport F pe order = Outcome.noop ∨
      delExportFunc.dataExport F pe order = Outcome.fatal) ∧
    (pe.tables ≠ none →
      pe.nameAddrTableOff + 4 * pe.Struct.NumberOfNames ≤ pe.dirExport.Size →
      delExportFunc.dataExport F pe order = Outcome.noop) := by
  unfold delExportFunc.dataExport
  cases ht : pe.tables with
  | none => exact ⟨Or.inr rfl, fun h => absurd rfl h⟩
  | some t =>
    simp only
    cases hr : resolve pe.dataExport t.nameAddrTable pe.Struct.NumberOfNames F pe.Functions with
    | none =>
      refine ⟨Or.inr rfl, fun _ htab => ?_⟩
      obtain ⟨-, hta, -⟩ := pe.tables_eq_some t ht
      obtain ⟨r, hr'⟩ := resolveFrom_isSome pe.dataExport t.nameAddrTable
        pe.Struct.NumberOfNames F pe.Functions Resolved.init
        (by rw [hta, pe.length_dataExport]; exact htab)
      unfold resolve at hr
      rw [hr] at hr'
      simp at hr'
    | some r =>
      have hidx : r.index = -1 := resolveFrom_index_of_no_match _ _ _ _ _ _ _ hnot hr
      simp [hidx]

theorem mod_dataExport_of_no_match (old new : Bytes) (pe : Parsed) (order : RangeOrder)
    (hnot : ∀ f ∈ pe.Functions, f.Name ≠ old) :
    (modExportFunc.dataExport old new pe order = Outcome.noop ∨
      modExportFunc.dataExport old new pe order = Outcome.fatal) ∧
    (pe.tables ≠ none →
      pe.nameAddrTableOff + 4 * pe.Struct.NumberOfNames ≤ pe.dirExport.Size →
      modExportFunc.dataExport old new pe order = Outcome.noop) := by
  unfold modExportFunc.dataExport
  cases ht : pe.tables with
  | none => exact ⟨Or.inr rfl, fun h => absurd rfl h⟩
  | some t =>
    simp only
    cases hr : resolve pe.dataExport t.nameAddrTable pe.Struct.NumberOfNames old
        pe.Functions with
    | none =>
      refine ⟨Or.inr rfl, fun _ htab => ?_⟩
      obtain ⟨-, hta, -⟩ := pe.tables_eq_some t ht
      obtain ⟨r, hr'⟩ := resolveFrom_isSome pe.dataExport t.nameAddrTable
        pe.Struct.NumberOfNames old pe.Functions Resolved.init
        (by rw [hta, pe.length_dataExport]; exact htab)
      unfold resolve at hr
      rw [hr] at hr'
      simp at hr'
    | some r =>
      have hidx : r.index = -1 := resolveFrom_index_of_no_match _ _ _ _ _ _ _ hnot hr
      simp [hidx]

theorem withImage_of_noop_or_fatal (env : Env) (src dst : String) (block : Parsed → Outcome)
    (h : ∀ img file, env.ReadFile src = some file → env.Parse file = some img →
      block img.pe = Outcome.noop ∨ block img.pe = Outcome.fatal) :
    (withImage env src dst block).writes = [] := by
  unfold withImage
  split
  · rfl
  · rename_i file hfile
    split
    · rfl
    · rename_i img himg
      split
      · rfl
      · rcases h img file hfile himg with h1 | h1 <;> rw [h1] <;> rfl

/-- Claim C12.  Let the source file be read and parsed, and let the target name
be the `Name` of no parsed exported function.  Then `delExportFunc` and
`modExportFunc` write no file; and when the arguments are non-empty, the block
was fetched, the four slices are in range and the name-address array lies
inside the block, both return normally after reading the source file, without
any output. -/
theorem name_not_found_writes_nothing (env : Env) (order : RangeOrder) (F new : Bytes)
    (src dst : String) (file : Bytes) (img : Image)
    (hread : env.ReadFile src = some file) (hparse : env.Parse file = some img)
    (hnot : ∀ f ∈ img.pe.Functions, f.Name ≠ F) :
    (delExportFunc env order F src dst).writes = [] ∧
    (modExportFunc env order F new src dst).writes = [] ∧
    (F ≠ [] → src ≠ "" → dst ≠ "" → img.getDataError = false → img.pe.tables ≠ none →
      img.pe.nameAddrTableOff + 4 * img.pe.Struct.NumberOfNames ≤ img.pe.dirExport.Size →
      delExportFunc env order F src dst = Effects.notFound src ∧
      (new ≠ [] → modExportFunc env order F new src dst = Effects.notFound src)) := by
  have hsame : ∀ (img' : Image) (file' : Bytes), env.ReadFile src = some file' →
      env.Parse file' = some img' → img' = img := by
    intro img' file' h1 h2
    rw [hread] at h1
    simp only [Option.some.injEq] at h1
    subst h1
    rw [hparse] at h2
    simp only [Option.some.injEq] at h2
    exact h2.symm
  refine ⟨?_, ?_, ?_⟩
  · unfold delExportFunc
    split
    · rfl
    · split
      · rfl
      · split
        · rfl
        · apply withImage_of_noop_or_fatal
          intro img' file' h1 h2
          rw [hsame img' file' h1 h2]
          exact (del_dataExport_of_no_match F img.pe order hnot).1
  · unfold modExportFunc
    split
    · rfl
    · split
      · rfl
      · split
        · rfl
        · split
          · rfl
          · apply withImage_of_noop_or_fatal
            intro img' file' h1 h2
            rw [hsame img' file' h1 h2]
            exact (mod_dataExport_of_no_match F new img.pe order hnot).1
  · intro hF hsrc hdst hget htab hin
    constructor
    · unfold delExportFunc
      rw [if_neg hF, if_neg hsrc, if_neg hdst]
      unfold withImage
      rw [hread]
      simp only [hparse, hget]
      rw [(del_dataExport_of_no_match F img.pe order hnot).2 htab hin]
      rfl
    · intro hnew
      unfold modExportFunc
      rw [if_neg hF, if_neg hnew, if_neg hsrc, if_neg hdst]
      unfold withImage
      rw [hread]
      simp only [hparse, hget]
      rw [(mod_dataExport_of_no_match F new img.pe order hnot).2 htab hin]
      rfl

set_option maxRecDepth 1000000 in
/-- The sample file has no export named `Nope`. -/
theorem name_not_found_writes_nothing_witness :
    (delExportFunc sampleEnv id (ascii "Nope") "in.dll" "out.dll").writes = [] ∧
    (modExportFunc sampleEnv id (ascii "Nope") (ascii "New") "in.dll" "out.dll").writes = [] ∧
    (ascii "Nope" ≠ [] → "in.dll" ≠ "" → "out.dll" ≠ "" →
      (sampleImage sampleFile).getDataError = false →
      (sampleImage sampleFile).pe.tables ≠ none →
      (sampleImage sampleFile).pe.nameAddrTableOff +
          4 * (sampleImage sampleFile).pe.Struct.NumberOfNames ≤
        (sampleImage sampleFile).pe.dirExport.Size →
      delExportFunc sampleEnv id (ascii "Nope") "in.dll" "out.dll" = Effects.notFound "in.dll" ∧
      (ascii "New" ≠ [] →
        modExportFunc sampleEnv id (ascii "Nope") (ascii "New") "in.dll" "out.dll" =
          Effects.notFound "in.dll")) :=
  name_not_found_writes_nothing sampleEnv id (ascii "Nope") (ascii "New") "in.dll" "out.dll"
    sampleFile (sampleImage sampleFile) (by rfl) (by rfl) (by decide)

end Mpe
